import Mathlib

/-!
# Coin and name state cache (coins.cpp) — verification development

Shallow embedding of `src/coins.cpp`: the coin record `CCoins`, the cache view
`CCoinsViewCache` with its `FRESH`/`DIRTY` flags, the modifier handle, and the
batch-write / flush protocol between stacked views.

Conventions of the embedding:

* a `std::vector` is a `List`, a `uint256` is a `Nat` (`0` is the null hash);
* an `unordered_map` is an association list, looked up by key with `mapFind`;
  an iterator into the map is the key it points at;
* a failed `assert` is the result `none` ("trap");
* a `const` method that changes `mutable` members returns the new state;
* `size_t` arithmetic wraps modulo `2 ^ 64`.

What the embedding needs of `coins.h`, `undo.h`, `names/common.h` and the
backing store is modelled from the specification and marked so;
`memusage::DynamicUsage` is a parameter of the operations.
-/

namespace Coins

/-! ## Data model -/

/-- A 256-bit hash (transaction id, block hash); `0` is the null value. -/
abbrev uint256 := Nat

/-- A byte string (`std::vector<unsigned char>`), used for names and values. -/
abbrev valtype := List Nat

/-- Modelled from the spec: a present output carries a value and a locking
script (`CTxOut` of primitives/transaction.h). -/
structure CTxOut where
  nValue : Int
  scriptPubKey : List Nat
deriving DecidableEq, Repr

/-- Modelled from the spec: the coin record of coins.h, "coinbase flag, height,
version and an ordered sequence outputs whose element at index i is either a
present output or the sentinel null"; `none` is the null output. -/
structure CCoins where
  fCoinBase : Bool
  vout : List (Option CTxOut)
  nHeight : Int
  nVersion : Int
deriving DecidableEq, Repr

/-- Modelled from the spec: the undo record of undo.h, the removed output plus
the metadata of the record, which a plain `CTxInUndo(txout)` leaves at the
defaults `false`, `0`, `0`. -/
structure CTxInUndo where
  txout : Option CTxOut
  fCoinBase : Bool
  nHeight : Int
  nVersion : Int
deriving DecidableEq, Repr

/-- Modelled from the spec: the constructor `CTxInUndo(txout)` of undo.h, which
captures the output and carries no metadata. -/
def CTxInUndo.ofTxOut (o : Option CTxOut) : CTxInUndo :=
  { txout := o, fCoinBase := false, nHeight := 0, nVersion := 0 }

/-- The element `vout[i]` of an output vector (null beyond the end, where the
code never reads). -/
def voutAt (v : List (Option CTxOut)) (i : Nat) : Option CTxOut :=
  v.getD i none

/-- Modelled from the spec: `CCoins::Cleanup` of coins.h, "re-establishes T by
popping trailing nulls": `while (!vout.empty() && vout.back().IsNull()) pop_back`. -/
def CCoins.Cleanup (c : CCoins) : CCoins :=
  { c with vout := c.vout.rdropWhile (fun o => o.isNone) }

/-- Modelled from the spec: `CCoins::IsPruned` of coins.h, "is-pruned(): outputs
is empty". -/
def CCoins.IsPruned (c : CCoins) : Bool :=
  c.vout.isEmpty

/-- Modelled from the spec: `CCoins::IsAvailable` of coins.h, "true iff
i < len(outputs) and outputs[i] != null". -/
def CCoins.IsAvailable (c : CCoins) (i : Nat) : Bool :=
  decide (i < c.vout.length) && (voutAt c.vout i).isSome

/-- Modelled from the spec: `CCoins::Clear` of coins.h, giving "the cleared
(empty) record": no outputs and default metadata. -/
def CCoins.Clear (_c : CCoins) : CCoins :=
  { fCoinBase := false, vout := [], nHeight := 0, nVersion := 0 }

/-- The default-constructed record `CCoins()`. -/
def CCoins.empty : CCoins :=
  { fCoinBase := false, vout := [], nHeight := 0, nVersion := 0 }

/-- Invariant T (tail-trim): the outputs are empty or the last one is not null. -/
def TailTrimmed (v : List (Option CTxOut)) : Prop :=
  v = [] ∨ ∃ o, v.getLast? = some (some o)

instance (v : List (Option CTxOut)) : Decidable (TailTrimmed v) := by
  unfold TailTrimmed
  cases h : v.getLast? with
  | none => exact decidable_of_iff (v = []) (by simp)
  | some x =>
    cases x with
    | none => exact decidable_of_iff (v = []) (by simp)
    | some o => exact isTrue (Or.inr ⟨o, rfl⟩)

/-- `CCoins::Spend` (coins.cpp 37-56).  `undo` is `none` for a null pointer and
otherwise the object pointed to; the result is the returned flag, the record
and the undo object afterwards. -/
def CCoins.Spend (c : CCoins) (nPos : Nat) (undo : Option CTxInUndo) :
    Bool × CCoins × Option CTxInUndo :=
  if nPos ≥ c.vout.length || (voutAt c.vout nPos).isNone then
    (false, c, undo)
  else
    let undo1 := undo.map (fun _ => CTxInUndo.ofTxOut (voutAt c.vout nPos))
    let c1 : CCoins := { c with vout := c.vout.set nPos none }
    let c2 := c1.Cleanup
    let undo2 :=
      if c2.vout.isEmpty then
        undo1.map (fun u =>
          { u with nHeight := c2.nHeight, fCoinBase := c2.fCoinBase, nVersion := c2.nVersion })
      else undo1
    (true, c2, undo2)

/-! ## Maps -/

/-- Lookup in a map (`find`): the value stored under key `k`, if any. -/
def mapFind {V : Type} : List (Nat × V) → Nat → Option V
  | [], _ => none
  | (k1, v) :: rest, k => if k1 = k then some v else mapFind rest k

/-- Removal of key `k` from a map (`erase`). -/
def mapErase {V : Type} : List (Nat × V) → Nat → List (Nat × V)
  | [], _ => []
  | (k1, v) :: rest, k => if k1 = k then mapErase rest k else (k1, v) :: mapErase rest k

/-- Assignment through an iterator or `operator[]`: the value under `k` becomes
`v`; a key not yet present is added. -/
def mapSet {V : Type} : List (Nat × V) → Nat → V → List (Nat × V)
  | [], k, v => [(k, v)]
  | (k1, v1) :: rest, k, v =>
    if k1 = k then (k, v) :: rest else (k1, v1) :: mapSet rest k v

/-- The keys of a map are pairwise distinct, as in every `unordered_map`. -/
def mapKeysNodup {V : Type} (m : List (Nat × V)) : Prop :=
  (m.map Prod.fst).Nodup

/-! ## Cache entries -/

/-- Modelled from the spec: the flags of `CCoinsCacheEntry` (coins.h),
"flags ⊆ {DIRTY, FRESH}", one boolean per flag bit. -/
structure Flags where
  dirty : Bool
  fresh : Bool
deriving DecidableEq, Repr

/-- No flag set: the flags of a default-constructed entry. -/
def Flags.empty : Flags := { dirty := false, fresh := false }

/-- The flag set `FRESH`. -/
def Flags.FRESH : Flags := { dirty := false, fresh := true }

/-- The flag set `DIRTY`. -/
def Flags.DIRTY : Flags := { dirty := true, fresh := false }

/-- Union of flag sets (`|`). -/
def Flags.union (a b : Flags) : Flags :=
  { dirty := a.dirty || b.dirty, fresh := a.fresh || b.fresh }

/-- Modelled from the spec: `CCoinsCacheEntry` of coins.h, "the pair
(record, flags)". -/
structure CCoinsCacheEntry where
  coins : CCoins
  flags : Flags
deriving DecidableEq, Repr

/-- `CCoinsMap`: transaction id to cache entry. -/
abbrev CCoinsMap := List (uint256 × CCoinsCacheEntry)

/-! ## Name cache -/

/-- Modelled from the spec: the data of a name (names/common.h), of which the
cache reads the update height. -/
structure CNameData where
  value : valtype
  nHeight : Nat
deriving DecidableEq, Repr

/-- Modelled from the spec: the history of a name, "ordered stack of prior
NameData records", top first. -/
abbrev CNameHistory := List CNameData

/-- Modelled from the spec: a staged change of one name, "either set(new_data)
or deleted". -/
inductive NameChange where
  | set (data : CNameData)
  | deleted
deriving DecidableEq, Repr

/-- Lookup in a map keyed by a type with decidable equality. -/
def assocFind {K V : Type} [DecidableEq K] : List (K × V) → K → Option V
  | [], _ => none
  | (k1, v) :: rest, k => if k1 = k then some v else assocFind rest k

/-- Assignment in a map keyed by a type with decidable equality. -/
def assocSet {K V : Type} [DecidableEq K] : List (K × V) → K → V → List (K × V)
  | [], k, v => [(k, v)]
  | (k1, v1) :: rest, k, v =>
    if k1 = k then (k, v) :: rest else (k1, v1) :: assocSet rest k v

/-- Removal from a map keyed by a type with decidable equality. -/
def assocErase {K V : Type} [DecidableEq K] : List (K × V) → K → List (K × V)
  | [], _ => []
  | (k1, v) :: rest, k => if k1 = k then assocErase rest k else (k1, v) :: assocErase rest k

/-- Modelled from the spec: `CNameCache` of names/common.h, "changes: name to
set(new_data) or deleted; history: name to stack of prior records;
expire_index: expiration height to names in delta form (added / removed)".
In `expireIndex` the flag `true` is "added", `false` is "removed". -/
structure CNameCache where
  changes : List (valtype × NameChange)
  history : List (valtype × CNameHistory)
  expireIndex : List ((Nat × valtype) × Bool)
deriving DecidableEq, Repr

/-- The empty name cache (`CNameCache::clear`). -/
def CNameCache.clear : CNameCache :=
  { changes := [], history := [], expireIndex := [] }

/-- Modelled from the spec: `CNameCache::apply`, "merge name delta: set, delete
and expire-index deltas combine": every staged item of the child replaces the
item staged here under the same key. -/
def CNameCache.apply (self child : CNameCache) : CNameCache :=
  { changes := child.changes.foldl (fun m p => assocSet m p.1 p.2) self.changes
    history := child.history.foldl (fun m p => assocSet m p.1 p.2) self.history
    expireIndex := child.expireIndex.foldl (fun m p => assocSet m p.1 p.2) self.expireIndex }

/-! ## Views -/

/-- The width of `size_t`. -/
def sizeMod : Nat := 2 ^ 64

/-- Addition on `size_t` (`+=`). -/
def sizeAdd (a b : Nat) : Nat := (a + b) % sizeMod

/-- Subtraction on `size_t` (`-=`), wrapping below zero. -/
def sizeSub (a b : Nat) : Nat := (a + (sizeMod - b % sizeMod)) % sizeMod

/-- The members of a `CCoinsViewCache` apart from the pointer to its base:
`cacheCoins`, `hashBlock`, `cacheNames`, `hasModifier`, `cachedCoinsUsage`. -/
structure CCoinsViewCache where
  cacheCoins : CCoinsMap
  hashBlock : uint256
  cacheNames : CNameCache
  hasModifier : Bool
  cachedCoinsUsage : Nat
deriving DecidableEq, Repr

/-- The constructor `CCoinsViewCache(baseIn)`: empty maps, no modifier, usage 0. -/
def CCoinsViewCache.new : CCoinsViewCache :=
  { cacheCoins := [], hashBlock := 0, cacheNames := CNameCache.clear,
    hasModifier := false, cachedCoinsUsage := 0 }

/-- Modelled from the spec: the persistent backing store at the bottom of a view
stack (not part of coins.cpp): it answers `get_coins` from a table of coin
records, keeps a best block and the name tables, and its `batch_write` either
succeeds as a whole (`writeOk`) or returns false and changes nothing. -/
structure Backend where
  coins : List (uint256 × CCoins)
  bestBlock : uint256
  names : List (valtype × CNameData)
  nameHistory : List (valtype × CNameHistory)
  namesForHeight : List ((Nat × valtype) × Unit)
  writeOk : Bool
deriving DecidableEq, Repr

/-- Modelled from the spec: the coin part of the backing store's `batch_write`:
every `DIRTY` entry is written, a pruned record by removing the key. -/
def Backend.writeCoins : List (uint256 × CCoins) → CCoinsMap → List (uint256 × CCoins)
  | db, [] => db
  | db, (txid, e) :: rest =>
    if e.flags.dirty then
      if e.coins.IsPruned then Backend.writeCoins (mapErase db txid) rest
      else Backend.writeCoins (mapSet db txid e.coins) rest
    else Backend.writeCoins db rest

/-- Modelled from the spec: the name part of the backing store's `batch_write`:
staged sets and deletions, histories and expire-index deltas are written. -/
def Backend.writeNames (b : Backend) (n : CNameCache) : Backend :=
  { b with
    names := n.changes.foldl (fun m p =>
      match p.2 with
      | NameChange.set d => assocSet m p.1 d
      | NameChange.deleted => assocErase m p.1) b.names
    nameHistory := n.history.foldl (fun m p => assocSet m p.1 p.2) b.nameHistory
    namesForHeight := n.expireIndex.foldl (fun m p =>
      if p.2 then assocSet m p.1 () else assocErase m p.1) b.namesForHeight }

/-- Modelled from the spec: `batch_write` of the backing store. -/
def Backend.BatchWrite (b : Backend) (mapCoins : CCoinsMap) (hashBlock : uint256)
    (names : CNameCache) : Bool × Backend :=
  if b.writeOk then
    (true, Backend.writeNames
      { b with coins := Backend.writeCoins b.coins mapCoins, bestBlock := hashBlock } names)
  else (false, b)

/-- A view: the base class `CCoinsView` whose methods all answer false
(coins.cpp 58-67), the backing store, or a cache on top of another view
(`CCoinsViewBacked` with the members of `CCoinsViewCache`). -/
inductive CCoinsView where
  | dflt : CCoinsView
  | store (b : Backend) : CCoinsView
  | cache (base : CCoinsView) (c : CCoinsViewCache) : CCoinsView
deriving DecidableEq, Repr

/-! ## Operations of the cache view

`DynamicUsage` stands for `memusage::DynamicUsage` on a coin record
(memusage.h); the operations take it as a parameter. -/

/-- `CCoinsViewCache::FetchCoins` (coins.cpp 96-112) on the members of the
cache.  `baseGetCoins` is what `base->GetCoins(txid, tmp)` answers (the record,
if any, and the base afterwards); it is consulted only when `txid` is not in
`cacheCoins`, otherwise the base stays `base`.  The result is the entry the
returned iterator points at (`none` for `end()`), the base and the members. -/
def CCoinsViewCache.fetchFrom {B : Type} (DynamicUsage : CCoins → Nat)
    (c : CCoinsViewCache) (txid : uint256) (base : B) (baseGetCoins : Option CCoins × B) :
    Option CCoinsCacheEntry × B × CCoinsViewCache :=
  match mapFind c.cacheCoins txid with
  | some e => (some e, base, c)
  | none =>
    match baseGetCoins.1 with
    | none => (none, baseGetCoins.2, c)
    | some tmp =>
      let e : CCoinsCacheEntry :=
        { coins := tmp, flags := if tmp.IsPruned then Flags.FRESH else Flags.empty }
      (some e, baseGetCoins.2,
        { c with cacheCoins := mapSet c.cacheCoins txid e
                 cachedCoinsUsage := sizeAdd c.cachedCoinsUsage (DynamicUsage tmp) })

/-- The virtual `GetCoins` of a view: false on the base class (coins.cpp 58),
the table lookup on the backing store, and `CCoinsViewCache::GetCoins`
(coins.cpp 114-121) on a cache, which goes through `FetchCoins` and so may
change the caches below. -/
def CCoinsView.GetCoins (DynamicUsage : CCoins → Nat) :
    CCoinsView → uint256 → Option CCoins × CCoinsView
  | CCoinsView.dflt, _ => (none, CCoinsView.dflt)
  | CCoinsView.store b, txid => (mapFind b.coins txid, CCoinsView.store b)
  | CCoinsView.cache base c, txid =>
    let it := c.fetchFrom DynamicUsage txid base (CCoinsView.GetCoins DynamicUsage base txid)
    (it.1.map (fun e => e.coins), CCoinsView.cache it.2.1 it.2.2)

/-- `CCoinsViewCache::FetchCoins` (coins.cpp 96-112) of the cache with members
`c` over the view `base`. -/
def FetchCoins (DynamicUsage : CCoins → Nat) (base : CCoinsView) (c : CCoinsViewCache)
    (txid : uint256) : Option CCoinsCacheEntry × CCoinsView × CCoinsViewCache :=
  c.fetchFrom DynamicUsage txid base (base.GetCoins DynamicUsage txid)

/-- `CCoinsViewCache::GetCoins` (coins.cpp 114-121): the record copied out on a
hit, `none` for the result false. -/
def GetCoins (DynamicUsage : CCoins → Nat) (base : CCoinsView) (c : CCoinsViewCache)
    (txid : uint256) : Option CCoins × CCoinsView × CCoinsViewCache :=
  let it := FetchCoins DynamicUsage base c txid
  match it.1 with
  | some e => (some e.coins, it.2)
  | none => (none, it.2)

/-- `CCoinsViewCache::AccessCoins` (coins.cpp 144-151): the record pointed to, or
`none` for `NULL`. -/
def AccessCoins (DynamicUsage : CCoins → Nat) (base : CCoinsView) (c : CCoinsViewCache)
    (txid : uint256) : Option CCoins × CCoinsView × CCoinsViewCache :=
  let it := FetchCoins DynamicUsage base c txid
  match it.1 with
  | none => (none, it.2)
  | some e => (some e.coins, it.2)

/-- `CCoinsViewCache::HaveCoins` (coins.cpp 153-160). -/
def HaveCoins (DynamicUsage : CCoins → Nat) (base : CCoinsView) (c : CCoinsViewCache)
    (txid : uint256) : Bool × CCoinsView × CCoinsViewCache :=
  let it := FetchCoins DynamicUsage base c txid
  match it.1 with
  | some e => (!e.coins.vout.isEmpty, it.2)
  | none => (false, it.2)

/-- The members of a `CCoinsModifier`: the iterator `it` (the key it points at)
and `cachedCoinUsage`; the reference to the cache is the cache it is used on. -/
structure CCoinsModifier where
  it : uint256
  cachedCoinUsage : Nat
deriving DecidableEq, Repr

/-- `CCoinsViewCache::ModifyCoins` (coins.cpp 123-142) with the constructor of
the modifier (coins.cpp 370-373); `none` when an assertion fails. -/
def ModifyCoins (DynamicUsage : CCoins → Nat) (base : CCoinsView) (c : CCoinsViewCache)
    (txid : uint256) : Option (CCoinsModifier × CCoinsView × CCoinsViewCache) :=
  if c.hasModifier then none
  else
    match mapFind c.cacheCoins txid with
    | none =>
      let r := base.GetCoins DynamicUsage txid
      let e : CCoinsCacheEntry :=
        match r.1 with
        | none => { coins := CCoins.empty.Clear, flags := Flags.FRESH }
        | some coins =>
          if coins.IsPruned then { coins := coins, flags := Flags.FRESH }
          else { coins := coins, flags := Flags.empty }
      some ({ it := txid, cachedCoinUsage := 0 }, r.2,
        { c with cacheCoins := mapSet c.cacheCoins txid { e with flags := e.flags.union Flags.DIRTY }
                 hasModifier := true })
    | some e =>
      some ({ it := txid, cachedCoinUsage := DynamicUsage e.coins }, base,
        { c with cacheCoins := mapSet c.cacheCoins txid { e with flags := e.flags.union Flags.DIRTY }
                 hasModifier := true })

/-- A mutation of the record through the modifier (`modifier->...`): the record
of the entry the iterator points at becomes `f` of it. -/
def CCoinsModifier.mutate (m : CCoinsModifier) (c : CCoinsViewCache) (f : CCoins → CCoins) :
    CCoinsViewCache :=
  match mapFind c.cacheCoins m.it with
  | none => c
  | some e => { c with cacheCoins := mapSet c.cacheCoins m.it { e with coins := f e.coins } }

/-- The destructor `CCoinsModifier::~CCoinsModifier` (coins.cpp 375-387); `none`
when the assertion fails or the iterator points at no entry. -/
def CCoinsModifier.drop (DynamicUsage : CCoins → Nat) (m : CCoinsModifier)
    (c : CCoinsViewCache) : Option CCoinsViewCache :=
  if !c.hasModifier then none
  else
    match mapFind c.cacheCoins m.it with
    | none => none
    | some e =>
      let coins := e.coins.Cleanup
      let usage := sizeSub c.cachedCoinsUsage m.cachedCoinUsage
      if e.flags.fresh && coins.IsPruned then
        some { c with hasModifier := false
                      cachedCoinsUsage := usage
                      cacheCoins := mapErase c.cacheCoins m.it }
      else
        some { c with hasModifier := false
                      cachedCoinsUsage := sizeAdd usage (DynamicUsage coins)
                      cacheCoins := mapSet c.cacheCoins m.it { e with coins := coins } }

/-- The loop of `CCoinsViewCache::BatchWrite` (coins.cpp 268-301) over the
child's map, from `begin()` on: the result is the parent's members and what is
left of the child's map; `none` when the assertion of line 277 fails. -/
def batchWriteLoop (DynamicUsage : CCoins → Nat) :
    CCoinsViewCache → CCoinsMap → Option (CCoinsViewCache × CCoinsMap)
  | c, [] => some (c, [])
  | c, (txid, child) :: rest =>
    if child.flags.dirty then
      match mapFind c.cacheCoins txid with
      | none =>
        if !child.coins.IsPruned then
          if child.flags.fresh then
            batchWriteLoop DynamicUsage
              { c with cacheCoins := mapSet c.cacheCoins txid
                         { coins := child.coins, flags := Flags.DIRTY.union Flags.FRESH }
                       cachedCoinsUsage := sizeAdd c.cachedCoinsUsage (DynamicUsage child.coins) }
              rest
          else none
        else batchWriteLoop DynamicUsage c rest
      | some us =>
        if us.flags.fresh && child.coins.IsPruned then
          batchWriteLoop DynamicUsage
            { c with cachedCoinsUsage := sizeSub c.cachedCoinsUsage (DynamicUsage us.coins)
                     cacheCoins := mapErase c.cacheCoins txid }
            rest
        else
          batchWriteLoop DynamicUsage
            { c with cachedCoinsUsage :=
                       sizeAdd (sizeSub c.cachedCoinsUsage (DynamicUsage us.coins))
                         (DynamicUsage child.coins)
                     cacheCoins := mapSet c.cacheCoins txid
                       { coins := child.coins, flags := us.flags.union Flags.DIRTY } }
            rest
    else batchWriteLoop DynamicUsage c rest

/-- `CCoinsViewCache::BatchWrite` (coins.cpp 266-305): the returned flag, the
members afterwards and the child's map afterwards; `none` when an assertion
fails. -/
def CCoinsViewCache.BatchWrite (DynamicUsage : CCoins → Nat) (c : CCoinsViewCache)
    (mapCoins : CCoinsMap) (hashBlockIn : uint256) (names : CNameCache) :
    Option (Bool × CCoinsViewCache × CCoinsMap) :=
  if c.hasModifier then none
  else
    match batchWriteLoop DynamicUsage c mapCoins with
    | none => none
    | some (c1, mapCoins1) =>
      some (true,
        { c1 with hashBlock := hashBlockIn, cacheNames := c1.cacheNames.apply names },
        mapCoins1)

/-- The virtual `BatchWrite` of a view: false on the base class (coins.cpp 65),
the store's write, and `CCoinsViewCache::BatchWrite` on a cache. -/
def CCoinsView.BatchWrite (DynamicUsage : CCoins → Nat) (v : CCoinsView)
    (mapCoins : CCoinsMap) (hashBlock : uint256) (names : CNameCache) :
    Option (Bool × CCoinsView × CCoinsMap) :=
  match v with
  | CCoinsView.dflt => some (false, CCoinsView.dflt, mapCoins)
  | CCoinsView.store b =>
    let r := b.BatchWrite mapCoins hashBlock names
    some (r.1, CCoinsView.store r.2, mapCoins)
  | CCoinsView.cache base c =>
    match c.BatchWrite DynamicUsage mapCoins hashBlock names with
    | none => none
    | some r => some (r.1, CCoinsView.cache base r.2.1, r.2.2)

/-- `CCoinsViewCache::Flush` (coins.cpp 307-313): the returned flag, the base and
the members afterwards; `none` when the base's `BatchWrite` traps. -/
def Flush (DynamicUsage : CCoins → Nat) (base : CCoinsView) (c : CCoinsViewCache) :
    Option (Bool × CCoinsView × CCoinsViewCache) :=
  match base.BatchWrite DynamicUsage c.cacheCoins c.hashBlock c.cacheNames with
  | none => none
  | some r =>
    some (r.1, r.2.1,
      { c with cacheCoins := [], cachedCoinsUsage := 0, cacheNames := CNameCache.clear })

/-! ## Sequences of operations on one cache view -/

/-- The use of a modifier as one step: `ModifyCoins(txid)`, a mutation `f` of the
record through the modifier, and the drop of the modifier. -/
def modifyWith (DynamicUsage : CCoins → Nat) (base : CCoinsView) (c : CCoinsViewCache)
    (txid : uint256) (f : CCoins → CCoins) : Option (CCoinsView × CCoinsViewCache) :=
  match ModifyCoins DynamicUsage base c txid with
  | none => none
  | some r =>
    match r.1.drop DynamicUsage (r.1.mutate r.2.2 f) with
    | none => none
    | some c2 => some (r.2.1, c2)

/-- An operation on a cache view: a read through `FetchCoins`, the use of a
modifier, `BatchWrite` with the given arguments, or `Flush`. -/
inductive CacheOp where
  | getCoins (txid : uint256)
  | accessCoins (txid : uint256)
  | haveCoins (txid : uint256)
  | modify (txid : uint256) (f : CCoins → CCoins)
  | batchWrite (mapCoins : CCoinsMap) (hashBlock : uint256) (names : CNameCache)
  | flush

/-- The state after one operation on the cache with members `s.2` over the view
`s.1`; `none` when the operation traps. -/
def CacheOp.run (DynamicUsage : CCoins → Nat) :
    CacheOp → CCoinsView × CCoinsViewCache → Option (CCoinsView × CCoinsViewCache)
  | CacheOp.getCoins txid, s => some (GetCoins DynamicUsage s.1 s.2 txid).2
  | CacheOp.accessCoins txid, s => some (AccessCoins DynamicUsage s.1 s.2 txid).2
  | CacheOp.haveCoins txid, s => some (HaveCoins DynamicUsage s.1 s.2 txid).2
  | CacheOp.modify txid f, s => modifyWith DynamicUsage s.1 s.2 txid f
  | CacheOp.batchWrite m hb n, s =>
    match s.2.BatchWrite DynamicUsage m hb n with
    | none => none
    | some r => some (s.1, r.2.1)
  | CacheOp.flush, s =>
    match Flush DynamicUsage s.1 s.2 with
    | none => none
    | some r => some r.2

/-- The state after a sequence of operations, first to last. -/
def runOps (DynamicUsage : CCoins → Nat) :
    List CacheOp → CCoinsView × CCoinsViewCache → Option (CCoinsView × CCoinsViewCache)
  | [], s => some s
  | op :: ops, s =>
    match op.run DynamicUsage s with
    | none => none
    | some s1 => runOps DynamicUsage ops s1

/-- The operation works on the cache alone: a read or the use of a modifier. -/
def CacheOp.isLocal : CacheOp → Bool
  | CacheOp.batchWrite _ _ _ => false
  | CacheOp.flush => false
  | _ => true

/-- The records an operation brings in from outside satisfy T: the child map
handed to `BatchWrite`. -/
def CacheOp.argsTrimmed : CacheOp → Prop
  | CacheOp.batchWrite m _ _ => ∀ p ∈ m, TailTrimmed p.2.coins.vout
  | _ => True

/-- Every record held anywhere in the view stack satisfies T. -/
def viewTrimmed : CCoinsView → Prop
  | CCoinsView.dflt => True
  | CCoinsView.store b => ∀ p ∈ b.coins, TailTrimmed p.2.vout
  | CCoinsView.cache base c =>
    (∀ p ∈ c.cacheCoins, TailTrimmed p.2.coins.vout) ∧ viewTrimmed base

/-- The decision table of `batch_write` for one child entry, following the
specification (section 4.4): given the parent's entry for the txid (if any) and
the child's entry, the parent's entry afterwards. -/
def batchWriteTable (us : Option CCoinsCacheEntry) (child : CCoinsCacheEntry) :
    Option CCoinsCacheEntry :=
  if child.flags.dirty then
    match us with
    | none =>
      if child.coins.IsPruned then none
      else some { coins := child.coins, flags := { dirty := true, fresh := true } }
    | some u =>
      if u.flags.fresh && child.coins.IsPruned then none
      else some { coins := child.coins, flags := { dirty := true, fresh := u.flags.fresh } }
  else us

/-- The `FRESH` flags of the cache `c` tell the truth about its base: for every
`FRESH` entry the base's `GetCoins` misses or answers a record without outputs. -/
def freshSound (DynamicUsage : CCoins → Nat) (base : CCoinsView) (c : CCoinsViewCache) : Prop :=
  ∀ txid e, mapFind c.cacheCoins txid = some e → e.flags.fresh = true →
    ∀ r, (base.GetCoins DynamicUsage txid).1 = some r → r.vout = []

/-- The entry `ModifyCoins` leaves for a txid that was not cached, given the
answer of `base->GetCoins` (coins.cpp 128-135 and 140). -/
def newModifyEntry (r : Option CCoins) : CCoinsCacheEntry :=
  match r with
  | none => { coins := CCoins.empty, flags := { dirty := true, fresh := true } }
  | some coins => { coins := coins, flags := { dirty := true, fresh := coins.IsPruned } }

/-- The entry for `txid` right after `ModifyCoins(txid)`: the cached entry with
`DIRTY` added, or the entry made from the answer of the base. -/
def modifyEntry (DynamicUsage : CCoins → Nat) (base : CCoinsView) (c : CCoinsViewCache)
    (txid : uint256) : CCoinsCacheEntry :=
  match mapFind c.cacheCoins txid with
  | some e0 => { coins := e0.coins, flags := { dirty := true, fresh := e0.flags.fresh } }
  | none => newModifyEntry (base.GetCoins DynamicUsage txid).1

/-- The base after `ModifyCoins(txid)`: asked only when `txid` was not cached. -/
def modifyBase (DynamicUsage : CCoins → Nat) (base : CCoinsView) (c : CCoinsViewCache)
    (txid : uint256) : CCoinsView :=
  match mapFind c.cacheCoins txid with
  | some _ => base
  | none => (base.GetCoins DynamicUsage txid).2

/-- What a cache answers for a txid: the record of its own entry if it has one,
else the answer of its base. -/
def cacheAnswer (found : Option CCoinsCacheEntry) (baseAnswer : Option CCoins) : Option CCoins :=
  match found with
  | some e => some e.coins
  | none => baseAnswer

/-- The check of `HaveCoins` on an answer: a record is there and has outputs. -/
def answerHas (a : Option CCoins) : Bool :=
  match a with
  | some r => !r.vout.isEmpty
  | none => false

/-- The relation between a child cache `c` and its parent cache `p` over `base`
that holds while only the child is operated on: no modifier is live, the keys
of the child are distinct, the `FRESH` flags of the parent are sound, a clean
entry of the child holds the record of the parent's entry, an entry of the child
without `FRESH` has an entry in the parent, and a `DIRTY`, `FRESH` entry of the
child has outputs. -/
def layered (DynamicUsage : CCoins → Nat) (base : CCoinsView) (p c : CCoinsViewCache) : Prop :=
  c.hasModifier = false ∧ p.hasModifier = false ∧ mapKeysNodup c.cacheCoins ∧
  freshSound DynamicUsage base p ∧
  (∀ t e, mapFind c.cacheCoins t = some e → e.flags.dirty = false →
    ∃ u, mapFind p.cacheCoins t = some u ∧ u.coins = e.coins) ∧
  (∀ t e, mapFind c.cacheCoins t = some e → e.flags.fresh = false →
    ∃ u, mapFind p.cacheCoins t = some u) ∧
  (∀ t e, mapFind c.cacheCoins t = some e → e.flags.dirty = true → e.flags.fresh = true →
    e.coins.vout ≠ [])

/-! ## Name operations of the cache view

`fNameHistory` stands for the global flag of the same name; the operations that
read it take it as a parameter. -/

/-- Modelled from the spec: `CNameCache::isDeleted`, "names marks n deleted". -/
def CNameCache.isDeleted (n : CNameCache) (name : valtype) : Bool :=
  match assocFind n.changes name with
  | some NameChange.deleted => true
  | _ => false

/-- Modelled from the spec: `CNameCache::get`, the staged data when the cache
"holds a set(..)" for the name. -/
def CNameCache.get (n : CNameCache) (name : valtype) : Option CNameData :=
  match assocFind n.changes name with
  | some (NameChange.set d) => some d
  | _ => none

/-- Modelled from the spec: `CNameCache::set`, "stage set(data)". -/
def CNameCache.set (n : CNameCache) (name : valtype) (data : CNameData) : CNameCache :=
  { n with changes := assocSet n.changes name (NameChange.set data) }

/-- Modelled from the spec: `CNameCache::remove`, "stage deleted". -/
def CNameCache.remove (n : CNameCache) (name : valtype) : CNameCache :=
  { n with changes := assocSet n.changes name NameChange.deleted }

/-- Modelled from the spec: `CNameCache::getHistory`, the history the cache has
for the name, if any. -/
def CNameCache.getHistory (n : CNameCache) (name : valtype) : Option CNameHistory :=
  assocFind n.history name

/-- Modelled from the spec: `CNameCache::setHistory`. -/
def CNameCache.setHistory (n : CNameCache) (name : valtype) (h : CNameHistory) : CNameCache :=
  { n with history := assocSet n.history name h }

/-- Modelled from the spec: `CNameCache::addExpireIndex`, "add new expire-index
entry" for the name at the height. -/
def CNameCache.addExpireIndex (n : CNameCache) (name : valtype) (height : Nat) : CNameCache :=
  { n with expireIndex := assocSet n.expireIndex (height, name) true }

/-- Modelled from the spec: `CNameCache::removeExpireIndex`, "remove old
expire-index entry" for the name at the height. -/
def CNameCache.removeExpireIndex (n : CNameCache) (name : valtype) (height : Nat) :
    CNameCache :=
  { n with expireIndex := assocSet n.expireIndex (height, name) false }

/-- Modelled from the spec: `CNameCache::updateNamesForHeight`, "apply cache
delta (add names newly scheduled to expire at h, remove names whose expiration
moved)" to the set of names read from the base; a set of names is a list. -/
def CNameCache.updateNamesForHeight (n : CNameCache) (nHeight : Nat) (names : List valtype) :
    List valtype :=
  names.filter (fun m => decide (assocFind n.expireIndex (nHeight, m) ≠ some false)) ++
    (n.expireIndex.filter (fun p =>
      decide (p.1.1 = nHeight) && decide (assocFind n.expireIndex p.1 = some true))).map
      (fun p => p.1.2)

/-- Modelled from the spec: `CNameHistory::push`, "push(old_data)": the new top of
the stack. -/
def historyPush (h : CNameHistory) (old : CNameData) : CNameHistory := old :: h

/-- Modelled from the spec: `CNameHistory::pop`, "pop(data) (undo: top of stack
must equal data)"; `none` when it does not. -/
def historyPop (h : CNameHistory) (data : CNameData) : Option CNameHistory :=
  match h with
  | [] => none
  | top :: rest => if top = data then some rest else none

/-- The virtual `GetName` of a view: false on the base class (coins.cpp 61), the
name table of the backing store, and `CCoinsViewCache::GetName` (coins.cpp
172-182) on a cache. -/
def CCoinsView.GetName : CCoinsView → valtype → Option CNameData
  | CCoinsView.dflt, _ => none
  | CCoinsView.store b, name => assocFind b.names name
  | CCoinsView.cache base c, name =>
    if c.cacheNames.isDeleted name then none
    else
      match c.cacheNames.get name with
      | some data => some data
      | none => CCoinsView.GetName base name

/-- The virtual `GetNameHistory` of a view: false on the base class
(coins.cpp 62), the history table of the backing store, and
`CCoinsViewCache::GetNameHistory` (coins.cpp 184-192) on a cache. -/
def CCoinsView.GetNameHistory : CCoinsView → valtype → Option CNameHistory
  | CCoinsView.dflt, _ => none
  | CCoinsView.store b, name => assocFind b.nameHistory name
  | CCoinsView.cache base c, name =>
    match c.cacheNames.getHistory name with
    | some h => some h
    | none => CCoinsView.GetNameHistory base name

/-- The virtual `GetNamesForHeight` of a view: false on the base class
(coins.cpp 63), the names stored for the height in the backing store, and
`CCoinsViewCache::GetNamesForHeight` (coins.cpp 194-203) on a cache. -/
def CCoinsView.GetNamesForHeight : CCoinsView → Nat → Option (List valtype)
  | CCoinsView.dflt, _ => none
  | CCoinsView.store b, nHeight =>
    some ((b.namesForHeight.filter (fun p => decide (p.1.1 = nHeight))).map (fun p => p.1.2))
  | CCoinsView.cache base c, nHeight =>
    match CCoinsView.GetNamesForHeight base nHeight with
    | none => none
    | some names => some (c.cacheNames.updateNamesForHeight nHeight names)

/-- `CCoinsViewCache::GetName` (coins.cpp 172-182) of the cache with members `c`
over the view `base`. -/
def GetName (base : CCoinsView) (c : CCoinsViewCache) (name : valtype) : Option CNameData :=
  if c.cacheNames.isDeleted name then none
  else
    match c.cacheNames.get name with
    | some data => some data
    | none => base.GetName name

/-- `CCoinsViewCache::GetNameHistory` (coins.cpp 184-192). -/
def GetNameHistory (base : CCoinsView) (c : CCoinsViewCache) (name : valtype) :
    Option CNameHistory :=
  match c.cacheNames.getHistory name with
  | some h => some h
  | none => base.GetNameHistory name

/-- `CCoinsViewCache::GetNamesForHeight` (coins.cpp 194-203). -/
def GetNamesForHeight (base : CCoinsView) (c : CCoinsViewCache) (nHeight : Nat) :
    Option (List valtype) :=
  match base.GetNamesForHeight nHeight with
  | none => none
  | some names => some (c.cacheNames.updateNamesForHeight nHeight names)

/-- The end of `CCoinsViewCache::SetName` (coins.cpp 245-246): the data is staged
and the expire-index entry added. -/
def setNameFinish (c : CCoinsViewCache) (name : valtype) (data : CNameData) :
    CCoinsViewCache :=
  { c with cacheNames := (c.cacheNames.set name data).addExpireIndex name data.nHeight }

/-- `CCoinsViewCache::SetName` (coins.cpp 213-247): the members afterwards, `none`
when an assertion fails.  A `GetNameHistory` that fails leaves `history` empty. -/
def SetName (fNameHistory : Bool) (base : CCoinsView) (c : CCoinsViewCache)
    (name : valtype) (data : CNameData) (undo : Bool) : Option CCoinsViewCache :=
  match GetName base c name with
  | some oldData =>
    let c1 : CCoinsViewCache :=
      { c with cacheNames := c.cacheNames.removeExpireIndex name oldData.nHeight }
    if fNameHistory then
      let history : CNameHistory :=
        match GetNameHistory base c1 name with
        | some h => h
        | none => []
      let history1 : Option CNameHistory :=
        if undo then historyPop history data else some (historyPush history oldData)
      match history1 with
      | none => none
      | some h1 =>
        some (setNameFinish { c1 with cacheNames := c1.cacheNames.setHistory name h1 } name data)
    else some (setNameFinish c1 name data)
  | none =>
    if undo then none else some (setNameFinish c name data)

/-- `CCoinsViewCache::DeleteName` (coins.cpp 249-264): the members afterwards,
`none` when an assertion fails. -/
def DeleteName (fNameHistory : Bool) (base : CCoinsView) (c : CCoinsViewCache)
    (name : valtype) : Option CCoinsViewCache :=
  match GetName base c name with
  | none => none
  | some oldData =>
    let c1 : CCoinsViewCache :=
      { c with cacheNames := c.cacheNames.removeExpireIndex name oldData.nHeight }
    let historyClean : Bool :=
      match GetNameHistory base c1 name with
      | none => true
      | some h => h.isEmpty
    if fNameHistory && !historyClean then none
    else some { c1 with cacheNames := c1.cacheNames.remove name }

/-! ## Reconstruction from an undo record -/

/-- The reconstruction of a record from an undo record, following the
specification (round-trip 2): the outputs are extended with nulls to length at
least `i + 1`, the undo's output is placed at index `i`, and when the record is
pruned its coinbase flag, height and version are restored from the undo. -/
def undoReconstruct (r : CCoins) (i : Nat) (undo : CTxInUndo) : CCoins :=
  let v :=
    if r.vout.length < i + 1 then r.vout ++ List.replicate (i + 1 - r.vout.length) none
    else r.vout
  if r.IsPruned then
    { fCoinBase := undo.fCoinBase, vout := v.set i undo.txout,
      nHeight := undo.nHeight, nVersion := undo.nVersion }
  else { r with vout := v.set i undo.txout }

/-! ## The mask size of a coin record -/

/-- The width of `unsigned int`. -/
def uintMod : Nat := 2 ^ 32

/-- The inner loop of `CCoins::CalcMaskSize` (coins.cpp 23-28) for byte `b`, from
bit `i` on with the current value of `fZero`; the result is `fZero` at the end.
The arithmetic is that of `unsigned int`.  The loop makes at most 8 rounds, so
it is run with fuel 8. -/
def maskInnerLoop (vout : List (Option CTxOut)) (b : Nat) : Nat → Nat → Bool → Bool
  | 0, _, fZero => fZero
  | fuel + 1, i, fZero =>
    if i < 8 ∧ (2 + b * 8 + i) % uintMod < vout.length then
      maskInnerLoop vout b fuel ((i + 1) % uintMod)
        (if (voutAt vout ((2 + b * 8 + i) % uintMod)).isSome then false else fZero)
    else fZero

/-- The outer loop of `CCoins::CalcMaskSize` (coins.cpp 21-33) from byte `b` on,
with the current `nLastUsedByte` and `nNonzeroBytes`; the result is the two
counters at the end of the loop, `none` when the loop has not ended within
`fuel` rounds. -/
def maskOuterLoop (vout : List (Option CTxOut)) : Nat → Nat → Nat → Nat → Option (Nat × Nat)
  | 0, _, _, _ => none
  | fuel + 1, b, nLastUsedByte, nNonzeroBytes =>
    if (2 + b * 8) % uintMod < vout.length then
      if maskInnerLoop vout b 8 0 true then
        maskOuterLoop vout fuel ((b + 1) % uintMod) nLastUsedByte nNonzeroBytes
      else
        maskOuterLoop vout fuel ((b + 1) % uintMod) ((b + 1) % uintMod)
          ((nNonzeroBytes + 1) % uintMod)
    else some (nLastUsedByte, nNonzeroBytes)

/-- `CCoins::CalcMaskSize` (coins.cpp 19-35): the values of the two reference
parameters `nBytes` and `nNonzeroBytes` after the call, given their values
before; `none` when the loop has not ended within `fuel` rounds. -/
def CCoins.CalcMaskSize (c : CCoins) (fuel : Nat) (nBytes nNonzeroBytes : Nat) :
    Option (Nat × Nat) :=
  match maskOuterLoop c.vout fuel 0 0 nNonzeroBytes with
  | none => none
  | some r => some ((nBytes + r.1) % uintMod, r.2)

/-- The number of mask bytes, following the specification: the outputs from
index 2 on are grouped into `⌈(len(outputs) - 2) / 8⌉` bytes. -/
def maskByteCount (vout : List (Option CTxOut)) : Nat :=
  (vout.length - 2 + 7) / 8

/-- A mask byte is nonzero, following the specification: byte `b` covers the
indices `2 + 8b .. 2 + 8b + 7` that are below `len(outputs)` and is nonzero iff
it covers at least one non-null output. -/
def maskByteNonzero (vout : List (Option CTxOut)) (b : Nat) : Bool :=
  (List.range 8).any (fun i =>
    decide (2 + 8 * b + i < vout.length) && (voutAt vout (2 + 8 * b + i)).isSome)

/-- One plus the last element of a list of byte indices, `d` if there is none. -/
def lastPlusOne (l : List Nat) (d : Nat) : Nat :=
  match l.getLast? with
  | some x => x + 1
  | none => d

/-- The reference value of `nBytes`, following the specification: 1 plus the
index of the last nonzero byte, 0 if there is none. -/
def refMaskBytes (vout : List (Option CTxOut)) : Nat :=
  lastPlusOne ((List.range (maskByteCount vout)).filter (maskByteNonzero vout)) 0

/-- The reference value of `nNonzeroBytes`, following the specification: the
number of nonzero bytes. -/
def refNonzeroBytes (vout : List (Option CTxOut)) : Nat :=
  ((List.range (maskByteCount vout)).filter (maskByteNonzero vout)).length

/-! ## Consensus rules (consensus/params.h)

`COIN` stands for the constant of amount.h (a `CAmount`, a signed 64-bit
integer); the rules take it as a parameter.  A height is an `unsigned`, a
natural number below `2 ^ 32`. -/

/-- Subtraction on `unsigned int`, wrapping below zero. -/
def uintSub (a b : Nat) : Nat := (a + (uintMod - b % uintMod)) % uintMod

/-- `MainNetConsensus::NameExpirationDepth` (params.h 36-48). -/
def MainNetConsensus.NameExpirationDepth (nHeight : Nat) : Nat :=
  if nHeight < 24000 then 12000
  else if nHeight < 48000 then uintSub nHeight 12000
  else 36000

/-- `MainNetConsensus::MinNameCoinAmount` (params.h 50-56); `/` on `CAmount`
truncates. -/
def MainNetConsensus.MinNameCoinAmount (COIN : Int) (nHeight : Nat) : Int :=
  if nHeight < 212500 then 0 else Int.tdiv COIN 100

/-- `TestNetConsensus` inherits `NameExpirationDepth` from `MainNetConsensus`
(params.h 60). -/
def TestNetConsensus.NameExpirationDepth (nHeight : Nat) : Nat :=
  MainNetConsensus.NameExpirationDepth nHeight

/-- `TestNetConsensus::MinNameCoinAmount` (params.h 64-67). -/
def TestNetConsensus.MinNameCoinAmount (COIN : Int) (_nHeight : Nat) : Int :=
  Int.tdiv COIN 100

/-- `RegTestConsensus::NameExpirationDepth` (params.h 75-78). -/
def RegTestConsensus.NameExpirationDepth (_nHeight : Nat) : Nat := 30

/-- `RegTestConsensus` inherits `MinNameCoinAmount` from `TestNetConsensus`
(params.h 71). -/
def RegTestConsensus.MinNameCoinAmount (COIN : Int) (nHeight : Nat) : Int :=
  TestNetConsensus.MinNameCoinAmount COIN nHeight

/-- The expiration depth on the main network, following the specification:
12000 below height 24000, `h - 12000` from 24000 to below 48000, else 36000. -/
def refDepthMain (h : Nat) : Nat :=
  if h < 24000 then 12000 else if h < 48000 then h - 12000 else 36000

/-- The minimum name amount on the main network, following the specification:
0 below height 212500, else one hundredth of a coin. -/
def refMinAmountMain (COIN : Int) (h : Nat) : Int :=
  if h < 212500 then 0 else Int.tdiv COIN 100

/-- The conversion `static_cast<int>` of an `unsigned` value: values from `2 ^ 31`
on become negative. -/
def toInt32 (n : Nat) : Int :=
  if n % uintMod < 2 ^ 31 then ((n % uintMod : Nat) : Int)
  else ((n % uintMod : Nat) : Int) - (uintMod : Int)

/-- `Consensus::Params::AllowLegacyBlocks` (params.h 126-131) as a function of the
member `nLegacyBlocksBefore` (an `int`) and the height. -/
def AllowLegacyBlocks (nLegacyBlocksBefore : Int) (nHeight : Nat) : Bool :=
  if nLegacyBlocksBefore < 0 then true
  else decide (toInt32 nHeight < nLegacyBlocksBefore)

/-- The part of the relation between a child cache `c` and its parent cache `p`
that the `FRESH` assertion of `BatchWrite` needs: no modifier is live on the
child, its keys are distinct, and every entry of the child without `FRESH` has
an entry in the parent's coin map. -/
def childBacked (p c : CCoinsViewCache) : Prop :=
  c.hasModifier = false ∧ mapKeysNodup c.cacheCoins ∧
  ∀ t e, mapFind c.cacheCoins t = some e → e.flags.fresh = false →
    ∃ u, mapFind p.cacheCoins t = some u

/-- The sum of the memory usage of the records of a coin map. -/
def usageSum (DynamicUsage : CCoins → Nat) (m : CCoinsMap) : Nat :=
  (m.map (fun p => DynamicUsage p.2.coins)).sum

/-- The accounting of a cache with members `c` is right: no modifier is live,
the keys of the coin map are distinct, and `cachedCoinsUsage` is the sum of the
usage of the records in the coin map, as a `size_t`. -/
def usageTracked (DynamicUsage : CCoins → Nat) (c : CCoinsViewCache) : Prop :=
  c.hasModifier = false ∧ mapKeysNodup c.cacheCoins ∧
  c.cachedCoinsUsage = usageSum DynamicUsage c.cacheCoins % sizeMod

/-- The usage a modifier or `BatchWrite` subtracts for the key `txid`: that of the
record cached under it, and 0 when there is none. -/
def usageAt (DynamicUsage : CCoins → Nat) (m : CCoinsMap) (txid : uint256) : Nat :=
  match mapFind m txid with
  | some e => DynamicUsage e.coins
  | none => 0

/-! ## Example inputs -/

/-- A usage measure for the examples: the number of output slots. -/
def exUsage (c : CCoins) : Nat := c.vout.length

/-- Example outputs. -/
def exOutA : CTxOut := { nValue := 10, scriptPubKey := [1] }

/-- Example outputs. -/
def exOutB : CTxOut := { nValue := 20, scriptPubKey := [2] }

/-- An empty backing store that accepts writes. -/
def exEmptyStore : Backend :=
  { coins := [], bestBlock := 0, names := [], nameHistory := [], namesForHeight := [],
    writeOk := true }

/-- A backing store holding transaction `7` with the outputs `[a, b]`. -/
def exStoreAB : Backend :=
  { exEmptyStore with
    coins := [(7, { fCoinBase := false, vout := [some exOutA, some exOutB],
                    nHeight := 100, nVersion := 1 })] }

/-- A backing store holding transaction `7` with the single output `[a]`. -/
def exStoreA : Backend :=
  { exEmptyStore with
    coins := [(7, { fCoinBase := false, vout := [some exOutA], nHeight := 100, nVersion := 1 })] }

/-- A record with the single output `a`. -/
def exCoinsA : CCoins :=
  { fCoinBase := false, vout := [some exOutA], nHeight := 100, nVersion := 1 }

/-- A record with the single output `b`. -/
def exCoinsB : CCoins :=
  { fCoinBase := false, vout := [some exOutB], nHeight := 100, nVersion := 1 }

/-- A parent cache holding transaction `1` (`FRESH`, `DIRTY`), `2` (`DIRTY`) and `5`. -/
def exParent : CCoinsViewCache :=
  { CCoinsViewCache.new with
    cacheCoins :=
      [(1, { coins := exCoinsA, flags := { dirty := true, fresh := true } }),
       (2, { coins := exCoinsA, flags := { dirty := true, fresh := false } }),
       (5, { coins := exCoinsA, flags := { dirty := false, fresh := false } })] }

/-- A child map with one entry for each row of the decision table. -/
def exChildMap : CCoinsMap :=
  [(1, { coins := CCoins.empty, flags := { dirty := true, fresh := false } }),
   (2, { coins := exCoinsB, flags := { dirty := true, fresh := false } }),
   (3, { coins := exCoinsB, flags := { dirty := true, fresh := true } }),
   (4, { coins := CCoins.empty, flags := { dirty := true, fresh := true } }),
   (5, { coins := exCoinsB, flags := { dirty := false, fresh := false } })]

/-- A parent cache over `exStoreA` after the one output of transaction `7` was
spent through a modifier: a pruned entry with `DIRTY`. -/
def exSpentParent : CCoinsViewCache :=
  { CCoinsViewCache.new with
    cacheCoins := [(7, { coins := { exCoinsA with vout := [] },
                         flags := { dirty := true, fresh := false } })] }

/-- A parent cache over `exStoreA` into which a `FRESH` entry for transaction `7`
was written although the store holds `7`. -/
def exPlantedParent : CCoinsViewCache :=
  { CCoinsViewCache.new with
    cacheCoins := [(7, { coins := exCoinsB, flags := { dirty := true, fresh := true } })]
    cachedCoinsUsage := 1 }

/-- A child cache that took transaction `7` from its parent and spent its one
output: a pruned entry with `DIRTY`. -/
def exSpentChild : CCoinsViewCache :=
  { CCoinsViewCache.new with
    cacheCoins := [(7, { coins := { exCoinsB with vout := [] },
                         flags := { dirty := true, fresh := false } })] }

/-- A backing store holding `[a, b]` for transaction `7` whose writes fail. -/
def exFailingStore : Backend := { exStoreAB with writeOk := false }

/-- A cache with a staged entry for transaction `7`, a best block and a staged
name. -/
def exStagedCache : CCoinsViewCache :=
  { cacheCoins := [(7, { coins := exCoinsA, flags := { dirty := true, fresh := true } })]
    hashBlock := 5
    cacheNames :=
      { changes := [([1], NameChange.set { value := [9], nHeight := 100 })]
        history := []
        expireIndex := [((100, [1]), true)] }
    hasModifier := false
    cachedCoinsUsage := 1 }

/-- A record with 12 outputs: `a`, `b`, eight nulls (mask byte 0), a null and `b`
(mask byte 1). -/
def exCoinsMask : CCoins :=
  { fCoinBase := false
    vout := [some exOutA, some exOutB, none, none, none, none, none, none, none, none,
             none, some exOutB]
    nHeight := 100, nVersion := 1 }

/-- A backing store holding the name `[1]` with value `[9]` at height 100, listed
in the expiration bucket of height 100, and the name `[2]` in the same bucket. -/
def exNameStore : Backend :=
  { exEmptyStore with
    names := [([1], { value := [9], nHeight := 100 }), ([2], { value := [8], nHeight := 100 })]
    namesForHeight := [((100, [1]), ()), ((100, [2]), ())] }

/-- A record with `2^32` outputs, all null: one more than an `unsigned int` can
count. -/
def exHugeCoins : CCoins :=
  { fCoinBase := false, vout := List.replicate uintMod none, nHeight := 100, nVersion := 1 }

/-- A record with `2^32` outputs, all of them `a`. -/
def exHugeFullCoins : CCoins :=
  { fCoinBase := false, vout := List.replicate uintMod (some exOutA), nHeight := 100,
    nVersion := 1 }

/-- The mutation "spend output `i`" (`Spend(i, NULL)`). -/
def spendAt (i : Nat) (c : CCoins) : CCoins := (c.Spend i none).2.1

/-- The mutation "set the outputs to `v`". -/
def setVout (v : List (Option CTxOut)) (c : CCoins) : CCoins := { c with vout := v }

/-! ## Lemmas on the coin record -/

/-- Popping trailing nulls removes a block of nulls at the end and leaves a
tail-trimmed sequence. -/
theorem trim_decompose (l : List (Option CTxOut)) :
    ∃ k, l = l.rdropWhile (fun o => o.isNone) ++ List.replicate k none ∧
      TailTrimmed (l.rdropWhile (fun o => o.isNone)) := by
  induction l using List.reverseRecOn with
  | nil => exact ⟨0, by simp, Or.inl (by simp)⟩
  | append_singleton xs x ih =>
    cases x with
    | none =>
      obtain ⟨k, hk, ht⟩ := ih
      refine ⟨k + 1, ?_, ?_⟩
      · rw [List.rdropWhile_concat_pos _ _ _ (by simp), List.replicate_succ', ← List.append_assoc,
          ← hk]
      · rw [List.rdropWhile_concat_pos _ _ _ (by simp)]
        exact ht
    | some o =>
      refine ⟨0, ?_, ?_⟩
      · rw [List.rdropWhile_concat_neg _ _ _ (by simp)]
        simp
      · rw [List.rdropWhile_concat_neg _ _ _ (by simp)]
        exact Or.inr ⟨o, by simp⟩

/-- A tail-trimmed sequence is left alone by the trim. -/
theorem trim_of_tailTrimmed (l : List (Option CTxOut)) (h : TailTrimmed l) :
    l.rdropWhile (fun o => o.isNone) = l := by
  rcases h with h | ⟨o, ho⟩
  · subst h
    simp
  · induction l using List.reverseRecOn with
    | nil => simp
    | append_singleton xs x _ =>
      simp at ho
      subst ho
      exact List.rdropWhile_concat_neg _ _ _ (by simp)

/-- Reading past a block of trailing nulls gives the same as reading the
sequence without it. -/
theorem voutAt_append_replicate (a : List (Option CTxOut)) (k j : Nat) :
    voutAt (a ++ List.replicate k none) j = voutAt a j := by
  unfold voutAt
  by_cases hj : j < a.length
  · simp [List.getD_eq_getElem?_getD, List.getElem?_append_left hj]
  · have hj2 : a.length ≤ j := Nat.le_of_not_lt hj
    simp only [List.getD_eq_getElem?_getD]
    rw [List.getElem?_append_right hj2, List.getElem?_eq_none hj2]
    by_cases hk : j - a.length < k
    · simp [List.getElem?_replicate, hk]
    · simp [List.getElem?_replicate, hk]

/-- Availability is whether the slot read at `i` is non-null. -/
theorem isAvailable_eq (c : CCoins) (i : Nat) :
    c.IsAvailable i = (voutAt c.vout i).isSome := by
  unfold CCoins.IsAvailable voutAt
  by_cases h : i < c.vout.length
  · simp [h]
  · have h2 : c.vout.length ≤ i := Nat.le_of_not_lt h
    simp [h, List.getD_eq_getElem?_getD, List.getElem?_eq_none h2]

/-- The slot read after nulling index `i`. -/
theorem voutAt_set_none (v : List (Option CTxOut)) (i j : Nat) :
    voutAt (v.set i none) j = if j = i then none else voutAt v j := by
  unfold voutAt
  simp only [List.getD_eq_getElem?_getD, List.getElem?_set]
  by_cases hji : i = j
  · subst hji
    by_cases hlt : i < v.length <;> simp [hlt]
  · have hji2 : ¬ j = i := fun h => hji h.symm
    simp [hji, hji2]

/-- The record after a successful `Spend`. -/
theorem spend_of_available (c : CCoins) (i : Nat) (undo : Option CTxInUndo)
    (h : c.IsAvailable i = true) :
    (c.Spend i undo).1 = true ∧
      (c.Spend i undo).2.1 =
        { c with vout := (c.vout.set i none).rdropWhile (fun o => o.isNone) } := by
  have h1 : i < c.vout.length ∧ (voutAt c.vout i).isSome = true := by
    simpa [CCoins.IsAvailable] using h
  have h2 : ¬ (i ≥ c.vout.length) := Nat.not_le_of_lt h1.1
  have h3 : (voutAt c.vout i).isNone = false := by
    cases hv : voutAt c.vout i with
    | none => rw [hv] at h1; simp at h1
    | some o => rfl
  unfold CCoins.Spend
  simp [h2, h3, CCoins.Cleanup]

/-! ## C9, C10: `CCoins::Spend` -/

/-- C9: `Spend(i, undo)` returns false exactly when `i >= len(outputs)` or
`outputs[i]` is null, and a failed `Spend` leaves the record and the undo object
as they were. -/
theorem spend_fails_iff_unavailable (c : CCoins) (i : Nat) (undo : Option CTxInUndo) :
    ((c.Spend i undo).1 = false ↔ (c.vout.length ≤ i ∨ c.vout[i]? = some none)) ∧
    ((c.Spend i undo).1 = false →
      (c.Spend i undo).2.1 = c ∧ (c.Spend i undo).2.2 = undo) := by
  by_cases hlen : c.vout.length ≤ i
  · have : (c.Spend i undo) = (false, c, undo) := by
      unfold CCoins.Spend
      simp [hlen]
    simp [this, hlen]
  · have hlt : i < c.vout.length := Nat.lt_of_not_le hlen
    have hget : voutAt c.vout i = c.vout[i] := by
      simp [voutAt, List.getD_eq_getElem?_getD, List.getElem?_eq_getElem hlt]
    cases hv : c.vout[i] with
    | none =>
      have : (c.Spend i undo) = (false, c, undo) := by
        unfold CCoins.Spend
        simp [hget, hv]
      simp [this, List.getElem?_eq_getElem hlt, hv]
    | some o =>
      have hav : c.IsAvailable i = true := by
        rw [isAvailable_eq, hget, hv]
        rfl
      have hs := (spend_of_available c i undo hav).1
      simp [hs, hlen, List.getElem?_eq_getElem hlt, hv]

/-- Witness for C9: spending the null output 1 of `[out0, null]` fails and
changes nothing. -/
theorem spend_fails_iff_unavailable_witness :
    (CCoins.Spend ⟨true, [some ⟨5, []⟩, none], 100, 1⟩ 1 (some (CTxInUndo.ofTxOut none))).1 = false ∧
    (CCoins.Spend ⟨true, [some ⟨5, []⟩, none], 100, 1⟩ 1 (some (CTxInUndo.ofTxOut none))).2.1 =
      ⟨true, [some ⟨5, []⟩, none], 100, 1⟩ :=
  ⟨by decide,
   ((spend_fails_iff_unavailable ⟨true, [some ⟨5, []⟩, none], 100, 1⟩ 1
      (some (CTxInUndo.ofTxOut none))).2 (by decide)).1⟩

/-- C10: for an available index `i`, `Spend(i, _)` succeeds and leaves the outputs
equal to the pre-spend sequence with element `i` nulled and the trailing nulls
removed (the nulled sequence is the result followed by a block of nulls, and the
result satisfies T); output `i` is no longer available, every other index is
available after iff it was before, and coinbase, height and version are
unchanged. -/
theorem spend_result (c : CCoins) (i : Nat) (undo : Option CTxInUndo)
    (h : c.IsAvailable i = true) :
    (c.Spend i undo).1 = true ∧
    (∃ k, c.vout.set i none = (c.Spend i undo).2.1.vout ++ List.replicate k none) ∧
    TailTrimmed (c.Spend i undo).2.1.vout ∧
    (c.Spend i undo).2.1.IsAvailable i = false ∧
    (∀ j, j ≠ i → (c.Spend i undo).2.1.IsAvailable j = c.IsAvailable j) ∧
    (c.Spend i undo).2.1.fCoinBase = c.fCoinBase ∧
    (c.Spend i undo).2.1.nHeight = c.nHeight ∧
    (c.Spend i undo).2.1.nVersion = c.nVersion := by
  obtain ⟨hok, hrec⟩ := spend_of_available c i undo h
  obtain ⟨k, hk, ht⟩ := trim_decompose (c.vout.set i none)
  have hat : ∀ j, voutAt (c.Spend i undo).2.1.vout j = voutAt (c.vout.set i none) j := by
    intro j
    rw [hrec]
    show voutAt ((c.vout.set i none).rdropWhile (fun o => o.isNone)) j = _
    conv_rhs => rw [hk]
    rw [voutAt_append_replicate]
  refine ⟨hok, ⟨k, ?_⟩, ?_, ?_, ?_, ?_, ?_, ?_⟩
  · rw [hrec]
    exact hk
  · rw [hrec]
    exact ht
  · rw [isAvailable_eq, hat, voutAt_set_none]
    simp
  · intro j hj
    rw [isAvailable_eq, isAvailable_eq, hat, voutAt_set_none]
    simp [hj]
  · rw [hrec]
  · rw [hrec]
  · rw [hrec]

/-- Witness for C10: on `[out0, null, out2, null, null]`, `Spend(2)` leaves
`[out0]`. -/
theorem spend_result_witness :
    (CCoins.Spend ⟨false, [some ⟨1, []⟩, none, some ⟨3, []⟩, none, none], 7, 1⟩ 2 none).2.1.vout
        = [some ⟨1, []⟩] ∧
    (CCoins.Spend ⟨false, [some ⟨1, []⟩, none, some ⟨3, []⟩, none, none], 7, 1⟩ 2 none).1 = true :=
  ⟨by decide,
   (spend_result ⟨false, [some ⟨1, []⟩, none, some ⟨3, []⟩, none, none], 7, 1⟩ 2 none
      (by decide)).1⟩

/-! ## Lemmas on maps and flags -/

theorem mapFind_mapSet {V : Type} (m : List (Nat × V)) (k : Nat) (v : V) (j : Nat) :
    mapFind (mapSet m k v) j = if k = j then some v else mapFind m j := by
  induction m with
  | nil => simp [mapSet, mapFind]
  | cons p rest ih =>
    obtain ⟨k1, v1⟩ := p
    by_cases h1 : k1 = k
    · subst h1
      by_cases h2 : k1 = j <;> simp [mapSet, mapFind, h2]
    · by_cases h2 : k1 = j
      · subst h2
        have h3 : ¬ k = k1 := fun h => h1 h.symm
        simp [mapSet, mapFind, h1, h3]
      · simp [mapSet, mapFind, h1, h2, ih]

theorem mapFind_mapErase {V : Type} (m : List (Nat × V)) (k j : Nat) :
    mapFind (mapErase m k) j = if k = j then none else mapFind m j := by
  induction m with
  | nil => simp [mapErase, mapFind]
  | cons p rest ih =>
    obtain ⟨k1, v1⟩ := p
    by_cases h1 : k1 = k
    · subst h1
      by_cases h2 : k1 = j
      · subst h2
        simp [mapErase, ih]
      · simp [mapErase, mapFind, h2, ih]
    · by_cases h2 : k1 = j
      · subst h2
        have h3 : ¬ k = k1 := fun h => h1 h.symm
        simp [mapErase, mapFind, h1, h3]
      · simp [mapErase, mapFind, h1, h2, ih]

theorem mapFind_mem {V : Type} (m : List (Nat × V)) (k : Nat) (v : V)
    (h : mapFind m k = some v) : (k, v) ∈ m := by
  induction m with
  | nil => simp [mapFind] at h
  | cons p rest ih =>
    obtain ⟨k1, v1⟩ := p
    by_cases h1 : k1 = k
    · subst h1
      simp [mapFind] at h
      simp [h]
    · simp [mapFind, h1] at h
      exact List.mem_cons_of_mem _ (ih h)

theorem mapFind_none_of_not_mem_keys {V : Type} (m : List (Nat × V)) (k : Nat)
    (h : k ∉ m.map Prod.fst) : mapFind m k = none := by
  induction m with
  | nil => rfl
  | cons p rest ih =>
    obtain ⟨k1, v1⟩ := p
    simp at h
    have h1 : ¬ k1 = k := fun e => h.1 e.symm
    simp only [mapFind, h1, if_false]
    exact ih (by simpa using h.2)

theorem mapFind_of_mem_nodup {V : Type} (m : List (Nat × V)) (k : Nat) (v : V)
    (hn : mapKeysNodup m) (h : (k, v) ∈ m) : mapFind m k = some v := by
  induction m with
  | nil => simp at h
  | cons p rest ih =>
    obtain ⟨k1, v1⟩ := p
    unfold mapKeysNodup at hn
    simp only [List.map_cons, List.nodup_cons] at hn
    rcases List.mem_cons.1 h with h1 | h1
    · cases h1
      simp [mapFind]
    · have hk : k ∈ rest.map Prod.fst := List.mem_map.2 ⟨(k, v), h1, rfl⟩
      have hne : ¬ k1 = k := fun e => hn.1 (e ▸ hk)
      simp only [mapFind, hne, if_false]
      exact ih hn.2 h1

theorem mem_mapSet {V : Type} (m : List (Nat × V)) (k : Nat) (v : V) (p : Nat × V)
    (h : p ∈ mapSet m k v) : p ∈ m ∨ p = (k, v) := by
  induction m with
  | nil =>
    simp [mapSet] at h
    exact Or.inr h
  | cons q rest ih =>
    obtain ⟨k1, v1⟩ := q
    by_cases h1 : k1 = k
    · simp only [mapSet, h1, if_true] at h
      rcases List.mem_cons.1 h with h2 | h2
      · exact Or.inr h2
      · exact Or.inl (List.mem_cons_of_mem _ h2)
    · simp only [mapSet, h1, if_false] at h
      rcases List.mem_cons.1 h with h2 | h2
      · exact Or.inl (h2 ▸ List.mem_cons_self _ _)
      · rcases ih h2 with h3 | h3
        · exact Or.inl (List.mem_cons_of_mem _ h3)
        · exact Or.inr h3

theorem mem_mapErase {V : Type} (m : List (Nat × V)) (k : Nat) (p : Nat × V)
    (h : p ∈ mapErase m k) : p ∈ m := by
  induction m with
  | nil => simp [mapErase] at h
  | cons q rest ih =>
    obtain ⟨k1, v1⟩ := q
    by_cases h1 : k1 = k
    · simp only [mapErase, h1, if_true] at h
      exact List.mem_cons_of_mem _ (ih h)
    · simp only [mapErase, h1, if_false] at h
      rcases List.mem_cons.1 h with h2 | h2
      · exact h2 ▸ List.mem_cons_self _ _
      · exact List.mem_cons_of_mem _ (ih h2)

theorem keys_mapSet {V : Type} (m : List (Nat × V)) (k : Nat) (v : V) :
    (mapSet m k v).map Prod.fst =
      if k ∈ m.map Prod.fst then m.map Prod.fst else m.map Prod.fst ++ [k] := by
  induction m with
  | nil => simp [mapSet]
  | cons q rest ih =>
    obtain ⟨k1, v1⟩ := q
    by_cases h1 : k1 = k
    · subst h1
      simp [mapSet]
    · have h2 : ¬ k = k1 := fun e => h1 e.symm
      simp only [mapSet, h1, if_false, List.map_cons, ih, List.mem_cons, h2, false_or]
      by_cases h3 : k ∈ rest.map Prod.fst
      · simp only [h3, if_true]
      · simp only [h3, if_false, List.cons_append]

theorem mapKeysNodup_mapSet {V : Type} (m : List (Nat × V)) (k : Nat) (v : V)
    (h : mapKeysNodup m) : mapKeysNodup (mapSet m k v) := by
  unfold mapKeysNodup at *
  rw [keys_mapSet]
  by_cases h3 : k ∈ m.map Prod.fst
  · simpa [h3] using h
  · simp only [h3, if_false]
    exact List.Nodup.append h (List.nodup_singleton k) (by
      intro a ha hb
      simp at hb
      exact h3 (hb ▸ ha))

theorem keys_mapErase_sublist {V : Type} (m : List (Nat × V)) (k : Nat) :
    List.Sublist ((mapErase m k).map Prod.fst) (m.map Prod.fst) := by
  induction m with
  | nil => simp [mapErase]
  | cons q rest ih =>
    obtain ⟨k1, v1⟩ := q
    by_cases h1 : k1 = k
    · simp only [mapErase, h1, if_true, List.map_cons]
      exact List.Sublist.cons _ ih
    · simp only [mapErase, h1, if_false, List.map_cons]
      exact List.Sublist.cons₂ _ ih

theorem mapKeysNodup_mapErase {V : Type} (m : List (Nat × V)) (k : Nat)
    (h : mapKeysNodup m) : mapKeysNodup (mapErase m k) :=
  List.Nodup.sublist (keys_mapErase_sublist m k) h

theorem mapSet_mapSet {V : Type} (m : List (Nat × V)) (k : Nat) (v w : V) :
    mapSet (mapSet m k v) k w = mapSet m k w := by
  induction m with
  | nil => simp [mapSet]
  | cons q rest ih =>
    obtain ⟨k1, v1⟩ := q
    by_cases h1 : k1 = k
    · simp [mapSet, h1]
    · simp [mapSet, h1, ih]

theorem mapErase_mapSet {V : Type} (m : List (Nat × V)) (k : Nat) (v : V) :
    mapErase (mapSet m k v) k = mapErase m k := by
  induction m with
  | nil => simp [mapSet, mapErase]
  | cons q rest ih =>
    obtain ⟨k1, v1⟩ := q
    by_cases h1 : k1 = k
    · simp [mapSet, mapErase, h1]
    · simp [mapSet, mapErase, h1, ih]

@[simp] theorem Flags.union_DIRTY_dirty (a : Flags) : (a.union Flags.DIRTY).dirty = true := by
  simp [Flags.union, Flags.DIRTY]

@[simp] theorem Flags.union_DIRTY_fresh (a : Flags) : (a.union Flags.DIRTY).fresh = a.fresh := by
  simp [Flags.union, Flags.DIRTY]

@[simp] theorem Flags.DIRTY_union_FRESH :
    Flags.DIRTY.union Flags.FRESH = { dirty := true, fresh := true } := rfl

/-! ## Lemmas on `FetchCoins` -/

theorem fetchCoins_hit (DynamicUsage : CCoins → Nat) (base : CCoinsView) (c : CCoinsViewCache)
    (txid : uint256) (e : CCoinsCacheEntry) (h : mapFind c.cacheCoins txid = some e) :
    FetchCoins DynamicUsage base c txid = (some e, base, c) := by
  simp [FetchCoins, CCoinsViewCache.fetchFrom, h]

theorem fetchCoins_miss (DynamicUsage : CCoins → Nat) (base : CCoinsView) (c : CCoinsViewCache)
    (txid : uint256) (h : mapFind c.cacheCoins txid = none)
    (hb : (base.GetCoins DynamicUsage txid).1 = none) :
    FetchCoins DynamicUsage base c txid = (none, (base.GetCoins DynamicUsage txid).2, c) := by
  simp [FetchCoins, CCoinsViewCache.fetchFrom, h, hb]

theorem fetchCoins_load (DynamicUsage : CCoins → Nat) (base : CCoinsView) (c : CCoinsViewCache)
    (txid : uint256) (tmp : CCoins) (h : mapFind c.cacheCoins txid = none)
    (hb : (base.GetCoins DynamicUsage txid).1 = some tmp) :
    FetchCoins DynamicUsage base c txid =
      (some { coins := tmp, flags := if tmp.IsPruned then Flags.FRESH else Flags.empty },
        (base.GetCoins DynamicUsage txid).2,
        { c with
          cacheCoins := mapSet c.cacheCoins txid
            { coins := tmp, flags := if tmp.IsPruned then Flags.FRESH else Flags.empty }
          cachedCoinsUsage := sizeAdd c.cachedCoinsUsage (DynamicUsage tmp) }) := by
  simp [FetchCoins, CCoinsViewCache.fetchFrom, h, hb]

/-! ## C8: absence preservation -/

/-- C8: for a txid that is neither in the coin map nor found by the parent's
`GetCoins`, each of `GetCoins`, `AccessCoins` and `HaveCoins` reports a miss and
leaves the members of the cache (coin map with all flags, usage total and the
rest) unchanged; the txid is still absent from the coin map. -/
theorem absence_preserved (DynamicUsage : CCoins → Nat) (base : CCoinsView)
    (c : CCoinsViewCache) (txid : uint256)
    (hc : mapFind c.cacheCoins txid = none)
    (hb : (base.GetCoins DynamicUsage txid).1 = none) :
    (GetCoins DynamicUsage base c txid).1 = none ∧
    (GetCoins DynamicUsage base c txid).2.2 = c ∧
    (AccessCoins DynamicUsage base c txid).1 = none ∧
    (AccessCoins DynamicUsage base c txid).2.2 = c ∧
    (HaveCoins DynamicUsage base c txid).1 = false ∧
    (HaveCoins DynamicUsage base c txid).2.2 = c ∧
    mapFind (GetCoins DynamicUsage base c txid).2.2.cacheCoins txid = none ∧
    mapFind (AccessCoins DynamicUsage base c txid).2.2.cacheCoins txid = none ∧
    mapFind (HaveCoins DynamicUsage base c txid).2.2.cacheCoins txid = none := by
  have hf := fetchCoins_miss DynamicUsage base c txid hc hb
  simp [GetCoins, AccessCoins, HaveCoins, hf, hc]

/-- Witness for C8: a cache holding transaction `7` over the empty store is
asked for transaction `5`. -/
theorem absence_preserved_witness :
    (HaveCoins exUsage (CCoinsView.store exEmptyStore)
      { CCoinsViewCache.new with
        cacheCoins := [(7, { coins := CCoins.empty, flags := Flags.DIRTY })] } 5).1 = false ∧
    (GetCoins exUsage (CCoinsView.store exEmptyStore)
      { CCoinsViewCache.new with
        cacheCoins := [(7, { coins := CCoins.empty, flags := Flags.DIRTY })] } 5).2.2 =
      { CCoinsViewCache.new with
        cacheCoins := [(7, { coins := CCoins.empty, flags := Flags.DIRTY })] } :=
  have h := absence_preserved exUsage (CCoinsView.store exEmptyStore)
    { CCoinsViewCache.new with
      cacheCoins := [(7, { coins := CCoins.empty, flags := Flags.DIRTY })] } 5
    (by decide) (by decide)
  ⟨h.2.2.2.2.1, h.2.1⟩

/-! ## Lemmas on `ModifyCoins` and the modifier -/

theorem modifyCoins_cached (DynamicUsage : CCoins → Nat) (base : CCoinsView)
    (c : CCoinsViewCache) (txid : uint256) (e0 : CCoinsCacheEntry)
    (hm : c.hasModifier = false) (hc : mapFind c.cacheCoins txid = some e0) :
    ModifyCoins DynamicUsage base c txid =
      some ({ it := txid, cachedCoinUsage := DynamicUsage e0.coins }, base,
        { c with
          cacheCoins := mapSet c.cacheCoins txid
            { coins := e0.coins, flags := { dirty := true, fresh := e0.flags.fresh } }
          hasModifier := true }) := by
  simp [ModifyCoins, hm, hc, Flags.union, Flags.DIRTY]

theorem modifyCoins_new (DynamicUsage : CCoins → Nat) (base : CCoinsView)
    (c : CCoinsViewCache) (txid : uint256)
    (hm : c.hasModifier = false) (hc : mapFind c.cacheCoins txid = none) :
    ModifyCoins DynamicUsage base c txid =
      some ({ it := txid, cachedCoinUsage := 0 }, (base.GetCoins DynamicUsage txid).2,
        { c with
          cacheCoins := mapSet c.cacheCoins txid
            (newModifyEntry (base.GetCoins DynamicUsage txid).1)
          hasModifier := true }) := by
  cases hb : (base.GetCoins DynamicUsage txid).1 with
  | none =>
    simp [ModifyCoins, hm, hc, hb, newModifyEntry, Flags.union, Flags.DIRTY, Flags.FRESH,
      CCoins.Clear, CCoins.empty]
  | some r =>
    by_cases hp : r.IsPruned = true
    · simp [ModifyCoins, hm, hc, hb, hp, newModifyEntry, Flags.union, Flags.DIRTY, Flags.FRESH]
    · simp [ModifyCoins, hm, hc, hb, hp, newModifyEntry, Flags.union, Flags.DIRTY, Flags.empty]

theorem modifyCoins_eq (DynamicUsage : CCoins → Nat) (base : CCoinsView)
    (c : CCoinsViewCache) (txid : uint256) (hm : c.hasModifier = false) :
    ∃ u, ModifyCoins DynamicUsage base c txid =
      some ({ it := txid, cachedCoinUsage := u }, modifyBase DynamicUsage base c txid,
        { c with
          cacheCoins := mapSet c.cacheCoins txid (modifyEntry DynamicUsage base c txid)
          hasModifier := true }) := by
  cases hc : mapFind c.cacheCoins txid with
  | some e0 =>
    refine ⟨DynamicUsage e0.coins, ?_⟩
    rw [modifyCoins_cached DynamicUsage base c txid e0 hm hc]
    simp [modifyBase, modifyEntry, hc]
  | none =>
    refine ⟨0, ?_⟩
    rw [modifyCoins_new DynamicUsage base c txid hm hc]
    simp [modifyBase, modifyEntry, hc]

/-- The use of a modifier on a cache without a live modifier, in closed form:
the entry after `ModifyCoins` is mutated and trimmed, and erased when it is
`FRESH` and pruned. -/
theorem modifyWith_eq (DynamicUsage : CCoins → Nat) (base : CCoinsView)
    (c : CCoinsViewCache) (txid : uint256) (f : CCoins → CCoins)
    (hm : c.hasModifier = false) :
    ∃ u, modifyWith DynamicUsage base c txid f =
      some (modifyBase DynamicUsage base c txid,
        { c with
          hasModifier := false
          cachedCoinsUsage := u
          cacheCoins :=
            if (modifyEntry DynamicUsage base c txid).flags.fresh = true ∧
                (f (modifyEntry DynamicUsage base c txid).coins).Cleanup.IsPruned = true then
              mapErase c.cacheCoins txid
            else
              mapSet c.cacheCoins txid
                { coins := (f (modifyEntry DynamicUsage base c txid).coins).Cleanup,
                  flags := (modifyEntry DynamicUsage base c txid).flags } }) := by
  obtain ⟨u0, h0⟩ := modifyCoins_eq DynamicUsage base c txid hm
  by_cases hp : (modifyEntry DynamicUsage base c txid).flags.fresh = true ∧
      (f (modifyEntry DynamicUsage base c txid).coins).Cleanup.IsPruned = true
  · refine ⟨sizeSub c.cachedCoinsUsage u0, ?_⟩
    simp only [modifyWith, h0, CCoinsModifier.mutate, CCoinsModifier.drop, mapFind_mapSet,
      if_true]
    simp [hp.1, hp.2, mapFind_mapSet, mapSet_mapSet, mapErase_mapSet]
  · refine ⟨sizeAdd (sizeSub c.cachedCoinsUsage u0)
      (DynamicUsage (f (modifyEntry DynamicUsage base c txid).coins).Cleanup), ?_⟩
    simp only [modifyWith, h0, CCoinsModifier.mutate, CCoinsModifier.drop, mapFind_mapSet,
      if_true]
    have hp2 : ¬ ((modifyEntry DynamicUsage base c txid).flags.fresh = true ∧
      (f (modifyEntry DynamicUsage base c txid).coins).Cleanup.IsPruned = true) := hp
    simp only [Bool.and_eq_true] at *
    simp [hp2, mapFind_mapSet, mapSet_mapSet]

theorem modifyEntry_dirty (DynamicUsage : CCoins → Nat) (base : CCoinsView)
    (c : CCoinsViewCache) (txid : uint256) :
    (modifyEntry DynamicUsage base c txid).flags.dirty = true := by
  unfold modifyEntry
  cases mapFind c.cacheCoins txid with
  | some e0 => rfl
  | none =>
    cases (base.GetCoins DynamicUsage txid).1 <;> rfl

/-! ## C7: the flag rule of `ModifyCoins` -/

/-- C7: on a cache with no live modifier `ModifyCoins(txid)` returns, and the
entry then exists with `DIRTY` set.  If the txid was not cached before, `FRESH`
is set iff the parent's `GetCoins` misses or answers a pruned record, the record
is the parent's on a hit and the cleared record on a miss.  If it was cached,
record and `FRESH` bit are unchanged. -/
theorem modifyCoins_flag_rule (DynamicUsage : CCoins → Nat) (base : CCoinsView)
    (c : CCoinsViewCache) (txid : uint256) (hm : c.hasModifier = false) :
    ∃ m base1 c1 e,
      ModifyCoins DynamicUsage base c txid = some (m, base1, c1) ∧
      mapFind c1.cacheCoins txid = some e ∧
      e.flags.dirty = true ∧
      (mapFind c.cacheCoins txid = none →
        (e.flags.fresh = true ↔
          ((base.GetCoins DynamicUsage txid).1 = none ∨
            ∃ r, (base.GetCoins DynamicUsage txid).1 = some r ∧ r.IsPruned = true)) ∧
        (∀ r, (base.GetCoins DynamicUsage txid).1 = some r → e.coins = r) ∧
        ((base.GetCoins DynamicUsage txid).1 = none → e.coins = CCoins.empty)) ∧
      (∀ e0, mapFind c.cacheCoins txid = some e0 →
        e.coins = e0.coins ∧ e.flags.fresh = e0.flags.fresh) := by
  cases hc : mapFind c.cacheCoins txid with
  | some e0 =>
    refine ⟨_, _, _, { coins := e0.coins, flags := { dirty := true, fresh := e0.flags.fresh } },
      modifyCoins_cached DynamicUsage base c txid e0 hm hc, ?_, ?_, ?_, ?_⟩
    · simp only [mapFind_mapSet, if_true]
    · rfl
    · intro h
      cases h
    · intro e1 h1
      cases h1
      exact ⟨rfl, rfl⟩
  | none =>
    refine ⟨_, _, _, newModifyEntry (base.GetCoins DynamicUsage txid).1,
      modifyCoins_new DynamicUsage base c txid hm hc, ?_, ?_, ?_, ?_⟩
    · simp only [mapFind_mapSet, if_true]
    · cases (base.GetCoins DynamicUsage txid).1 <;> rfl
    · intro _
      cases hb : (base.GetCoins DynamicUsage txid).1 with
      | none => simp [newModifyEntry]
      | some r => simp [newModifyEntry]
    · intro e1 h1
      cases h1

/-- Witness for C7: over the empty store the flags are `{DIRTY, FRESH}`; over a
store holding transaction `7` with outputs `[a, b]` the flags are `{DIRTY}`. -/
theorem modifyCoins_flag_rule_witness :
    ((ModifyCoins exUsage (CCoinsView.store exEmptyStore) CCoinsViewCache.new 7).map
        (fun r => (mapFind r.2.2.cacheCoins 7).map (fun e => e.flags))
      = some (some { dirty := true, fresh := true })) ∧
    ((ModifyCoins exUsage (CCoinsView.store exStoreAB) CCoinsViewCache.new 7).map
        (fun r => (mapFind r.2.2.cacheCoins 7).map (fun e => e.flags))
      = some (some { dirty := true, fresh := false })) ∧
    (∃ m base1 c1 e,
      ModifyCoins exUsage (CCoinsView.store exStoreAB) CCoinsViewCache.new 7 =
        some (m, base1, c1) ∧
      mapFind c1.cacheCoins 7 = some e ∧ e.flags.dirty = true) :=
  ⟨by decide, by decide,
    (modifyCoins_flag_rule exUsage (CCoinsView.store exStoreAB) CCoinsViewCache.new 7 rfl).imp
      (fun _ h => h.imp (fun _ h => h.imp (fun _ h => h.imp
        (fun _ h => ⟨h.1, h.2.1, h.2.2.1⟩))))⟩

/-! ## C6: erasure of a `FRESH` pruned entry at modifier drop -/

/-- C6 (F2): on a cache without a live modifier, take a modifier on `txid`, mutate
the record in any way and drop the modifier.  If the entry is `FRESH` and, after
the tail-trim, pruned, the txid is absent from the coin map afterwards; in every
other case the entry is still present, with the trimmed record, its flags
unchanged and `DIRTY` set. -/
theorem modifier_drop_erasure (DynamicUsage : CCoins → Nat) (base : CCoinsView)
    (c : CCoinsViewCache) (txid : uint256) (f : CCoins → CCoins)
    (hm : c.hasModifier = false) :
    ∃ m base1 c1 e1 c3,
      ModifyCoins DynamicUsage base c txid = some (m, base1, c1) ∧
      mapFind c1.cacheCoins txid = some e1 ∧
      m.drop DynamicUsage (m.mutate c1 f) = some c3 ∧
      c3.hasModifier = false ∧
      ((e1.flags.fresh = true ∧ (f e1.coins).Cleanup.IsPruned = true) →
        mapFind c3.cacheCoins txid = none) ∧
      (¬ (e1.flags.fresh = true ∧ (f e1.coins).Cleanup.IsPruned = true) →
        ∃ e3, mapFind c3.cacheCoins txid = some e3 ∧ e3.flags.dirty = true ∧
          e3.flags = e1.flags ∧ e3.coins = (f e1.coins).Cleanup) := by
  obtain ⟨u0, h0⟩ := modifyCoins_eq DynamicUsage base c txid hm
  obtain ⟨u, hw⟩ := modifyWith_eq DynamicUsage base c txid f hm
  have hd : (modifyEntry DynamicUsage base c txid).flags.dirty = true := by
    unfold modifyEntry
    cases mapFind c.cacheCoins txid with
    | some e0 => rfl
    | none =>
      cases (base.GetCoins DynamicUsage txid).1 <;> rfl
  simp only [modifyWith, h0] at hw
  cases hdrop : CCoinsModifier.drop DynamicUsage { it := txid, cachedCoinUsage := u0 }
      (CCoinsModifier.mutate { it := txid, cachedCoinUsage := u0 }
        { c with
          cacheCoins := mapSet c.cacheCoins txid (modifyEntry DynamicUsage base c txid)
          hasModifier := true } f) with
  | none =>
    rw [hdrop] at hw
    cases hw
  | some c3 =>
    rw [hdrop] at hw
    simp only [Option.some.injEq, Prod.mk.injEq, true_and] at hw
    refine ⟨_, _, _, modifyEntry DynamicUsage base c txid, c3, h0, ?_, hdrop, ?_, ?_, ?_⟩
    · simp only [mapFind_mapSet, if_true]
    · rw [hw]
    · intro hp
      rw [hw]
      simp only [hp, and_self, if_true, mapFind_mapErase]
    · intro hp
      refine ⟨{ coins := (f (modifyEntry DynamicUsage base c txid).coins).Cleanup,
                flags := (modifyEntry DynamicUsage base c txid).flags }, ?_, hd, rfl, rfl⟩
      rw [hw]
      simp only [hp, if_false, mapFind_mapSet, if_true]

/-- Witness for C6: over the empty store, `ModifyCoins(7)` setting the outputs
`[a, b]` and drop, then `ModifyCoins(7)`, `Spend(0)`, `Spend(1)` and drop leaves
no entry for `7`. -/
theorem modifier_drop_erasure_witness :
    ((runOps exUsage
        [CacheOp.modify 7 (setVout [some exOutA, some exOutB]),
         CacheOp.modify 7 (fun r => spendAt 1 (spendAt 0 r))]
        (CCoinsView.store exEmptyStore, CCoinsViewCache.new)).map
      (fun s => mapFind s.2.cacheCoins 7) = some none) ∧
    (∃ m base1 c1 e1 c3,
      ModifyCoins exUsage (CCoinsView.store exEmptyStore)
        { CCoinsViewCache.new with
          cacheCoins := [(7, { coins := { CCoins.empty with vout := [some exOutA, some exOutB] },
                               flags := { dirty := true, fresh := true } })] } 7 =
        some (m, base1, c1) ∧
      mapFind c1.cacheCoins 7 = some e1 ∧
      m.drop exUsage (m.mutate c1 (fun r => spendAt 1 (spendAt 0 r))) = some c3 ∧
      mapFind c3.cacheCoins 7 = none) := by
  refine ⟨by decide, ?_⟩
  obtain ⟨m, base1, c1, e1, c3, h1, h2, h3, _, h5, _⟩ :=
    modifier_drop_erasure exUsage (CCoinsView.store exEmptyStore)
      { CCoinsViewCache.new with
        cacheCoins := [(7, { coins := { CCoins.empty with vout := [some exOutA, some exOutB] },
                             flags := { dirty := true, fresh := true } })] } 7
      (fun r => spendAt 1 (spendAt 0 r)) rfl
  refine ⟨m, base1, c1, e1, c3, h1, h2, h3, h5 ?_⟩
  have h1b : ModifyCoins exUsage (CCoinsView.store exEmptyStore)
      { CCoinsViewCache.new with
        cacheCoins := [(7, { coins := { CCoins.empty with vout := [some exOutA, some exOutB] },
                             flags := { dirty := true, fresh := true } })] } 7 =
      some ({ it := 7, cachedCoinUsage := 2 }, CCoinsView.store exEmptyStore,
        { CCoinsViewCache.new with
          cacheCoins := [(7, { coins := { CCoins.empty with vout := [some exOutA, some exOutB] },
                               flags := { dirty := true, fresh := true } })]
          hasModifier := true }) := by decide
  rw [h1b] at h1
  simp only [Option.some.injEq, Prod.mk.injEq] at h1
  obtain ⟨_, _, hc1⟩ := h1
  subst hc1
  have he1 : e1 = { coins := { CCoins.empty with vout := [some exOutA, some exOutB] },
                    flags := { dirty := true, fresh := true } } := by
    simp [mapFind] at h2
    exact h2.symm
  subst he1
  exact ⟨rfl, by decide⟩

/-! ## C4: the exclusive modifier -/

/-- Counterexample for C4: after `ModifyCoins(7)` on a new cache over the empty
store the modifier is live (`hasModifier` is true), and `Flush` on that cache
returns true; it does not trap. -/
theorem flush_with_live_modifier_returns :
    (ModifyCoins exUsage (CCoinsView.store exEmptyStore) CCoinsViewCache.new 7).map
      (fun r => (r.2.2.hasModifier, (Flush exUsage r.2.1 r.2.2).map (fun q => q.1)))
    = some (true, some true) := by decide

/-- C4, amended: on a cache view with a live modifier `ModifyCoins` (any txid) and
`BatchWrite` (any arguments) trap.  `Flush` has no assertion on the view's own
`hasModifier`: it traps exactly when the `BatchWrite` of the parent traps, which
it does when the parent is a cache with a live modifier of its own, and
otherwise it returns the parent's result: the boolean and the parent are those
the parent's `BatchWrite` gave, and the modifier is still live.  Over a backing
store that boolean is the store's, over the base-class view it is false. -/
theorem live_modifier_traps (DynamicUsage : CCoins → Nat) (base : CCoinsView)
    (c : CCoinsViewCache) (hm : c.hasModifier = true) :
    (∀ txid, ModifyCoins DynamicUsage base c txid = none) ∧
    (∀ mapCoins hashBlock names, c.BatchWrite DynamicUsage mapCoins hashBlock names = none) ∧
    (Flush DynamicUsage base c = none ↔
      base.BatchWrite DynamicUsage c.cacheCoins c.hashBlock c.cacheNames = none) ∧
    (∀ q, base.BatchWrite DynamicUsage c.cacheCoins c.hashBlock c.cacheNames = some q →
      ∃ r, Flush DynamicUsage base c = some r ∧ r.1 = q.1 ∧ r.2.1 = q.2.1 ∧
        r.2.2.hasModifier = true) ∧
    (∀ base2 p, p.hasModifier = true →
      Flush DynamicUsage (CCoinsView.cache base2 p) c = none) ∧
    (∀ b, ∃ r, Flush DynamicUsage (CCoinsView.store b) c = some r ∧ r.1 = b.writeOk ∧
      r.2.2.cacheCoins = []) ∧
    (∃ r, Flush DynamicUsage CCoinsView.dflt c = some r ∧ r.1 = false) := by
  refine ⟨?_, ?_, ?_, ?_, ?_, ?_, ?_⟩
  · intro txid
    simp [ModifyCoins, hm]
  · intro mapCoins hashBlock names
    simp [CCoinsViewCache.BatchWrite, hm]
  · unfold Flush
    cases base.BatchWrite DynamicUsage c.cacheCoins c.hashBlock c.cacheNames <;> simp
  · intro q hq
    refine ⟨(q.1, q.2.1,
      { c with cacheCoins := [], cachedCoinsUsage := 0, cacheNames := CNameCache.clear }),
      ?_, rfl, rfl, hm⟩
    unfold Flush
    rw [hq]
  · intro base2 p hp
    simp [Flush, CCoinsView.BatchWrite, CCoinsViewCache.BatchWrite, hp]
  · intro b
    refine ⟨_, rfl, ?_, rfl⟩
    show (b.BatchWrite c.cacheCoins c.hashBlock c.cacheNames).1 = b.writeOk
    unfold Backend.BatchWrite
    cases b.writeOk <;> rfl
  · exact ⟨_, rfl, rfl⟩

/-- Witness for C4, amended: a cache holding a live modifier on transaction `7`;
its `Flush` over a store whose writes fail returns false, the store's result. -/
theorem live_modifier_traps_witness :
    ModifyCoins exUsage (CCoinsView.store exEmptyStore)
      { CCoinsViewCache.new with
        cacheCoins := [(7, { coins := CCoins.empty, flags := { dirty := true, fresh := true } })]
        hasModifier := true } 8 = none ∧
    CCoinsViewCache.BatchWrite exUsage
      { CCoinsViewCache.new with
        cacheCoins := [(7, { coins := CCoins.empty, flags := { dirty := true, fresh := true } })]
        hasModifier := true } [] 0 CNameCache.clear = none ∧
    (∃ r, Flush exUsage (CCoinsView.store exFailingStore)
      { CCoinsViewCache.new with
        cacheCoins := [(7, { coins := CCoins.empty, flags := { dirty := true, fresh := true } })]
        hasModifier := true } = some r ∧ r.1 = false ∧ r.2.2.cacheCoins = []) :=
  have h := live_modifier_traps exUsage (CCoinsView.store exEmptyStore)
    { CCoinsViewCache.new with
      cacheCoins := [(7, { coins := CCoins.empty, flags := { dirty := true, fresh := true } })]
      hasModifier := true } rfl
  ⟨h.1 8, h.2.1 [] 0 CNameCache.clear, h.2.2.2.2.2.1 exFailingStore⟩

/-! ## Lemmas on `BatchWrite` -/

/-- One round of the loop of `BatchWrite`: unless the assertion fails, the
parent's entry for the child's txid becomes what the decision table says and
nothing else changes in the coin map. -/
theorem batchWriteLoop_cons (DynamicUsage : CCoins → Nat) (c : CCoinsViewCache)
    (k : uint256) (ch : CCoinsCacheEntry) (rest : CCoinsMap)
    (h : ch.flags.dirty = true → mapFind c.cacheCoins k = none → ch.coins.IsPruned = false →
      ch.flags.fresh = true) :
    ∃ c0, batchWriteLoop DynamicUsage c ((k, ch) :: rest) = batchWriteLoop DynamicUsage c0 rest ∧
      c0.hasModifier = c.hasModifier ∧ c0.hashBlock = c.hashBlock ∧
      c0.cacheNames = c.cacheNames ∧
      ∀ j, mapFind c0.cacheCoins j =
        if k = j then batchWriteTable (mapFind c.cacheCoins k) ch else mapFind c.cacheCoins j := by
  by_cases hd : ch.flags.dirty = true
  · cases hf : mapFind c.cacheCoins k with
    | none =>
      by_cases hp : ch.coins.IsPruned = true
      · refine ⟨c, by simp [batchWriteLoop, hd, hf, hp], rfl, rfl, rfl, ?_⟩
        intro j
        by_cases hkj : k = j
        · subst hkj
          simp [batchWriteTable, hd, hf, hp]
        · simp [hkj]
      · have hp2 : ch.coins.IsPruned = false := by simpa using hp
        have hfr := h hd hf hp2
        refine ⟨{ c with
            cacheCoins := mapSet c.cacheCoins k
              { coins := ch.coins, flags := Flags.DIRTY.union Flags.FRESH }
            cachedCoinsUsage := sizeAdd c.cachedCoinsUsage (DynamicUsage ch.coins) },
          by simp [batchWriteLoop, hd, hf, hp2, hfr], rfl, rfl, rfl, ?_⟩
        intro j
        simp only [mapFind_mapSet]
        by_cases hkj : k = j
        · simp [hkj, batchWriteTable, hd, hp2]
        · simp [hkj]
    | some us =>
      by_cases hp : (us.flags.fresh && ch.coins.IsPruned) = true
      · refine ⟨{ c with
            cachedCoinsUsage := sizeSub c.cachedCoinsUsage (DynamicUsage us.coins)
            cacheCoins := mapErase c.cacheCoins k },
          by simp only [batchWriteLoop, hd, hf, hp, if_true], rfl, rfl, rfl, ?_⟩
        intro j
        simp only [mapFind_mapErase]
        by_cases hkj : k = j
        · simp [hkj, batchWriteTable, hd, hp]
        · simp [hkj]
      · have hp2 : (us.flags.fresh && ch.coins.IsPruned) = false := by simpa using hp
        refine ⟨{ c with
            cachedCoinsUsage :=
              sizeAdd (sizeSub c.cachedCoinsUsage (DynamicUsage us.coins))
                (DynamicUsage ch.coins)
            cacheCoins := mapSet c.cacheCoins k
              { coins := ch.coins, flags := us.flags.union Flags.DIRTY } },
          by simp [batchWriteLoop, hd, hf, hp2], rfl, rfl, rfl, ?_⟩
        intro j
        simp only [mapFind_mapSet]
        by_cases hkj : k = j
        · simp [hkj, batchWriteTable, hd, hp2, Flags.union, Flags.DIRTY]
        · simp [hkj]
  · have hd2 : ch.flags.dirty = false := by simpa using hd
    refine ⟨c, by simp [batchWriteLoop, hd2], rfl, rfl, rfl, ?_⟩
    intro j
    by_cases hkj : k = j
    · subst hkj
      simp [batchWriteTable, hd2]
    · simp [hkj]

/-- The loop of `BatchWrite` over a child map: when no child entry fails the
assertion, the loop ends with the child map empty and the parent's coin map
changed, key by key, as the decision table says. -/
theorem batchWriteLoop_table (DynamicUsage : CCoins → Nat) :
    ∀ (mapCoins : CCoinsMap) (c : CCoinsViewCache), mapKeysNodup mapCoins →
      (∀ txid child, (txid, child) ∈ mapCoins → child.flags.dirty = true →
        mapFind c.cacheCoins txid = none → child.coins.IsPruned = false →
        child.flags.fresh = true) →
      ∃ c1, batchWriteLoop DynamicUsage c mapCoins = some (c1, []) ∧
        c1.hasModifier = c.hasModifier ∧ c1.hashBlock = c.hashBlock ∧
        c1.cacheNames = c.cacheNames ∧
        ∀ j, mapFind c1.cacheCoins j =
          match mapFind mapCoins j with
          | none => mapFind c.cacheCoins j
          | some child => batchWriteTable (mapFind c.cacheCoins j) child := by
  intro mapCoins
  induction mapCoins with
  | nil =>
    intro c _ _
    exact ⟨c, rfl, rfl, rfl, rfl, fun j => rfl⟩
  | cons p rest ih =>
    obtain ⟨k, ch⟩ := p
    intro c hn hcond
    have hn2 : k ∉ rest.map Prod.fst ∧ mapKeysNodup rest := by
      unfold mapKeysNodup at hn
      simpa using hn
    obtain ⟨c0, hstep, hm0, hb0, hnm0, hfind0⟩ :=
      batchWriteLoop_cons DynamicUsage c k ch rest
        (hcond k ch (List.mem_cons_self _ _))
    have hcond0 : ∀ txid child, (txid, child) ∈ rest → child.flags.dirty = true →
        mapFind c0.cacheCoins txid = none → child.coins.IsPruned = false →
        child.flags.fresh = true := by
      intro txid child hmem hd hf hp
      have hne : ¬ k = txid := by
        intro e
        subst e
        exact hn2.1 (List.mem_map.2 ⟨(k, child), hmem, rfl⟩)
      rw [hfind0 txid] at hf
      simp only [hne, if_false] at hf
      exact hcond txid child (List.mem_cons_of_mem _ hmem) hd hf hp
    obtain ⟨c1, hloop, hm1, hb1, hnm1, hfind1⟩ := ih c0 hn2.2 hcond0
    refine ⟨c1, by rw [hstep, hloop], hm1.trans hm0, hb1.trans hb0, hnm1.trans hnm0, ?_⟩
    intro j
    rw [hfind1 j, hfind0 j]
    by_cases hkj : k = j
    · subst hkj
      have hnone : mapFind rest k = none := mapFind_none_of_not_mem_keys rest k hn2.1
      simp [hnone, mapFind]
    · simp [hkj, mapFind]

/-- A child entry that is `DIRTY`, not pruned, not `FRESH` and absent from the
parent makes the first round of the loop fail the assertion of line 277. -/
theorem batchWriteLoop_head_traps (DynamicUsage : CCoins → Nat) (c : CCoinsViewCache)
    (k : uint256) (ch : CCoinsCacheEntry) (rest : CCoinsMap)
    (hd : ch.flags.dirty = true) (hf : mapFind c.cacheCoins k = none)
    (hp : ch.coins.IsPruned = false) (hfr : ch.flags.fresh = false) :
    batchWriteLoop DynamicUsage c ((k, ch) :: rest) = none := by
  simp [batchWriteLoop, hd, hf, hp, hfr]

/-- The loop of `BatchWrite` traps when some child entry is `DIRTY`, not pruned,
not `FRESH` and absent from the parent. -/
theorem batchWriteLoop_traps (DynamicUsage : CCoins → Nat) :
    ∀ (mapCoins : CCoinsMap) (c : CCoinsViewCache), mapKeysNodup mapCoins →
      (∃ txid child, (txid, child) ∈ mapCoins ∧ child.flags.dirty = true ∧
        mapFind c.cacheCoins txid = none ∧ child.coins.IsPruned = false ∧
        child.flags.fresh = false) →
      batchWriteLoop DynamicUsage c mapCoins = none := by
  intro mapCoins
  induction mapCoins with
  | nil =>
    intro c _ h
    obtain ⟨_, _, hmem, _⟩ := h
    simp at hmem
  | cons p rest ih =>
    obtain ⟨k, ch⟩ := p
    intro c hn hbad
    have hn2 : k ∉ rest.map Prod.fst ∧ mapKeysNodup rest := by
      unfold mapKeysNodup at hn
      simpa using hn
    by_cases hhead : ch.flags.dirty = true ∧ mapFind c.cacheCoins k = none ∧
        ch.coins.IsPruned = false ∧ ch.flags.fresh = false
    · exact batchWriteLoop_head_traps DynamicUsage c k ch rest hhead.1 hhead.2.1 hhead.2.2.1
        hhead.2.2.2
    · obtain ⟨txid, child, hmem, hd, hf, hp, hfr⟩ := hbad
      rcases List.mem_cons.1 hmem with heq | hrest
      · cases heq
        exact absurd ⟨hd, hf, hp, hfr⟩ hhead
      · have hne : ¬ k = txid := by
          intro e
          subst e
          exact hn2.1 (List.mem_map.2 ⟨(k, child), hrest, rfl⟩)
        obtain ⟨c0, hstep, _, _, _, hfind0⟩ :=
          batchWriteLoop_cons DynamicUsage c k ch rest (by
            intro h1 h2 h3
            by_contra h4
            exact hhead ⟨h1, h2, h3, by simpa using h4⟩)
        rw [hstep]
        refine ih c0 hn2.2 ⟨txid, child, hrest, hd, ?_, hp, hfr⟩
        rw [hfind0 txid]
        simp only [hne, if_false]
        exact hf

/-! ## C1: the decision table of `BatchWrite` -/

/-- Counterexample for C1: a child entry for transaction `7` that is `DIRTY`, not
`FRESH`, not pruned and absent from the parent is not inserted: `BatchWrite`
fails its assertion and does not return. -/
theorem batchWrite_traps_on_dirty_unfresh_entry :
    CCoinsViewCache.BatchWrite exUsage CCoinsViewCache.new
      [(7, { coins := { fCoinBase := false, vout := [some exOutA], nHeight := 100, nVersion := 1 },
             flags := { dirty := true, fresh := false } })] 5 CNameCache.clear = none := by
  decide

/-- C1, amended: with no modifier live, `BatchWrite` returns if and only if every
child entry that is `DIRTY`, not pruned and absent from the parent carries
`FRESH` (otherwise the assertion fails).  When it returns, it returns true, the
child map is empty, the parent's best block is the one passed in, and for every
child entry: without `DIRTY` the parent's entry is unchanged; `DIRTY` and absent
from the parent it is dropped if pruned and else inserted with the child's
record and flags exactly `DIRTY|FRESH`; `DIRTY` and present in the parent it
erases the parent's entry when that is `FRESH` and the child's record is pruned,
and else replaces the record and adds `DIRTY`, keeping the parent's `FRESH` bit.
Entries of the parent under other txids are unchanged. -/
theorem batchWrite_decision_table (DynamicUsage : CCoins → Nat) (c : CCoinsViewCache)
    (mapCoins : CCoinsMap) (hashBlockIn : uint256) (names : CNameCache)
    (hm : c.hasModifier = false) (hn : mapKeysNodup mapCoins) :
    ((∀ txid child, (txid, child) ∈ mapCoins → child.flags.dirty = true →
        mapFind c.cacheCoins txid = none → child.coins.IsPruned = false →
        child.flags.fresh = true) →
      ∃ c1, c.BatchWrite DynamicUsage mapCoins hashBlockIn names = some (true, c1, []) ∧
        c1.hashBlock = hashBlockIn ∧
        c1.cacheNames = c.cacheNames.apply names ∧
        c1.hasModifier = false ∧
        (∀ txid child, (txid, child) ∈ mapCoins →
          (child.flags.dirty = false →
            mapFind c1.cacheCoins txid = mapFind c.cacheCoins txid) ∧
          (child.flags.dirty = true → mapFind c.cacheCoins txid = none →
            child.coins.IsPruned = true → mapFind c1.cacheCoins txid = none) ∧
          (child.flags.dirty = true → mapFind c.cacheCoins txid = none →
            child.coins.IsPruned = false →
            mapFind c1.cacheCoins txid =
              some { coins := child.coins, flags := { dirty := true, fresh := true } }) ∧
          (∀ us, child.flags.dirty = true → mapFind c.cacheCoins txid = some us →
            (us.flags.fresh = true ∧ child.coins.IsPruned = true) →
            mapFind c1.cacheCoins txid = none) ∧
          (∀ us, child.flags.dirty = true → mapFind c.cacheCoins txid = some us →
            ¬ (us.flags.fresh = true ∧ child.coins.IsPruned = true) →
            mapFind c1.cacheCoins txid =
              some { coins := child.coins,
                     flags := { dirty := true, fresh := us.flags.fresh } })) ∧
        (∀ txid, txid ∉ mapCoins.map Prod.fst →
          mapFind c1.cacheCoins txid = mapFind c.cacheCoins txid)) ∧
    ((∃ txid child, (txid, child) ∈ mapCoins ∧ child.flags.dirty = true ∧
        mapFind c.cacheCoins txid = none ∧ child.coins.IsPruned = false ∧
        child.flags.fresh = false) →
      c.BatchWrite DynamicUsage mapCoins hashBlockIn names = none) := by
  constructor
  · intro hcond
    obtain ⟨c1, hloop, hm1, _, hnm1, hfind⟩ :=
      batchWriteLoop_table DynamicUsage mapCoins c hn hcond
    refine ⟨{ c1 with hashBlock := hashBlockIn, cacheNames := c1.cacheNames.apply names },
      ?_, rfl, ?_, ?_, ?_, ?_⟩
    · simp [CCoinsViewCache.BatchWrite, hm, hloop]
    · show c1.cacheNames.apply names = _
      rw [hnm1]
    · show c1.hasModifier = false
      rw [hm1, hm]
    · intro txid child hmem
      have hfd : mapFind mapCoins txid = some child := mapFind_of_mem_nodup mapCoins txid child hn hmem
      have hj : mapFind c1.cacheCoins txid = batchWriteTable (mapFind c.cacheCoins txid) child := by
        rw [hfind txid, hfd]
      refine ⟨?_, ?_, ?_, ?_, ?_⟩
      · intro hd
        show mapFind c1.cacheCoins txid = _
        rw [hj]
        simp [batchWriteTable, hd]
      · intro hd hf hp
        show mapFind c1.cacheCoins txid = _
        rw [hj, hf]
        simp [batchWriteTable, hd, hp]
      · intro hd hf hp
        show mapFind c1.cacheCoins txid = _
        rw [hj, hf]
        simp [batchWriteTable, hd, hp]
      · intro us hd hf hp
        show mapFind c1.cacheCoins txid = _
        rw [hj, hf]
        simp [batchWriteTable, hd, hp.1, hp.2]
      · intro us hd hf hp
        show mapFind c1.cacheCoins txid = _
        rw [hj, hf]
        have hp2 : (us.flags.fresh && child.coins.IsPruned) = false := by
          cases h1 : us.flags.fresh <;> cases h2 : child.coins.IsPruned <;> simp_all
        simp [batchWriteTable, hd, hp2]
    · intro txid hnot
      show mapFind c1.cacheCoins txid = _
      rw [hfind txid, mapFind_none_of_not_mem_keys mapCoins txid hnot]
  · intro hbad
    have hloop := batchWriteLoop_traps DynamicUsage mapCoins c hn hbad
    simp [CCoinsViewCache.BatchWrite, hm, hloop]

/-- Witness for C1, amended: a child map with one entry per row of the table is
written into a parent: `1` is erased, `2` replaced, `3` inserted, `4` dropped and
`5` left alone. -/
theorem batchWrite_decision_table_witness :
    ((exParent.BatchWrite exUsage exChildMap 9 CNameCache.clear).map
        (fun r => (r.1, r.2.1.cacheCoins, r.2.1.hashBlock, r.2.2)) =
      some (true,
        [(2, { coins := exCoinsB, flags := { dirty := true, fresh := false } }),
         (5, { coins := exCoinsA, flags := { dirty := false, fresh := false } }),
         (3, { coins := exCoinsB, flags := { dirty := true, fresh := true } })],
        9, [])) ∧
    (∃ c1, exParent.BatchWrite exUsage exChildMap 9 CNameCache.clear = some (true, c1, []) ∧
      c1.hashBlock = 9) := by
  refine ⟨by decide, ?_⟩
  have hn : mapKeysNodup exChildMap := by
    unfold mapKeysNodup
    decide
  obtain ⟨c1, h1, h2, _⟩ :=
    (batchWrite_decision_table exUsage exParent exChildMap 9 CNameCache.clear rfl hn).1 (by
      intro txid child hmem hd hf hp
      simp only [exChildMap, List.mem_cons, Prod.mk.injEq, List.mem_singleton] at hmem
      rcases hmem with h | h | h | h | h | h
      · obtain ⟨h1, h2⟩ := h
        subst h1
        simp [exParent, mapFind] at hf
      · obtain ⟨h1, h2⟩ := h
        subst h1
        simp [exParent, mapFind] at hf
      · obtain ⟨h1, h2⟩ := h
        subst h2
        rfl
      · obtain ⟨h1, h2⟩ := h
        subst h2
        rfl
      · obtain ⟨h1, h2⟩ := h
        subst h2
        simp at hd
      · simp at h)
  exact ⟨c1, h1, h2⟩

/-! ## Lemmas on the entries of a cache along its operations -/

theorem getCoins_state (DynamicUsage : CCoins → Nat) (base : CCoinsView) (c : CCoinsViewCache)
    (txid : uint256) :
    (GetCoins DynamicUsage base c txid).2 = (FetchCoins DynamicUsage base c txid).2 := by
  cases h : (FetchCoins DynamicUsage base c txid).1 <;> simp [GetCoins, h]

theorem accessCoins_state (DynamicUsage : CCoins → Nat) (base : CCoinsView)
    (c : CCoinsViewCache) (txid : uint256) :
    (AccessCoins DynamicUsage base c txid).2 = (FetchCoins DynamicUsage base c txid).2 := by
  cases h : (FetchCoins DynamicUsage base c txid).1 <;> simp [AccessCoins, h]

theorem haveCoins_state (DynamicUsage : CCoins → Nat) (base : CCoinsView) (c : CCoinsViewCache)
    (txid : uint256) :
    (HaveCoins DynamicUsage base c txid).2 = (FetchCoins DynamicUsage base c txid).2 := by
  cases h : (FetchCoins DynamicUsage base c txid).1 <;> simp [HaveCoins, h]

/-- What `FetchCoins` does to the state: nothing to the cache on a hit or a
miss, and on a load the record answered by the base is stored under `txid`,
`FRESH` when pruned.  The base is the one left by its `GetCoins`, or untouched. -/
theorem fetchCoins_cases (DynamicUsage : CCoins → Nat) (base : CCoinsView)
    (c : CCoinsViewCache) (txid : uint256) :
    ((FetchCoins DynamicUsage base c txid).2.2 = c ∧
      ((FetchCoins DynamicUsage base c txid).2.1 = base ∨
        (FetchCoins DynamicUsage base c txid).2.1 = (base.GetCoins DynamicUsage txid).2)) ∨
    (∃ tmp, mapFind c.cacheCoins txid = none ∧
      (base.GetCoins DynamicUsage txid).1 = some tmp ∧
      (FetchCoins DynamicUsage base c txid).2.1 = (base.GetCoins DynamicUsage txid).2 ∧
      (FetchCoins DynamicUsage base c txid).2.2 =
        { c with
          cacheCoins := mapSet c.cacheCoins txid
            { coins := tmp, flags := if tmp.IsPruned then Flags.FRESH else Flags.empty }
          cachedCoinsUsage := sizeAdd c.cachedCoinsUsage (DynamicUsage tmp) }) := by
  cases hc : mapFind c.cacheCoins txid with
  | some e =>
    left
    rw [fetchCoins_hit DynamicUsage base c txid e hc]
    exact ⟨rfl, Or.inl rfl⟩
  | none =>
    cases hb : (base.GetCoins DynamicUsage txid).1 with
    | none =>
      left
      rw [fetchCoins_miss DynamicUsage base c txid hc hb]
      exact ⟨rfl, Or.inr rfl⟩
    | some tmp =>
      right
      rw [fetchCoins_load DynamicUsage base c txid tmp hc hb]
      exact ⟨tmp, rfl, rfl, rfl, rfl⟩

/-- Every entry of the parent after the loop of `BatchWrite` was there before or
carries the record of a child entry and the flag `DIRTY`. -/
theorem batchWriteLoop_mem (DynamicUsage : CCoins → Nat) :
    ∀ (mapCoins : CCoinsMap) (c c1 : CCoinsViewCache) (m1 : CCoinsMap),
      batchWriteLoop DynamicUsage c mapCoins = some (c1, m1) →
      m1 = [] ∧ c1.hasModifier = c.hasModifier ∧
      ∀ p, p ∈ c1.cacheCoins →
        p ∈ c.cacheCoins ∨
          ∃ q, q ∈ mapCoins ∧ p.1 = q.1 ∧ p.2.coins = q.2.coins ∧ p.2.flags.dirty = true := by
  intro mapCoins
  induction mapCoins with
  | nil =>
    intro c c1 m1 h
    simp only [batchWriteLoop, Option.some.injEq, Prod.mk.injEq] at h
    obtain ⟨h1, h2⟩ := h
    subst h1
    subst h2
    exact ⟨rfl, rfl, fun p hp => Or.inl hp⟩
  | cons q0 rest ih =>
    obtain ⟨k, ch⟩ := q0
    intro c c1 m1 h
    have key : ∀ c0 : CCoinsViewCache, batchWriteLoop DynamicUsage c0 rest = some (c1, m1) →
        c0.hasModifier = c.hasModifier →
        (∀ p, p ∈ c0.cacheCoins → p ∈ c.cacheCoins ∨
          (p.1 = k ∧ p.2.coins = ch.coins ∧ p.2.flags.dirty = true)) →
        m1 = [] ∧ c1.hasModifier = c.hasModifier ∧
        ∀ p, p ∈ c1.cacheCoins →
          p ∈ c.cacheCoins ∨
            ∃ q, q ∈ (k, ch) :: rest ∧ p.1 = q.1 ∧ p.2.coins = q.2.coins ∧
              p.2.flags.dirty = true := by
      intro c0 h0 hm0 hmem0
      obtain ⟨e1, e2, e3⟩ := ih c0 c1 m1 h0
      refine ⟨e1, e2.trans hm0, ?_⟩
      intro p hp
      rcases e3 p hp with h3 | ⟨q, hq, hq2⟩
      · rcases hmem0 p h3 with h4 | h4
        · exact Or.inl h4
        · exact Or.inr ⟨(k, ch), List.mem_cons_self _ _, h4⟩
      · exact Or.inr ⟨q, List.mem_cons_of_mem _ hq, hq2⟩
    by_cases hd : ch.flags.dirty = true
    · cases hf : mapFind c.cacheCoins k with
      | none =>
        by_cases hp : ch.coins.IsPruned = true
        · simp only [batchWriteLoop, hd, hf, hp, if_true] at h
          exact key c (by simpa using h) rfl (fun p hp => Or.inl hp)
        · have hp2 : ch.coins.IsPruned = false := by simpa using hp
          by_cases hfr : ch.flags.fresh = true
          · simp only [batchWriteLoop, hd, hf, hp2, hfr, if_true] at h
            refine key { c with
                cacheCoins := mapSet c.cacheCoins k
                  { coins := ch.coins, flags := Flags.DIRTY.union Flags.FRESH }
                cachedCoinsUsage := sizeAdd c.cachedCoinsUsage (DynamicUsage ch.coins) }
              (by simpa using h) rfl ?_
            intro p hp
            rcases mem_mapSet _ _ _ _ hp with h4 | h4
            · exact Or.inl h4
            · subst h4
              exact Or.inr ⟨rfl, rfl, rfl⟩
          · simp [batchWriteLoop, hd, hf, hp2, hfr] at h
      | some us =>
        by_cases hp : (us.flags.fresh && ch.coins.IsPruned) = true
        · simp only [batchWriteLoop, hd, hf, hp, if_true] at h
          refine key { c with
              cachedCoinsUsage := sizeSub c.cachedCoinsUsage (DynamicUsage us.coins)
              cacheCoins := mapErase c.cacheCoins k } h rfl ?_
          intro p hp
          exact Or.inl (mem_mapErase _ _ _ hp)
        · have hp2 : (us.flags.fresh && ch.coins.IsPruned) = false := by simpa using hp
          simp only [batchWriteLoop, hd, hf, hp2, if_true] at h
          refine key { c with
              cachedCoinsUsage :=
                sizeAdd (sizeSub c.cachedCoinsUsage (DynamicUsage us.coins))
                  (DynamicUsage ch.coins)
              cacheCoins := mapSet c.cacheCoins k
                { coins := ch.coins, flags := us.flags.union Flags.DIRTY } }
            (by simpa using h) rfl ?_
          intro p hp
          rcases mem_mapSet _ _ _ _ hp with h4 | h4
          · exact Or.inl h4
          · subst h4
            exact Or.inr ⟨rfl, rfl, by simp⟩
    · have hd2 : ch.flags.dirty = false := by simpa using hd
      simp only [batchWriteLoop, hd2] at h
      exact key c (by simpa using h) rfl (fun p hp => Or.inl hp)

/-- The entries of the cache after `FetchCoins`: the old ones, and possibly the
record answered by the base, which is `FRESH` only if pruned. -/
theorem fetchCoins_mem (DynamicUsage : CCoins → Nat) (base : CCoinsView)
    (c : CCoinsViewCache) (txid : uint256) :
    (FetchCoins DynamicUsage base c txid).2.2.hasModifier = c.hasModifier ∧
    ∀ p, p ∈ (FetchCoins DynamicUsage base c txid).2.2.cacheCoins →
      p ∈ c.cacheCoins ∨
        ∃ tmp, (base.GetCoins DynamicUsage txid).1 = some tmp ∧ p.2.coins = tmp ∧
          p.2.flags.dirty = false ∧ (p.2.flags.fresh = true → tmp.IsPruned = true) := by
  rcases fetchCoins_cases DynamicUsage base c txid with ⟨h1, _⟩ | ⟨tmp, _, hb, _, h2⟩
  · rw [h1]
    exact ⟨rfl, fun p hp => Or.inl hp⟩
  · rw [h2]
    refine ⟨rfl, ?_⟩
    intro p hp
    rcases mem_mapSet _ _ _ _ hp with h4 | h4
    · exact Or.inl h4
    · subst h4
      refine Or.inr ⟨tmp, hb, rfl, ?_, ?_⟩
      · by_cases hpr : tmp.IsPruned = true <;> simp [hpr, Flags.FRESH, Flags.empty]
      · by_cases hpr : tmp.IsPruned = true <;> simp [hpr, Flags.FRESH, Flags.empty]

/-- The entries of a cache after one operation: an entry was there before, or it
holds a record just answered by the base (not `DIRTY`, and `FRESH` only if
pruned), or it holds a trimmed record and is `DIRTY` (left by a modifier), or it
holds the record of an entry of the child map written and is `DIRTY`. -/
theorem CacheOp.run_mem (DynamicUsage : CCoins → Nat) (op : CacheOp)
    (s s1 : CCoinsView × CCoinsViewCache) (hm : s.2.hasModifier = false)
    (h : op.run DynamicUsage s = some s1) :
    s1.2.hasModifier = false ∧
    ∀ p, p ∈ s1.2.cacheCoins →
      p ∈ s.2.cacheCoins ∨
      (∃ txid tmp, (s.1.GetCoins DynamicUsage txid).1 = some tmp ∧ p.2.coins = tmp ∧
        p.2.flags.dirty = false ∧ (p.2.flags.fresh = true → tmp.IsPruned = true)) ∨
      (∃ r : CCoins, p.2.coins = r.Cleanup ∧ p.2.flags.dirty = true) ∨
      (∃ m hb n q, op = CacheOp.batchWrite m hb n ∧ q ∈ m ∧ p.2.coins = q.2.coins ∧
        p.2.flags.dirty = true) := by
  obtain ⟨base, c⟩ := s
  replace hm : c.hasModifier = false := hm
  have hread : ∀ txid, s1 = (FetchCoins DynamicUsage base c txid).2 →
      s1.2.hasModifier = false ∧
      ∀ p, p ∈ s1.2.cacheCoins →
        p ∈ c.cacheCoins ∨
        (∃ txid tmp, (base.GetCoins DynamicUsage txid).1 = some tmp ∧ p.2.coins = tmp ∧
          p.2.flags.dirty = false ∧ (p.2.flags.fresh = true → tmp.IsPruned = true)) ∨
        (∃ r : CCoins, p.2.coins = r.Cleanup ∧ p.2.flags.dirty = true) ∨
        (∃ m hb n q, op = CacheOp.batchWrite m hb n ∧ q ∈ m ∧ p.2.coins = q.2.coins ∧
          p.2.flags.dirty = true) := by
    intro txid hs
    subst hs
    obtain ⟨h1, h2⟩ := fetchCoins_mem DynamicUsage base c txid
    refine ⟨h1.trans hm, ?_⟩
    intro p hp
    rcases h2 p hp with h3 | ⟨tmp, h3⟩
    · exact Or.inl h3
    · exact Or.inr (Or.inl ⟨txid, tmp, h3⟩)
  cases op with
  | getCoins txid =>
    simp only [CacheOp.run, Option.some.injEq] at h
    exact hread txid (by rw [← h, getCoins_state])
  | accessCoins txid =>
    simp only [CacheOp.run, Option.some.injEq] at h
    exact hread txid (by rw [← h, accessCoins_state])
  | haveCoins txid =>
    simp only [CacheOp.run, Option.some.injEq] at h
    exact hread txid (by rw [← h, haveCoins_state])
  | modify txid f =>
    obtain ⟨u, hw⟩ := modifyWith_eq DynamicUsage base c txid f hm
    simp only [CacheOp.run] at h
    rw [hw] at h
    simp only [Option.some.injEq] at h
    subst h
    refine ⟨rfl, ?_⟩
    intro p hp
    simp only at hp
    by_cases hcond : (modifyEntry DynamicUsage base c txid).flags.fresh = true ∧
        (f (modifyEntry DynamicUsage base c txid).coins).Cleanup.IsPruned = true
    · rw [if_pos hcond] at hp
      exact Or.inl (mem_mapErase _ _ _ hp)
    · rw [if_neg hcond] at hp
      rcases mem_mapSet _ _ _ _ hp with h4 | h4
      · exact Or.inl h4
      · subst h4
        exact Or.inr (Or.inr (Or.inl ⟨_, rfl, modifyEntry_dirty DynamicUsage base c txid⟩))
  | batchWrite m hb n =>
    simp only [CacheOp.run] at h
    cases hbw : CCoinsViewCache.BatchWrite DynamicUsage c m hb n with
    | none =>
      rw [hbw] at h
      cases h
    | some r =>
      rw [hbw] at h
      simp only [Option.some.injEq] at h
      subst h
      simp only [CCoinsViewCache.BatchWrite, hm] at hbw
      cases hloop : batchWriteLoop DynamicUsage c m with
      | none =>
        rw [hloop] at hbw
        simp at hbw
      | some r1 =>
        obtain ⟨c1, m1⟩ := r1
        rw [hloop] at hbw
        simp only [Bool.false_eq_true, if_false, Option.some.injEq] at hbw
        subst hbw
        obtain ⟨_, h2, h3⟩ := batchWriteLoop_mem DynamicUsage m c c1 m1 hloop
        refine ⟨h2.trans hm, ?_⟩
        intro p hp
        rcases h3 p hp with h4 | ⟨q, hq, _, hq2, hq3⟩
        · exact Or.inl h4
        · exact Or.inr (Or.inr (Or.inr ⟨m, hb, n, q, rfl, hq, hq2, hq3⟩))
  | flush =>
    simp only [CacheOp.run] at h
    cases hfl : Flush DynamicUsage base c with
    | none =>
      rw [hfl] at h
      cases h
    | some r =>
      rw [hfl] at h
      simp only [Option.some.injEq] at h
      subst h
      unfold Flush at hfl
      cases hbw : base.BatchWrite DynamicUsage c.cacheCoins c.hashBlock c.cacheNames with
      | none =>
        rw [hbw] at hfl
        cases hfl
      | some r2 =>
        rw [hbw] at hfl
        simp only [Option.some.injEq] at hfl
        subst hfl
        exact ⟨hm, fun p hp => by simp at hp⟩

/-! ## C3: `FRESH` and `DIRTY` -/

/-- Counterexample for C3: a parent cache over a store holding transaction `7`
with the one output `[a]` spends that output, which leaves it a pruned `DIRTY`
entry; a newly constructed cache over this parent that reads `7` through
`GetCoins` then holds an entry with `FRESH` but without `DIRTY`. -/
theorem fetched_pruned_entry_fresh_not_dirty :
    ((runOps exUsage [CacheOp.modify 7 (spendAt 0)]
        (CCoinsView.store exStoreA, CCoinsViewCache.new)).bind
      (fun s => (runOps exUsage [CacheOp.getCoins 7]
          (CCoinsView.cache s.1 s.2, CCoinsViewCache.new)).map
        (fun s1 => (mapFind s1.2.cacheCoins 7).map (fun e => e.flags)))) =
      some (some { dirty := false, fresh := true }) := by
  decide

/-- C3, amended: in every state of a cache reached from a newly constructed cache
by reads, uses of a modifier, `BatchWrite` and `Flush`, every entry of the coin
map that has `FRESH` has `DIRTY` or holds a pruned record (`FetchCoins` marks a
pruned record answered by the parent `FRESH` without `DIRTY`). -/
theorem fresh_implies_dirty_or_pruned (DynamicUsage : CCoins → Nat) (base : CCoinsView)
    (ops : List CacheOp) (s1 : CCoinsView × CCoinsViewCache)
    (h : runOps DynamicUsage ops (base, CCoinsViewCache.new) = some s1) :
    ∀ txid e, (txid, e) ∈ s1.2.cacheCoins → e.flags.fresh = true →
      e.flags.dirty = true ∨ e.coins.IsPruned = true := by
  have gen : ∀ (ops : List CacheOp) (s s1 : CCoinsView × CCoinsViewCache),
      s.2.hasModifier = false →
      (∀ p, p ∈ s.2.cacheCoins → p.2.flags.fresh = true →
        p.2.flags.dirty = true ∨ p.2.coins.IsPruned = true) →
      runOps DynamicUsage ops s = some s1 →
      ∀ p, p ∈ s1.2.cacheCoins → p.2.flags.fresh = true →
        p.2.flags.dirty = true ∨ p.2.coins.IsPruned = true := by
    intro ops
    induction ops with
    | nil =>
      intro s s1 _ hinv hrun
      simp only [runOps, Option.some.injEq] at hrun
      subst hrun
      exact hinv
    | cons op rest ih =>
      intro s s1 hm hinv hrun
      simp only [runOps] at hrun
      cases hop : op.run DynamicUsage s with
      | none =>
        rw [hop] at hrun
        cases hrun
      | some s2 =>
        rw [hop] at hrun
        obtain ⟨hm2, hmem⟩ := CacheOp.run_mem DynamicUsage op s s2 hm hop
        refine ih s2 s1 hm2 ?_ hrun
        intro p hp hfr
        rcases hmem p hp with h1 | ⟨_, tmp, _, h2, _, h3⟩ | ⟨_, _, h2⟩ | ⟨_, _, _, _, _, _, _, h2⟩
        · exact hinv p h1 hfr
        · right
          rw [h2]
          exact h3 hfr
        · exact Or.inl h2
        · exact Or.inl h2
  intro txid e hmem hfr
  exact gen ops (base, CCoinsViewCache.new) s1 rfl (fun p hp => by simp [CCoinsViewCache.new] at hp)
    h (txid, e) hmem hfr

/-- Witness for C3, amended: the run of the counterexample, where the entry read
by the child is `FRESH`, not `DIRTY`, and pruned. -/
theorem fresh_implies_dirty_or_pruned_witness :
    runOps exUsage [CacheOp.getCoins 7]
      (CCoinsView.cache (CCoinsView.store exStoreA) exSpentParent, CCoinsViewCache.new) =
      some (CCoinsView.cache (CCoinsView.store exStoreA) exSpentParent,
        { CCoinsViewCache.new with
          cacheCoins := [(7, { coins := { exCoinsA with vout := [] },
                               flags := { dirty := false, fresh := true } })] }) ∧
    ((false = true) ∨ (CCoins.IsPruned { exCoinsA with vout := [] } = true)) :=
  ⟨by decide,
   fresh_implies_dirty_or_pruned exUsage
    (CCoinsView.cache (CCoinsView.store exStoreA) exSpentParent)
    [CacheOp.getCoins 7]
    (CCoinsView.cache (CCoinsView.store exStoreA) exSpentParent,
      { CCoinsViewCache.new with
        cacheCoins := [(7, { coins := { exCoinsA with vout := [] },
                             flags := { dirty := false, fresh := true } })] })
    (by decide) 7
    { coins := { exCoinsA with vout := [] }, flags := { dirty := false, fresh := true } }
    (by decide) rfl⟩

/-! ## Lemmas on the tail-trim invariant in a view stack -/

theorem mem_mapSet_self {V : Type} (m : List (Nat × V)) (k : Nat) (v : V) :
    (k, v) ∈ mapSet m k v :=
  mapFind_mem _ _ _ (by simp [mapFind_mapSet])

/-- The entry `FetchCoins` returns is an entry of the coin map afterwards. -/
theorem fetchCoins_fst_mem (DynamicUsage : CCoins → Nat) (base : CCoinsView)
    (c : CCoinsViewCache) (txid : uint256) (e : CCoinsCacheEntry)
    (h : (FetchCoins DynamicUsage base c txid).1 = some e) :
    (txid, e) ∈ (FetchCoins DynamicUsage base c txid).2.2.cacheCoins := by
  cases hc : mapFind c.cacheCoins txid with
  | some e0 =>
    rw [fetchCoins_hit DynamicUsage base c txid e0 hc] at h ⊢
    simp only [Option.some.injEq] at h
    subst h
    exact mapFind_mem _ _ _ hc
  | none =>
    cases hb : (base.GetCoins DynamicUsage txid).1 with
    | none =>
      rw [fetchCoins_miss DynamicUsage base c txid hc hb] at h
      cases h
    | some tmp =>
      rw [fetchCoins_load DynamicUsage base c txid tmp hc hb] at h ⊢
      simp only [Option.some.injEq] at h
      subst h
      exact mem_mapSet_self _ _ _

theorem getCoins_fst (DynamicUsage : CCoins → Nat) (base : CCoinsView) (c : CCoinsViewCache)
    (txid : uint256) :
    (GetCoins DynamicUsage base c txid).1 =
      (FetchCoins DynamicUsage base c txid).1.map (fun e => e.coins) := by
  cases h : (FetchCoins DynamicUsage base c txid).1 <;> simp [GetCoins, h]

theorem viewGetCoins_cache (DynamicUsage : CCoins → Nat) (base : CCoinsView)
    (c : CCoinsViewCache) (txid : uint256) :
    (CCoinsView.cache base c).GetCoins DynamicUsage txid =
      ((FetchCoins DynamicUsage base c txid).1.map (fun e => e.coins),
        CCoinsView.cache (FetchCoins DynamicUsage base c txid).2.1
          (FetchCoins DynamicUsage base c txid).2.2) := rfl

/-- `GetCoins` on a view stack whose records all satisfy T answers a record that
satisfies T and leaves such a stack. -/
theorem viewGetCoins_trimmed (DynamicUsage : CCoins → Nat) :
    ∀ (v : CCoinsView) (txid : uint256), viewTrimmed v →
      viewTrimmed (v.GetCoins DynamicUsage txid).2 ∧
      ∀ r, (v.GetCoins DynamicUsage txid).1 = some r → TailTrimmed r.vout := by
  intro v
  induction v with
  | dflt =>
    intro txid _
    exact ⟨trivial, fun r hr => by simp [CCoinsView.GetCoins] at hr⟩
  | store b =>
    intro txid hv
    refine ⟨hv, ?_⟩
    intro r hr
    exact hv (txid, r) (mapFind_mem _ _ _ hr)
  | cache base c ih =>
    intro txid hv
    obtain ⟨hc, hbase⟩ := hv
    obtain ⟨ih1, ih2⟩ := ih txid hbase
    rw [viewGetCoins_cache]
    have hstate : viewTrimmed (CCoinsView.cache (FetchCoins DynamicUsage base c txid).2.1
        (FetchCoins DynamicUsage base c txid).2.2) := by
      constructor
      · intro p hp
        rcases (fetchCoins_mem DynamicUsage base c txid).2 p hp with h1 | ⟨tmp, h1, h2, _⟩
        · exact hc p h1
        · rw [h2]
          exact ih2 tmp h1
      · rcases fetchCoins_cases DynamicUsage base c txid with ⟨_, h1 | h1⟩ | ⟨_, _, _, h1, _⟩
        · rw [h1]
          exact hbase
        · rw [h1]
          exact ih1
        · rw [h1]
          exact ih1
    refine ⟨hstate, ?_⟩
    intro r hr
    cases hf : (FetchCoins DynamicUsage base c txid).1 with
    | none =>
      rw [hf] at hr
      cases hr
    | some e =>
      rw [hf] at hr
      simp only [Option.map_some', Option.some.injEq] at hr
      subst hr
      exact hstate.1 (txid, e) (fetchCoins_fst_mem DynamicUsage base c txid e hf)

/-- The records of the store after its coin write were there before or are
records of the child map. -/
theorem writeCoins_mem :
    ∀ (mapCoins : CCoinsMap) (db : List (uint256 × CCoins)) (p : uint256 × CCoins),
      p ∈ Backend.writeCoins db mapCoins →
      p ∈ db ∨ ∃ q, q ∈ mapCoins ∧ p.2 = q.2.coins := by
  intro mapCoins
  induction mapCoins with
  | nil =>
    intro db p hp
    exact Or.inl hp
  | cons q0 rest ih =>
    obtain ⟨k, ch⟩ := q0
    intro db p hp
    have lift : (∃ q, q ∈ rest ∧ p.2 = q.2.coins) →
        ∃ q, q ∈ (k, ch) :: rest ∧ p.2 = q.2.coins := fun ⟨q, hq, hq2⟩ =>
      ⟨q, List.mem_cons_of_mem _ hq, hq2⟩
    by_cases hd : ch.flags.dirty = true
    · by_cases hpr : ch.coins.IsPruned = true
      · simp only [Backend.writeCoins, hd, hpr, if_true] at hp
        rcases ih _ p hp with h1 | h1
        · exact Or.inl (mem_mapErase _ _ _ h1)
        · exact Or.inr (lift h1)
      · simp only [Backend.writeCoins, hd, hpr, if_true, if_false] at hp
        rcases ih _ p hp with h1 | h1
        · rcases mem_mapSet _ _ _ _ h1 with h2 | h2
          · exact Or.inl h2
          · subst h2
            exact Or.inr ⟨(k, ch), List.mem_cons_self _ _, rfl⟩
        · exact Or.inr (lift h1)
    · simp only [Backend.writeCoins, hd, if_false] at hp
      rcases ih _ p hp with h1 | h1
      · exact Or.inl h1
      · exact Or.inr (lift h1)

/-- `BatchWrite` of a child map whose records satisfy T into a view stack whose
records satisfy T leaves such a stack. -/
theorem viewBatchWrite_trimmed (DynamicUsage : CCoins → Nat) (v : CCoinsView)
    (mapCoins : CCoinsMap) (hashBlock : uint256) (names : CNameCache)
    (r : Bool × CCoinsView × CCoinsMap) (hv : viewTrimmed v)
    (hmap : ∀ p, p ∈ mapCoins → TailTrimmed p.2.coins.vout)
    (h : v.BatchWrite DynamicUsage mapCoins hashBlock names = some r) :
    viewTrimmed r.2.1 := by
  cases v with
  | dflt =>
    simp only [CCoinsView.BatchWrite, Option.some.injEq] at h
    subst h
    trivial
  | store b =>
    simp only [CCoinsView.BatchWrite, Option.some.injEq] at h
    subst h
    show viewTrimmed (CCoinsView.store (b.BatchWrite mapCoins hashBlock names).2)
    unfold Backend.BatchWrite
    by_cases hw : b.writeOk = true
    · simp only [hw, if_true]
      intro p hp
      have hp2 : p ∈ Backend.writeCoins b.coins mapCoins := hp
      rcases writeCoins_mem mapCoins b.coins p hp2 with h1 | ⟨q, hq, hq2⟩
      · exact hv p h1
      · rw [hq2]
        exact hmap q hq
    · simp only [hw, if_false]
      exact hv
  | cache base c =>
    obtain ⟨hc, hbase⟩ := hv
    simp only [CCoinsView.BatchWrite] at h
    cases hbw : CCoinsViewCache.BatchWrite DynamicUsage c mapCoins hashBlock names with
    | none =>
      rw [hbw] at h
      cases h
    | some r1 =>
      rw [hbw] at h
      simp only [Option.some.injEq] at h
      subst h
      unfold CCoinsViewCache.BatchWrite at hbw
      by_cases hm : c.hasModifier = true
      · simp [hm] at hbw
      · have hm2 : c.hasModifier = false := by simpa using hm
        simp only [hm2, Bool.false_eq_true, if_false] at hbw
        cases hloop : batchWriteLoop DynamicUsage c mapCoins with
        | none =>
          rw [hloop] at hbw
          cases hbw
        | some r2 =>
          obtain ⟨c1, m1⟩ := r2
          rw [hloop] at hbw
          simp only [Option.some.injEq] at hbw
          subst hbw
          obtain ⟨_, _, h3⟩ := batchWriteLoop_mem DynamicUsage mapCoins c c1 m1 hloop
          refine ⟨?_, hbase⟩
          intro p hp
          rcases h3 p hp with h4 | ⟨q, hq, _, hq2, _⟩
          · exact hc p h4
          · rw [hq2]
            exact hmap q hq

theorem cleanup_trimmed (r : CCoins) : TailTrimmed r.Cleanup.vout := by
  obtain ⟨_, _, h⟩ := trim_decompose r.vout
  exact h

/-- One operation keeps the tail-trim invariant of the cache and of the stack
below it. -/
theorem CacheOp.run_trimmed (DynamicUsage : CCoins → Nat) (op : CacheOp)
    (s s1 : CCoinsView × CCoinsViewCache) (hm : s.2.hasModifier = false)
    (hv : viewTrimmed (CCoinsView.cache s.1 s.2)) (hargs : op.argsTrimmed)
    (h : op.run DynamicUsage s = some s1) :
    viewTrimmed (CCoinsView.cache s1.1 s1.2) := by
  obtain ⟨hc, hbase⟩ := hv
  obtain ⟨_, hmem⟩ := CacheOp.run_mem DynamicUsage op s s1 hm h
  constructor
  · intro p hp
    rcases hmem p hp with h1 | ⟨t, tmp, h2, h3, _⟩ | ⟨r, h2, _⟩ | ⟨m, hb, n, q, h2, h3, h4, _⟩
    · exact hc p h1
    · rw [h3]
      exact (viewGetCoins_trimmed DynamicUsage s.1 t hbase).2 tmp h2
    · rw [h2]
      exact cleanup_trimmed r
    · subst h2
      rw [h4]
      exact hargs q h3
  · obtain ⟨base, c⟩ := s
    replace hm : c.hasModifier = false := hm
    replace hbase : viewTrimmed base := hbase
    have hread : ∀ txid, viewTrimmed (FetchCoins DynamicUsage base c txid).2.1 := by
      intro txid
      rcases fetchCoins_cases DynamicUsage base c txid with ⟨_, h1 | h1⟩ | ⟨_, _, _, h1, _⟩
      · rw [h1]
        exact hbase
      · rw [h1]
        exact (viewGetCoins_trimmed DynamicUsage base txid hbase).1
      · rw [h1]
        exact (viewGetCoins_trimmed DynamicUsage base txid hbase).1
    cases op with
    | getCoins txid =>
      simp only [CacheOp.run, Option.some.injEq] at h
      rw [← h, getCoins_state]
      exact hread txid
    | accessCoins txid =>
      simp only [CacheOp.run, Option.some.injEq] at h
      rw [← h, accessCoins_state]
      exact hread txid
    | haveCoins txid =>
      simp only [CacheOp.run, Option.some.injEq] at h
      rw [← h, haveCoins_state]
      exact hread txid
    | modify txid f =>
      obtain ⟨u, hw⟩ := modifyWith_eq DynamicUsage base c txid f hm
      simp only [CacheOp.run] at h
      rw [hw] at h
      simp only [Option.some.injEq] at h
      subst h
      show viewTrimmed (modifyBase DynamicUsage base c txid)
      unfold modifyBase
      cases mapFind c.cacheCoins txid with
      | some _ => exact hbase
      | none => exact (viewGetCoins_trimmed DynamicUsage base txid hbase).1
    | batchWrite m hb n =>
      simp only [CacheOp.run] at h
      cases hbw : CCoinsViewCache.BatchWrite DynamicUsage c m hb n with
      | none =>
        rw [hbw] at h
        cases h
      | some r =>
        rw [hbw] at h
        simp only [Option.some.injEq] at h
        subst h
        exact hbase
    | flush =>
      simp only [CacheOp.run] at h
      cases hfl : Flush DynamicUsage base c with
      | none =>
        rw [hfl] at h
        cases h
      | some r =>
        rw [hfl] at h
        simp only [Option.some.injEq] at h
        subst h
        unfold Flush at hfl
        cases hbw : base.BatchWrite DynamicUsage c.cacheCoins c.hashBlock c.cacheNames with
        | none =>
          rw [hbw] at hfl
          cases hfl
        | some r2 =>
          rw [hbw] at hfl
          simp only [Option.some.injEq] at hfl
          subst hfl
          exact viewBatchWrite_trimmed DynamicUsage base c.cacheCoins c.hashBlock c.cacheNames
            r2 hbase hc hbw

/-- A run of operations keeps the tail-trim invariant of the cache and the stack
below it, and no modifier is live after it. -/
theorem runOps_trimmed (DynamicUsage : CCoins → Nat) :
    ∀ (ops : List CacheOp) (s s1 : CCoinsView × CCoinsViewCache),
      s.2.hasModifier = false → viewTrimmed (CCoinsView.cache s.1 s.2) →
      (∀ op, op ∈ ops → op.argsTrimmed) →
      runOps DynamicUsage ops s = some s1 →
      s1.2.hasModifier = false ∧ viewTrimmed (CCoinsView.cache s1.1 s1.2) := by
  intro ops
  induction ops with
  | nil =>
    intro s s1 hm hv _ hrun
    simp only [runOps, Option.some.injEq] at hrun
    subst hrun
    exact ⟨hm, hv⟩
  | cons op rest ih =>
    intro s s1 hm hv hargs hrun
    simp only [runOps] at hrun
    cases hop : op.run DynamicUsage s with
    | none =>
      rw [hop] at hrun
      cases hrun
    | some s2 =>
      rw [hop] at hrun
      have hm2 := (CacheOp.run_mem DynamicUsage op s s2 hm hop).1
      have hv2 := CacheOp.run_trimmed DynamicUsage op s s2 hm hv
        (hargs op (List.mem_cons_self _ _)) hop
      exact ih s2 s1 hm2 hv2 (fun o ho => hargs o (List.mem_cons_of_mem _ ho)) hrun

/-! ## C5: the tail-trim invariant in the cache -/

/-- C5: over a backing view whose records all satisfy T, in every state of a
cache reached from a newly constructed cache by reads, uses of a modifier with
an arbitrary mutation, `BatchWrite` of child maps whose records satisfy T, and
`Flush`, no modifier is live and every record held in the coin map, and every
record returned by `GetCoins`, has no outputs or a non-null last output. -/
theorem tail_trim_invariant (DynamicUsage : CCoins → Nat) (base : CCoinsView)
    (ops : List CacheOp) (s1 : CCoinsView × CCoinsViewCache)
    (hbase : viewTrimmed base) (hargs : ∀ op, op ∈ ops → op.argsTrimmed)
    (h : runOps DynamicUsage ops (base, CCoinsViewCache.new) = some s1) :
    s1.2.hasModifier = false ∧
    (∀ txid e, (txid, e) ∈ s1.2.cacheCoins → TailTrimmed e.coins.vout) ∧
    (∀ txid r, (GetCoins DynamicUsage s1.1 s1.2 txid).1 = some r → TailTrimmed r.vout) := by
  have hnew : viewTrimmed (CCoinsView.cache base CCoinsViewCache.new) :=
    ⟨fun p hp => by simp [CCoinsViewCache.new] at hp, hbase⟩
  obtain ⟨hm, hv⟩ :=
    runOps_trimmed DynamicUsage ops (base, CCoinsViewCache.new) s1 rfl hnew hargs h
  refine ⟨hm, fun txid e he => hv.1 (txid, e) he, ?_⟩
  intro txid r hr
  have h2 := (viewGetCoins_trimmed DynamicUsage (CCoinsView.cache s1.1 s1.2) txid hv).2 r
  rw [viewGetCoins_cache] at h2
  rw [getCoins_fst] at hr
  exact h2 hr

/-- Witness for C5: over the store holding `[a, b]` for transaction `7`, a
modifier sets the outputs of `7` to `[a, null, null]`; after the drop the cache
holds `[a]`. -/
theorem tail_trim_invariant_witness :
    runOps exUsage [CacheOp.modify 7 (setVout [some exOutA, none, none]), CacheOp.getCoins 7]
        (CCoinsView.store exStoreAB, CCoinsViewCache.new) =
      some (CCoinsView.store exStoreAB,
        { CCoinsViewCache.new with
          cacheCoins := [(7, { coins := exCoinsA, flags := { dirty := true, fresh := false } })]
          cachedCoinsUsage := 1 }) ∧
    TailTrimmed exCoinsA.vout :=
  ⟨by decide,
   (tail_trim_invariant exUsage (CCoinsView.store exStoreAB)
    [CacheOp.modify 7 (setVout [some exOutA, none, none]), CacheOp.getCoins 7]
    (CCoinsView.store exStoreAB,
      { CCoinsViewCache.new with
        cacheCoins := [(7, { coins := exCoinsA, flags := { dirty := true, fresh := false } })]
        cachedCoinsUsage := 1 })
    (by
      intro p hp
      simp only [exStoreAB, exEmptyStore, List.mem_singleton] at hp
      subst hp
      exact Or.inr ⟨exOutB, rfl⟩)
    (by
      intro op hop
      simp only [List.mem_cons, List.mem_singleton] at hop
      rcases hop with h | h | h
      · subst h
        trivial
      · subst h
        trivial
      · simp at h)
    (by decide)).2.1 7
      { coins := exCoinsA, flags := { dirty := true, fresh := false } } (by decide)⟩

/-! ## Lemmas on the answers of stacked views -/

theorem fetchCoins_fst_coins (DynamicUsage : CCoins → Nat) (base : CCoinsView)
    (c : CCoinsViewCache) (txid : uint256) :
    (FetchCoins DynamicUsage base c txid).1.map (fun e => e.coins) =
      cacheAnswer (mapFind c.cacheCoins txid) (base.GetCoins DynamicUsage txid).1 := by
  cases hc : mapFind c.cacheCoins txid with
  | some e0 =>
    rw [fetchCoins_hit DynamicUsage base c txid e0 hc]
    rfl
  | none =>
    cases hb : (base.GetCoins DynamicUsage txid).1 with
    | none =>
      rw [fetchCoins_miss DynamicUsage base c txid hc hb]
      rfl
    | some tmp =>
      rw [fetchCoins_load DynamicUsage base c txid tmp hc hb]
      rfl

theorem getCoins_answer (DynamicUsage : CCoins → Nat) (base : CCoinsView)
    (c : CCoinsViewCache) (txid : uint256) :
    (GetCoins DynamicUsage base c txid).1 =
      cacheAnswer (mapFind c.cacheCoins txid) (base.GetCoins DynamicUsage txid).1 := by
  rw [getCoins_fst, fetchCoins_fst_coins]

theorem haveCoins_answer (DynamicUsage : CCoins → Nat) (base : CCoinsView)
    (c : CCoinsViewCache) (txid : uint256) :
    (HaveCoins DynamicUsage base c txid).1 =
      answerHas (cacheAnswer (mapFind c.cacheCoins txid) (base.GetCoins DynamicUsage txid).1) := by
  rw [← fetchCoins_fst_coins]
  cases h : (FetchCoins DynamicUsage base c txid).1 <;> simp [HaveCoins, h, answerHas]

theorem viewGetCoins_cache_answer (DynamicUsage : CCoins → Nat) (base : CCoinsView)
    (c : CCoinsViewCache) (txid : uint256) :
    ((CCoinsView.cache base c).GetCoins DynamicUsage txid).1 =
      cacheAnswer (mapFind c.cacheCoins txid) (base.GetCoins DynamicUsage txid).1 := by
  rw [viewGetCoins_cache, fetchCoins_fst_coins]

/-- The answers of a view do not change when the view has answered a `GetCoins`:
a cache only stores what its base answered. -/
theorem viewGetCoins_stable (DynamicUsage : CCoins → Nat) :
    ∀ (v : CCoinsView) (s t : uint256),
      ((v.GetCoins DynamicUsage s).2.GetCoins DynamicUsage t).1 =
        (v.GetCoins DynamicUsage t).1 := by
  intro v
  induction v with
  | dflt =>
    intro s t
    rfl
  | store b =>
    intro s t
    rfl
  | cache base c ih =>
    intro s t
    rw [viewGetCoins_cache DynamicUsage base c s]
    show ((CCoinsView.cache (FetchCoins DynamicUsage base c s).2.1
      (FetchCoins DynamicUsage base c s).2.2).GetCoins DynamicUsage t).1 = _
    rw [viewGetCoins_cache_answer, viewGetCoins_cache_answer]
    rcases fetchCoins_cases DynamicUsage base c s with ⟨h1, h2 | h2⟩ | ⟨tmp, hc, hb, h2, h3⟩
    · rw [h1, h2]
    · rw [h1, h2, ih s t]
    · rw [h2, h3, ih s t]
      simp only [mapFind_mapSet]
      by_cases hst : s = t
      · subst hst
        simp [hc, hb, cacheAnswer]
      · simp [hst]

theorem isPruned_iff (r : CCoins) : r.IsPruned = true ↔ r.vout = [] := by
  unfold CCoins.IsPruned
  cases r.vout <;> simp

/-- Sound `FRESH` flags stay sound when the base has answered a `GetCoins`. -/
theorem freshSound_base_advance (DynamicUsage : CCoins → Nat) (base : CCoinsView)
    (p : CCoinsViewCache) (s : uint256) (h : freshSound DynamicUsage base p) :
    freshSound DynamicUsage (base.GetCoins DynamicUsage s).2 p := by
  intro txid e he hfr r hr
  rw [viewGetCoins_stable] at hr
  exact h txid e he hfr r hr

/-- A `FetchCoins` of the parent: its flags stay sound, its entries stay, and a
record it answers is then the record of its entry for the txid. -/
theorem parent_fetch (DynamicUsage : CCoins → Nat) (base : CCoinsView)
    (p : CCoinsViewCache) (t : uint256) :
    (FetchCoins DynamicUsage base p t).2.2.hasModifier = p.hasModifier ∧
    (freshSound DynamicUsage base p →
      freshSound DynamicUsage (FetchCoins DynamicUsage base p t).2.1
        (FetchCoins DynamicUsage base p t).2.2) ∧
    (∀ j u, mapFind p.cacheCoins j = some u →
      mapFind (FetchCoins DynamicUsage base p t).2.2.cacheCoins j = some u) ∧
    (∀ r, (FetchCoins DynamicUsage base p t).1.map (fun e => e.coins) = some r →
      ∃ u, mapFind (FetchCoins DynamicUsage base p t).2.2.cacheCoins t = some u ∧
        u.coins = r) := by
  cases hc : mapFind p.cacheCoins t with
  | some e0 =>
    rw [fetchCoins_hit DynamicUsage base p t e0 hc]
    refine ⟨rfl, fun h => h, fun j u hu => hu, ?_⟩
    intro r hr
    simp only [Option.map_some', Option.some.injEq] at hr
    exact ⟨e0, hc, hr⟩
  | none =>
    cases hb : (base.GetCoins DynamicUsage t).1 with
    | none =>
      rw [fetchCoins_miss DynamicUsage base p t hc hb]
      refine ⟨rfl, fun h => freshSound_base_advance DynamicUsage base p t h,
        fun j u hu => hu, ?_⟩
      intro r hr
      simp at hr
    | some tmp =>
      rw [fetchCoins_load DynamicUsage base p t tmp hc hb]
      refine ⟨rfl, ?_, ?_, ?_⟩
      · intro h txid e he hfr r hr
        rw [viewGetCoins_stable] at hr
        simp only [mapFind_mapSet] at he
        by_cases htx : t = txid
        · subst htx
          simp only [if_true, Option.some.injEq] at he
          subst he
          rw [hb] at hr
          simp only [Option.some.injEq] at hr
          subst hr
          by_cases hpr : tmp.IsPruned = true
          · exact (isPruned_iff tmp).1 hpr
          · simp [hpr, Flags.empty] at hfr
        · simp only [htx, if_false] at he
          exact h txid e he hfr r hr
      · intro j u hu
        simp only [mapFind_mapSet]
        by_cases htj : t = j
        · subst htj
          rw [hc] at hu
          cases hu
        · simp only [htj, if_false]
          exact hu
      · intro r hr
        simp only [Option.map_some', Option.some.injEq] at hr
        exact ⟨{ coins := tmp, flags := if tmp.IsPruned then Flags.FRESH else Flags.empty },
          by simp only [mapFind_mapSet, if_true], hr⟩

/-- The relation between child and parent is kept when the parent answers a
`GetCoins`. -/
theorem layered_parent_advance (DynamicUsage : CCoins → Nat) (base : CCoinsView)
    (p c : CCoinsViewCache) (t : uint256) (h : layered DynamicUsage base p c) :
    layered DynamicUsage (FetchCoins DynamicUsage base p t).2.1
      (FetchCoins DynamicUsage base p t).2.2 c := by
  obtain ⟨h1, h2, h3, h4, h5, h6, h7⟩ := h
  obtain ⟨g1, g2, g3, _⟩ := parent_fetch DynamicUsage base p t
  refine ⟨h1, g1.trans h2, h3, g2 h4, ?_, ?_, h7⟩
  · intro j e he hd
    obtain ⟨u, hu, hu2⟩ := h5 j e he hd
    exact ⟨u, g3 j u hu, hu2⟩
  · intro j e he hfr
    obtain ⟨u, hu⟩ := h6 j e he hfr
    exact ⟨u, g3 j u hu⟩

/-- The relation between child and parent is kept when an entry of the child is
erased. -/
theorem layered_erase (DynamicUsage : CCoins → Nat) (base : CCoinsView)
    (p c c1 : CCoinsViewCache) (t : uint256) (h : layered DynamicUsage base p c)
    (hm : c1.hasModifier = false) (hmap : c1.cacheCoins = mapErase c.cacheCoins t) :
    layered DynamicUsage base p c1 := by
  obtain ⟨_, h2, h3, h4, h5, h6, h7⟩ := h
  have hfind : ∀ j e, mapFind c1.cacheCoins j = some e → mapFind c.cacheCoins j = some e := by
    intro j e he
    rw [hmap, mapFind_mapErase] at he
    by_cases htj : t = j
    · simp [htj] at he
    · simpa [htj] using he
  refine ⟨hm, h2, ?_, h4, ?_, ?_, ?_⟩
  · rw [hmap]
    exact mapKeysNodup_mapErase _ _ h3
  · intro j e he
    exact h5 j e (hfind j e he)
  · intro j e he
    exact h6 j e (hfind j e he)
  · intro j e he
    exact h7 j e (hfind j e he)

/-- The relation between child and parent is kept when an entry of the child is
set to one that fits the parent. -/
theorem layered_set (DynamicUsage : CCoins → Nat) (base : CCoinsView)
    (p c c1 : CCoinsViewCache) (t : uint256) (e : CCoinsCacheEntry)
    (h : layered DynamicUsage base p c)
    (hm : c1.hasModifier = false) (hmap : c1.cacheCoins = mapSet c.cacheCoins t e)
    (hclean : e.flags.dirty = false → ∃ u, mapFind p.cacheCoins t = some u ∧ u.coins = e.coins)
    (hunfresh : e.flags.fresh = false → ∃ u, mapFind p.cacheCoins t = some u)
    (hfresh : e.flags.dirty = true → e.flags.fresh = true → e.coins.vout ≠ []) :
    layered DynamicUsage base p c1 := by
  obtain ⟨_, h2, h3, h4, h5, h6, h7⟩ := h
  have hfind : ∀ j e1, mapFind c1.cacheCoins j = some e1 →
      (j = t ∧ e1 = e) ∨ mapFind c.cacheCoins j = some e1 := by
    intro j e1 he
    rw [hmap, mapFind_mapSet] at he
    by_cases htj : t = j
    · simp only [htj, if_true, Option.some.injEq] at he
      exact Or.inl ⟨htj.symm, he.symm⟩
    · simp only [htj, if_false] at he
      exact Or.inr he
  refine ⟨hm, h2, ?_, h4, ?_, ?_, ?_⟩
  · rw [hmap]
    exact mapKeysNodup_mapSet _ _ _ h3
  · intro j e1 he hd
    rcases hfind j e1 he with ⟨hj, he1⟩ | hold
    · subst hj
      subst he1
      exact hclean hd
    · exact h5 j e1 hold hd
  · intro j e1 he hfr
    rcases hfind j e1 he with ⟨hj, he1⟩ | hold
    · subst hj
      subst he1
      exact hunfresh hfr
    · exact h6 j e1 hold hfr
  · intro j e1 he hd hfr
    rcases hfind j e1 he with ⟨hj, he1⟩ | hold
    · subst hj
      subst he1
      exact hfresh hd hfr
    · exact h7 j e1 hold hd hfr

/-- A read of the child keeps the relation between child and parent. -/
theorem layered_fetch (DynamicUsage : CCoins → Nat) (base : CCoinsView)
    (p c : CCoinsViewCache) (t : uint256) (h : layered DynamicUsage base p c) :
    ∃ b1 p1 c1, (FetchCoins DynamicUsage (CCoinsView.cache base p) c t).2 =
        (CCoinsView.cache b1 p1, c1) ∧ layered DynamicUsage b1 p1 c1 := by
  cases hc : mapFind c.cacheCoins t with
  | some e0 =>
    rw [fetchCoins_hit DynamicUsage _ c t e0 hc]
    exact ⟨base, p, c, rfl, h⟩
  | none =>
    have hadv := layered_parent_advance DynamicUsage base p c t h
    cases hb : ((CCoinsView.cache base p).GetCoins DynamicUsage t).1 with
    | none =>
      rw [fetchCoins_miss DynamicUsage _ c t hc hb]
      exact ⟨_, _, c, rfl, hadv⟩
    | some tmp =>
      rw [fetchCoins_load DynamicUsage _ c t tmp hc hb]
      have hans : (FetchCoins DynamicUsage base p t).1.map (fun e => e.coins) = some tmp := hb
      obtain ⟨u, hu, hu2⟩ := (parent_fetch DynamicUsage base p t).2.2.2 tmp hans
      refine ⟨(FetchCoins DynamicUsage base p t).2.1, (FetchCoins DynamicUsage base p t).2.2,
        _, rfl, ?_⟩
      refine layered_set DynamicUsage _ _ c _ t
        { coins := tmp, flags := if tmp.IsPruned then Flags.FRESH else Flags.empty }
        hadv h.1 rfl ?_ ?_ ?_
      · intro _
        exact ⟨u, hu, hu2⟩
      · intro _
        exact ⟨u, hu⟩
      · intro hd
        by_cases hpr : tmp.IsPruned = true <;> simp [hpr, Flags.FRESH, Flags.empty] at hd

/-- The use of a modifier on the child keeps the relation between child and
parent. -/
theorem layered_modify (DynamicUsage : CCoins → Nat) (base : CCoinsView)
    (p c : CCoinsViewCache) (t : uint256) (f : CCoins → CCoins)
    (h : layered DynamicUsage base p c) :
    ∃ b1 p1 c1, modifyWith DynamicUsage (CCoinsView.cache base p) c t f =
        some (CCoinsView.cache b1 p1, c1) ∧ layered DynamicUsage b1 p1 c1 := by
  obtain ⟨u, hw⟩ := modifyWith_eq DynamicUsage (CCoinsView.cache base p) c t f h.1
  rw [hw]
  have hadv := layered_parent_advance DynamicUsage base p c t h
  cases hc : mapFind c.cacheCoins t with
  | some e0 =>
    have hb : modifyBase DynamicUsage (CCoinsView.cache base p) c t = CCoinsView.cache base p := by
      simp [modifyBase, hc]
    have he : modifyEntry DynamicUsage (CCoinsView.cache base p) c t =
        { coins := e0.coins, flags := { dirty := true, fresh := e0.flags.fresh } } := by
      simp [modifyEntry, hc]
    rw [hb, he]
    refine ⟨base, p, _, rfl, ?_⟩
    by_cases hcond : e0.flags.fresh = true ∧ (f e0.coins).Cleanup.IsPruned = true
    · exact layered_erase DynamicUsage base p c _ t h rfl (by simp [hcond])
    · refine layered_set DynamicUsage base p c _ t
        { coins := (f e0.coins).Cleanup, flags := { dirty := true, fresh := e0.flags.fresh } }
        h rfl (by simp [hcond]) ?_ ?_ ?_
      · intro hd
        cases hd
      · intro hfr
        exact h.2.2.2.2.2.1 t e0 hc hfr
      · intro _ hfr hv
        exact hcond ⟨hfr, (isPruned_iff _).2 hv⟩
  | none =>
    have hb : modifyBase DynamicUsage (CCoinsView.cache base p) c t =
        CCoinsView.cache (FetchCoins DynamicUsage base p t).2.1
          (FetchCoins DynamicUsage base p t).2.2 := by
      simp [modifyBase, hc, viewGetCoins_cache]
    have he : modifyEntry DynamicUsage (CCoinsView.cache base p) c t =
        newModifyEntry ((FetchCoins DynamicUsage base p t).1.map (fun e => e.coins)) := by
      simp [modifyEntry, hc, viewGetCoins_cache]
    rw [hb, he]
    refine ⟨_, _, _, rfl, ?_⟩
    by_cases hcond :
        (newModifyEntry ((FetchCoins DynamicUsage base p t).1.map
          (fun e => e.coins))).flags.fresh = true ∧
        (f (newModifyEntry ((FetchCoins DynamicUsage base p t).1.map
          (fun e => e.coins))).coins).Cleanup.IsPruned = true
    · exact layered_erase DynamicUsage _ _ c _ t hadv rfl (by simp [hcond])
    · refine layered_set DynamicUsage _ _ c _ t
        { coins := (f (newModifyEntry ((FetchCoins DynamicUsage base p t).1.map
            (fun e => e.coins))).coins).Cleanup,
          flags := (newModifyEntry ((FetchCoins DynamicUsage base p t).1.map
            (fun e => e.coins))).flags }
        hadv rfl (by simp [hcond]) ?_ ?_ ?_
      · intro hd
        cases hans : (FetchCoins DynamicUsage base p t).1.map (fun e => e.coins) <;>
          simp [hans, newModifyEntry] at hd
      · intro hfr
        cases hans : (FetchCoins DynamicUsage base p t).1.map (fun e => e.coins) with
        | none => simp [hans, newModifyEntry] at hfr
        | some r =>
          obtain ⟨u1, hu1, _⟩ := (parent_fetch DynamicUsage base p t).2.2.2 r hans
          exact ⟨u1, hu1⟩
      · intro _ hfr hv
        exact hcond ⟨hfr, (isPruned_iff _).2 hv⟩

/-- A run of reads and uses of a modifier on the child returns and keeps the
relation between child and parent. -/
theorem layered_run (DynamicUsage : CCoins → Nat) :
    ∀ (ops : List CacheOp) (base : CCoinsView) (p c : CCoinsViewCache),
      layered DynamicUsage base p c → (∀ op, op ∈ ops → op.isLocal = true) →
      ∃ b1 p1 c1, runOps DynamicUsage ops (CCoinsView.cache base p, c) =
          some (CCoinsView.cache b1 p1, c1) ∧ layered DynamicUsage b1 p1 c1 := by
  intro ops
  induction ops with
  | nil =>
    intro base p c h _
    exact ⟨base, p, c, rfl, h⟩
  | cons op rest ih =>
    intro base p c h hl
    have hrest : ∀ o, o ∈ rest → o.isLocal = true := fun o ho =>
      hl o (List.mem_cons_of_mem _ ho)
    have hop := hl op (List.mem_cons_self _ _)
    have hstep : ∃ b1 p1 c1, op.run DynamicUsage (CCoinsView.cache base p, c) =
        some (CCoinsView.cache b1 p1, c1) ∧ layered DynamicUsage b1 p1 c1 := by
      cases op with
      | getCoins t =>
        obtain ⟨b1, p1, c1, h1, h2⟩ := layered_fetch DynamicUsage base p c t h
        exact ⟨b1, p1, c1, by simp only [CacheOp.run, getCoins_state, h1], h2⟩
      | accessCoins t =>
        obtain ⟨b1, p1, c1, h1, h2⟩ := layered_fetch DynamicUsage base p c t h
        exact ⟨b1, p1, c1, by simp only [CacheOp.run, accessCoins_state, h1], h2⟩
      | haveCoins t =>
        obtain ⟨b1, p1, c1, h1, h2⟩ := layered_fetch DynamicUsage base p c t h
        exact ⟨b1, p1, c1, by simp only [CacheOp.run, haveCoins_state, h1], h2⟩
      | modify t f =>
        obtain ⟨b1, p1, c1, h1, h2⟩ := layered_modify DynamicUsage base p c t f h
        exact ⟨b1, p1, c1, by simp only [CacheOp.run, h1], h2⟩
      | batchWrite m hb n => simp [CacheOp.isLocal] at hop
      | flush => simp [CacheOp.isLocal] at hop
    obtain ⟨b1, p1, c1, h1, h2⟩ := hstep
    obtain ⟨b2, p2, c2, h3, h4⟩ := ih b1 p1 c1 h2 hrest
    exact ⟨b2, p2, c2, by simp only [runOps, h1, h3], h4⟩

/-- `Flush` of a child that is in the relation with its parent: it returns true,
and afterwards the parent answers `HaveCoins` and `GetCoins` as the child did
before. -/
theorem layered_flush (DynamicUsage : CCoins → Nat) (base : CCoinsView)
    (p c : CCoinsViewCache) (h : layered DynamicUsage base p c) :
    ∃ p2 c2, Flush DynamicUsage (CCoinsView.cache base p) c =
        some (true, CCoinsView.cache base p2, c2) ∧
      c2.cacheCoins = [] ∧ p2.hasModifier = false ∧
      ∀ txid,
        (HaveCoins DynamicUsage base p2 txid).1 =
          (HaveCoins DynamicUsage (CCoinsView.cache base p) c txid).1 ∧
        ((HaveCoins DynamicUsage (CCoinsView.cache base p) c txid).1 = true →
          (GetCoins DynamicUsage base p2 txid).1 =
            (GetCoins DynamicUsage (CCoinsView.cache base p) c txid).1) := by
  obtain ⟨h1, h2, h3, h4, h5, h6, h7⟩ := h
  have hcond : ∀ txid child, (txid, child) ∈ c.cacheCoins → child.flags.dirty = true →
      mapFind p.cacheCoins txid = none → child.coins.IsPruned = false →
      child.flags.fresh = true := by
    intro txid child hmem _ hf _
    by_contra hfr
    have hfr2 : child.flags.fresh = false := by simpa using hfr
    obtain ⟨u, hu⟩ := h6 txid child (mapFind_of_mem_nodup _ _ _ h3 hmem) hfr2
    rw [hf] at hu
    cases hu
  obtain ⟨c1, hloop, hm1, _, _, hfind⟩ :=
    batchWriteLoop_table DynamicUsage c.cacheCoins p h3 hcond
  refine ⟨{ c1 with hashBlock := c.hashBlock, cacheNames := c1.cacheNames.apply c.cacheNames },
    { c with cacheCoins := [], cachedCoinsUsage := 0, cacheNames := CNameCache.clear },
    ?_, rfl, hm1.trans h2, ?_⟩
  · simp [Flush, CCoinsView.BatchWrite, CCoinsViewCache.BatchWrite, h2, hloop]
  · intro txid
    rw [haveCoins_answer, haveCoins_answer, getCoins_answer, getCoins_answer,
      viewGetCoins_cache_answer]
    show answerHas (cacheAnswer (mapFind c1.cacheCoins txid) _) = _ ∧
      (_ → cacheAnswer (mapFind c1.cacheCoins txid) _ = _)
    rw [hfind txid]
    cases hc : mapFind c.cacheCoins txid with
    | none => exact ⟨rfl, fun _ => rfl⟩
    | some e =>
      by_cases hd : e.flags.dirty = true
      · cases hp : mapFind p.cacheCoins txid with
        | none =>
          have hfr : e.flags.fresh = true := by
            by_contra hfr
            obtain ⟨u, hu⟩ := h6 txid e hc (by simpa using hfr)
            rw [hp] at hu
            cases hu
          have hne := h7 txid e hc hd hfr
          have hpr : e.coins.IsPruned = false := by
            cases hpr : e.coins.IsPruned
            · rfl
            · exact absurd ((isPruned_iff _).1 hpr) hne
          simp [batchWriteTable, hd, hpr, cacheAnswer]
        | some u =>
          by_cases hcase : (u.flags.fresh && e.coins.IsPruned) = true
          · have hufr : u.flags.fresh = true := by
              cases hx : u.flags.fresh <;> simp [hx] at hcase ⊢
            have hepr : e.coins.IsPruned = true := by
              cases hx : e.coins.IsPruned <;> simp [hx] at hcase ⊢
            have hev : e.coins.vout = [] := (isPruned_iff _).1 hepr
            have hbase : answerHas (base.GetCoins DynamicUsage txid).1 = false := by
              cases hb : (base.GetCoins DynamicUsage txid).1 with
              | none => rfl
              | some r =>
                have := h4 txid u hp hufr r hb
                simp [answerHas, this]
            simp only [batchWriteTable, hd, hcase, if_true, cacheAnswer]
            refine ⟨?_, ?_⟩
            · rw [hbase]
              simp [answerHas, hev]
            · intro hh
              simp [answerHas, hev] at hh
          · have hcase2 : (u.flags.fresh && e.coins.IsPruned) = false := by simpa using hcase
            simp [batchWriteTable, hd, hcase2, cacheAnswer]
      · have hd2 : e.flags.dirty = false := by simpa using hd
        obtain ⟨u, hu, hu2⟩ := h5 txid e hc hd2
        simp [batchWriteTable, hd2, hu, cacheAnswer, hu2]

/-- The use of a modifier keeps the `FRESH` flags of a cache sound. -/
theorem freshSound_modify (DynamicUsage : CCoins → Nat) (base : CCoinsView)
    (c : CCoinsViewCache) (t : uint256) (f : CCoins → CCoins)
    (hm : c.hasModifier = false) (h : freshSound DynamicUsage base c) :
    ∃ s1, modifyWith DynamicUsage base c t f = some s1 ∧ s1.2.hasModifier = false ∧
      freshSound DynamicUsage s1.1 s1.2 := by
  obtain ⟨u, hw⟩ := modifyWith_eq DynamicUsage base c t f hm
  refine ⟨_, hw, rfl, ?_⟩
  have hbase : ∀ j, ((modifyBase DynamicUsage base c t).GetCoins DynamicUsage j).1 =
      (base.GetCoins DynamicUsage j).1 := by
    intro j
    unfold modifyBase
    cases mapFind c.cacheCoins t with
    | some _ => rfl
    | none => exact viewGetCoins_stable DynamicUsage base t j
  have hentry : (modifyEntry DynamicUsage base c t).flags.fresh = true →
      ∀ r, (base.GetCoins DynamicUsage t).1 = some r → r.vout = [] := by
    intro hfr r hr
    unfold modifyEntry at hfr
    cases hc : mapFind c.cacheCoins t with
    | some e0 =>
      rw [hc] at hfr
      exact h t e0 hc hfr r hr
    | none =>
      rw [hc, hr] at hfr
      exact (isPruned_iff r).1 hfr
  intro j e he hfr r hr
  rw [hbase j] at hr
  simp only at he
  by_cases hcond : (modifyEntry DynamicUsage base c t).flags.fresh = true ∧
      (f (modifyEntry DynamicUsage base c t).coins).Cleanup.IsPruned = true
  · rw [if_pos hcond, mapFind_mapErase] at he
    by_cases htj : t = j
    · simp [htj] at he
    · simp only [htj, if_false] at he
      exact h j e he hfr r hr
  · rw [if_neg hcond, mapFind_mapSet] at he
    by_cases htj : t = j
    · subst htj
      simp only [if_true, Option.some.injEq] at he
      subst he
      exact hentry hfr r hr
    · simp only [htj, if_false] at he
      exact h j e he hfr r hr

/-- The `FRESH` flags of a cache are sound in every state reached from a newly
constructed cache by reads, uses of a modifier and `Flush`. -/
theorem freshSound_reachable (DynamicUsage : CCoins → Nat) :
    ∀ (ops : List CacheOp) (s s1 : CCoinsView × CCoinsViewCache),
      s.2.hasModifier = false → freshSound DynamicUsage s.1 s.2 →
      (∀ op, op ∈ ops → op.isLocal = true ∨ op = CacheOp.flush) →
      runOps DynamicUsage ops s = some s1 →
      s1.2.hasModifier = false ∧ freshSound DynamicUsage s1.1 s1.2 := by
  intro ops
  induction ops with
  | nil =>
    intro s s1 hm hs _ hrun
    simp only [runOps, Option.some.injEq] at hrun
    subst hrun
    exact ⟨hm, hs⟩
  | cons op rest ih =>
    intro s s1 hm hs hl hrun
    obtain ⟨base, c⟩ := s
    replace hm : c.hasModifier = false := hm
    replace hs : freshSound DynamicUsage base c := hs
    have hrest : ∀ o, o ∈ rest → o.isLocal = true ∨ o = CacheOp.flush := fun o ho =>
      hl o (List.mem_cons_of_mem _ ho)
    have hop := hl op (List.mem_cons_self _ _)
    have hread : ∀ t, (FetchCoins DynamicUsage base c t).2.2.hasModifier = false ∧
        freshSound DynamicUsage (FetchCoins DynamicUsage base c t).2.1
          (FetchCoins DynamicUsage base c t).2.2 := by
      intro t
      obtain ⟨g1, g2, _⟩ := parent_fetch DynamicUsage base c t
      exact ⟨g1.trans hm, g2 hs⟩
    simp only [runOps] at hrun
    cases op with
    | getCoins t =>
      simp only [CacheOp.run, getCoins_state] at hrun
      exact ih _ s1 (hread t).1 (hread t).2 hrest hrun
    | accessCoins t =>
      simp only [CacheOp.run, accessCoins_state] at hrun
      exact ih _ s1 (hread t).1 (hread t).2 hrest hrun
    | haveCoins t =>
      simp only [CacheOp.run, haveCoins_state] at hrun
      exact ih _ s1 (hread t).1 (hread t).2 hrest hrun
    | modify t f =>
      obtain ⟨s2, h1, h2, h3⟩ := freshSound_modify DynamicUsage base c t f hm hs
      simp only [CacheOp.run, h1] at hrun
      exact ih s2 s1 h2 h3 hrest hrun
    | batchWrite m hb n =>
      rcases hop with h1 | h1
      · simp [CacheOp.isLocal] at h1
      · cases h1
    | flush =>
      simp only [CacheOp.run] at hrun
      cases hfl : Flush DynamicUsage base c with
      | none =>
        rw [hfl] at hrun
        cases hrun
      | some r =>
        rw [hfl] at hrun
        unfold Flush at hfl
        cases hbw : base.BatchWrite DynamicUsage c.cacheCoins c.hashBlock c.cacheNames with
        | none =>
          rw [hbw] at hfl
          cases hfl
        | some r2 =>
          rw [hbw] at hfl
          simp only [Option.some.injEq] at hfl
          subst hfl
          refine ih _ s1 hm ?_ hrest hrun
          intro j e he
          simp [mapFind] at he

/-! ## C2: layered write-through -/

/-- Counterexample for C2: the parent over a store holding transaction `7` with
output `[a]` takes a direct `BatchWrite` (a public operation) of a `FRESH`,
`DIRTY` entry for `7`; a new child over it spends the output of `7`, so the
child's `HaveCoins(7)` is false; after the child's `Flush` the parent has erased
its entry and its `HaveCoins(7)` is true, answered from the store. -/
theorem write_through_fails_after_direct_batchWrite :
    runOps exUsage
        [CacheOp.batchWrite
          [(7, { coins := exCoinsB, flags := { dirty := true, fresh := true } })] 0
          CNameCache.clear]
        (CCoinsView.store exStoreA, CCoinsViewCache.new) =
      some (CCoinsView.store exStoreA, exPlantedParent) ∧
    runOps exUsage [CacheOp.modify 7 (spendAt 0)]
        (CCoinsView.cache (CCoinsView.store exStoreA) exPlantedParent, CCoinsViewCache.new) =
      some (CCoinsView.cache (CCoinsView.store exStoreA) exPlantedParent, exSpentChild) ∧
    exSpentChild.hasModifier = false ∧
    (HaveCoins exUsage (CCoinsView.cache (CCoinsView.store exStoreA) exPlantedParent)
      exSpentChild 7).1 = false ∧
    (Flush exUsage (CCoinsView.cache (CCoinsView.store exStoreA) exPlantedParent)
      exSpentChild).map (fun r => (r.1, r.2.1)) =
      some (true, CCoinsView.cache (CCoinsView.store exStoreA)
        { CCoinsViewCache.new with cachedCoinsUsage := 0 }) ∧
    (HaveCoins exUsage (CCoinsView.store exStoreA)
      { CCoinsViewCache.new with cachedCoinsUsage := 0 } 7).1 = true := by
  decide

/-- C2, amended: let `P` be a parent cache with no live modifier whose `FRESH`
flags are sound (for each `FRESH` entry the backing view misses the txid or
answers a record without outputs), and `C` a child cache newly created over `P`
on which only reads and uses of a modifier are run.  Then the run returns with
no modifier live, `C.Flush()` returns true, and afterwards for every txid
`P.HaveCoins` equals the value `C.HaveCoins` had just before the flush, and when
that is true `P.GetCoins` returns the record `C.GetCoins` returned. -/
theorem layered_write_through (DynamicUsage : CCoins → Nat) (base : CCoinsView)
    (p : CCoinsViewCache) (ops : List CacheOp)
    (hp : p.hasModifier = false) (hsound : freshSound DynamicUsage base p)
    (hops : ∀ op, op ∈ ops → op.isLocal = true) :
    ∃ b1 p1 c1 p2 c2,
      runOps DynamicUsage ops (CCoinsView.cache base p, CCoinsViewCache.new) =
        some (CCoinsView.cache b1 p1, c1) ∧
      c1.hasModifier = false ∧
      Flush DynamicUsage (CCoinsView.cache b1 p1) c1 =
        some (true, CCoinsView.cache b1 p2, c2) ∧
      c2.cacheCoins = [] ∧
      ∀ txid,
        (HaveCoins DynamicUsage b1 p2 txid).1 =
          (HaveCoins DynamicUsage (CCoinsView.cache b1 p1) c1 txid).1 ∧
        ((HaveCoins DynamicUsage (CCoinsView.cache b1 p1) c1 txid).1 = true →
          (GetCoins DynamicUsage b1 p2 txid).1 =
            (GetCoins DynamicUsage (CCoinsView.cache b1 p1) c1 txid).1) := by
  have hinit : layered DynamicUsage base p CCoinsViewCache.new := by
    refine ⟨rfl, hp, ?_, hsound, ?_, ?_, ?_⟩
    · unfold mapKeysNodup
      simp [CCoinsViewCache.new]
    · intro t e he
      simp [CCoinsViewCache.new, mapFind] at he
    · intro t e he
      simp [CCoinsViewCache.new, mapFind] at he
    · intro t e he
      simp [CCoinsViewCache.new, mapFind] at he
  obtain ⟨b1, p1, c1, hrun, hlay⟩ :=
    layered_run DynamicUsage ops base p CCoinsViewCache.new hinit hops
  obtain ⟨p2, c2, hflush, hempty, _, hall⟩ := layered_flush DynamicUsage b1 p1 c1 hlay
  exact ⟨b1, p1, c1, p2, c2, hrun, hlay.1, hflush, hempty, hall⟩

/-- Witness for C2, amended: the store holds transaction `7` with outputs
`[a, b]`; the child takes a modifier on `7`, spends output `0` and drops it; the
child is flushed, then the parent; the store then holds `[null, b]` for `7`. -/
theorem layered_write_through_witness :
    ((runOps exUsage [CacheOp.modify 7 (spendAt 0), CacheOp.flush]
        (CCoinsView.cache (CCoinsView.store exStoreAB) CCoinsViewCache.new,
          CCoinsViewCache.new)).bind
      (fun s =>
        match s.1 with
        | CCoinsView.cache b p =>
          (Flush exUsage b p).map (fun r =>
            match r.2.1 with
            | CCoinsView.store st => (r.1, (mapFind st.coins 7).map (fun x => x.vout))
            | _ => (r.1, none))
        | _ => none) =
      some (true, some [none, some exOutB])) ∧
    (∃ b1 p1 c1 p2 c2,
      runOps exUsage [CacheOp.modify 7 (spendAt 0)]
        (CCoinsView.cache (CCoinsView.store exStoreAB) CCoinsViewCache.new,
          CCoinsViewCache.new) = some (CCoinsView.cache b1 p1, c1) ∧
      c1.hasModifier = false ∧
      Flush exUsage (CCoinsView.cache b1 p1) c1 = some (true, CCoinsView.cache b1 p2, c2) ∧
      c2.cacheCoins = [] ∧
      ∀ txid,
        (HaveCoins exUsage b1 p2 txid).1 =
          (HaveCoins exUsage (CCoinsView.cache b1 p1) c1 txid).1 ∧
        ((HaveCoins exUsage (CCoinsView.cache b1 p1) c1 txid).1 = true →
          (GetCoins exUsage b1 p2 txid).1 =
            (GetCoins exUsage (CCoinsView.cache b1 p1) c1 txid).1)) :=
  ⟨by decide,
   layered_write_through exUsage (CCoinsView.store exStoreAB) CCoinsViewCache.new
    [CacheOp.modify 7 (spendAt 0)] rfl
    (by
      intro t e he
      simp [CCoinsViewCache.new, mapFind] at he)
    (by
      intro op hop
      simp only [List.mem_singleton] at hop
      subst hop
      rfl)⟩

/-! ## C11, C12: the undo record of `CCoins::Spend` -/

/-- The undo object after a successful `Spend` with a non-null undo pointer. -/
theorem spend_undo_of_available (c : CCoins) (i : Nat) (u0 : CTxInUndo)
    (h : c.IsAvailable i = true) :
    (c.Spend i (some u0)).2.2 =
      some (if ((c.vout.set i none).rdropWhile (fun o => o.isNone)).isEmpty then
        { txout := voutAt c.vout i, fCoinBase := c.fCoinBase, nHeight := c.nHeight,
          nVersion := c.nVersion }
      else CTxInUndo.ofTxOut (voutAt c.vout i)) := by
  have h1 : i < c.vout.length ∧ (voutAt c.vout i).isSome = true := by
    simpa [CCoins.IsAvailable] using h
  have h2 : ¬ (i ≥ c.vout.length) := Nat.not_le_of_lt h1.1
  have h3 : (voutAt c.vout i).isNone = false := by
    cases hv : voutAt c.vout i with
    | none => rw [hv] at h1; simp at h1
    | some o => rfl
  unfold CCoins.Spend
  by_cases he : ((c.vout.set i none).rdropWhile (fun o => o.isNone)).isEmpty = true
  · simp [h2, h3, CCoins.Cleanup, he, CTxInUndo.ofTxOut]
  · simp [h2, h3, CCoins.Cleanup, he, CTxInUndo.ofTxOut]

/-- Counterexample for C11: on a record with outputs `[a, b]` whose height,
coinbase flag and version are `0`, `false`, `0`, `Spend(0, &undo)` leaves the
record unpruned and yet the undo's height, coinbase flag and version equal the
record's. -/
theorem spend_undo_metadata_equal_without_prune :
    (CCoins.Spend ⟨false, [some exOutA, some exOutB], 0, 0⟩ 0
        (some (CTxInUndo.ofTxOut none))).2.1.vout = [none, some exOutB] ∧
    (CCoins.Spend ⟨false, [some exOutA, some exOutB], 0, 0⟩ 0
        (some (CTxInUndo.ofTxOut none))).2.2 =
      some { txout := some exOutA, fCoinBase := false, nHeight := 0, nVersion := 0 } := by
  decide

/-- C11, amended: for an available index `i`, after `Spend(i, &undo)` the undo
holds the output that was at index `i`.  If the spend left the record pruned,
the undo's height, coinbase flag and version are the record's; otherwise they
are the undo's defaults `0`, `false`, `0`.  So they equal the record's exactly
when the record is pruned or the record's own values are the defaults. -/
theorem spend_undo_capture (c : CCoins) (i : Nat) (u0 : CTxInUndo)
    (h : c.IsAvailable i = true) :
    ∃ u, (c.Spend i (some u0)).2.2 = some u ∧
      u.txout = voutAt c.vout i ∧ u.txout.isSome = true ∧
      ((c.Spend i (some u0)).2.1.vout = [] →
        u.nHeight = c.nHeight ∧ u.fCoinBase = c.fCoinBase ∧ u.nVersion = c.nVersion) ∧
      ((c.Spend i (some u0)).2.1.vout ≠ [] →
        u.nHeight = 0 ∧ u.fCoinBase = false ∧ u.nVersion = 0) ∧
      ((u.nHeight = c.nHeight ∧ u.fCoinBase = c.fCoinBase ∧ u.nVersion = c.nVersion) ↔
        ((c.Spend i (some u0)).2.1.vout = [] ∨
          (c.nHeight = 0 ∧ c.fCoinBase = false ∧ c.nVersion = 0))) := by
  have hrec := (spend_of_available c i (some u0) h).2
  have hundo := spend_undo_of_available c i u0 h
  have hsome : (voutAt c.vout i).isSome = true := by
    rw [← isAvailable_eq]
    exact h
  have hv : (c.Spend i (some u0)).2.1.vout =
      (c.vout.set i none).rdropWhile (fun o => o.isNone) := by
    rw [hrec]
  rw [hv]
  by_cases he : (c.vout.set i none).rdropWhile (fun o => o.isNone) = []
  · refine ⟨_, hundo, ?_⟩
    simp [he, hsome]
  · have he2 : ((c.vout.set i none).rdropWhile (fun o => o.isNone)).isEmpty = false := by
      cases hx : (c.vout.set i none).rdropWhile (fun o => o.isNone) with
      | nil => exact absurd hx he
      | cons a l => rfl
    rw [he2] at hundo
    refine ⟨CTxInUndo.ofTxOut (voutAt c.vout i), hundo, rfl, hsome, ?_, ?_, ?_⟩
    · intro hx
      exact absurd hx he
    · intro _
      exact ⟨rfl, rfl, rfl⟩
    · constructor
      · rintro ⟨a, b, d⟩
        exact Or.inr ⟨a.symm, b.symm, d.symm⟩
      · rintro (hx | ⟨a, b, d⟩)
        · exact absurd hx he
        · exact ⟨a.symm, b.symm, d.symm⟩

/-- Witness for C11, amended: on the record with outputs `[a, b]`, height 100,
coinbase and version 1, `Spend(0, &u0)` gives `u0` without metadata and then
`Spend(1, &u1)` gives `u1` with height 100, coinbase and version 1. -/
theorem spend_undo_capture_witness :
    (CCoins.Spend ⟨true, [some exOutA, some exOutB], 100, 1⟩ 0
        (some (CTxInUndo.ofTxOut none))).2.2 =
      some { txout := some exOutA, fCoinBase := false, nHeight := 0, nVersion := 0 } ∧
    (CCoins.Spend ⟨true, [none, some exOutB], 100, 1⟩ 1
        (some (CTxInUndo.ofTxOut none))).2.2 =
      some { txout := some exOutB, fCoinBase := true, nHeight := 100, nVersion := 1 } ∧
    (∃ u, (CCoins.Spend ⟨true, [none, some exOutB], 100, 1⟩ 1
        (some (CTxInUndo.ofTxOut none))).2.2 = some u ∧ u.txout = some exOutB) :=
  ⟨by decide, by decide,
    (spend_undo_capture ⟨true, [none, some exOutB], 100, 1⟩ 1 (CTxInUndo.ofTxOut none)
      (by decide)).imp (fun _ hu => ⟨hu.1, hu.2.1⟩)⟩

/-- Putting back the output read at index `i` undoes the nulling of index `i`. -/
theorem set_voutAt_self (l : List (Option CTxOut)) (i : Nat) (h : i < l.length) :
    (l.set i none).set i (voutAt l i) = l := by
  rw [List.set_set]
  apply List.ext_getElem?
  intro j
  rw [List.getElem?_set]
  by_cases hij : i = j
  · subst hij
    simp [h, voutAt, List.getD_eq_getElem?_getD, List.getElem?_eq_getElem h]
  · simp [hij]

/-- For a tail-trimmed sequence, extending the spent and trimmed sequence with
nulls to length `i + 1` gives back the sequence with index `i` nulled. -/
theorem extend_trimmed_spent (l : List (Option CTxOut)) (i : Nat) (h : i < l.length)
    (ht : TailTrimmed l) :
    (if ((l.set i none).rdropWhile (fun o => o.isNone)).length < i + 1 then
        (l.set i none).rdropWhile (fun o => o.isNone) ++
          List.replicate (i + 1 - ((l.set i none).rdropWhile (fun o => o.isNone)).length) none
      else (l.set i none).rdropWhile (fun o => o.isNone)) = l.set i none := by
  obtain ⟨k, hk, _⟩ := trim_decompose (l.set i none)
  have hlen : l.length = ((l.set i none).rdropWhile (fun o => o.isNone)).length + k := by
    have := congrArg List.length hk
    simpa using this
  cases k with
  | zero =>
    have hnot : ¬ ((l.set i none).rdropWhile (fun o => o.isNone)).length < i + 1 := by omega
    rw [if_neg hnot]
    simpa using hk.symm
  | succ k1 =>
    have hlast : (l.set i none).getLast? = some none := by
      rw [hk, List.getLast?_append, List.getLast?_replicate]
      simp
    have hi : i + 1 = l.length := by
      by_contra hne
      have hne2 : i ≠ l.length - 1 := by omega
      rw [List.getLast?_eq_getElem?, List.length_set, List.getElem?_set_ne hne2,
        ← List.getLast?_eq_getElem?] at hlast
      rcases ht with h0 | ⟨o, ho⟩
      · subst h0
        simp at h
      · rw [ho] at hlast
        cases hlast
    have hlt : ((l.set i none).rdropWhile (fun o => o.isNone)).length < i + 1 := by omega
    rw [if_pos hlt]
    have hk2 : i + 1 - ((l.set i none).rdropWhile (fun o => o.isNone)).length = k1 + 1 := by
      omega
    rw [hk2]
    exact hk.symm

/-- C12: for a record `r` that satisfies T and an index `i` available in `r`,
`Spend(i, &undo)` returns true with a record and an undo from which the
reconstruction (outputs extended with nulls to length at least `i + 1`, the
undo's output placed at index `i`, coinbase flag, height and version restored
from the undo when the spent record is pruned) is `r` itself. -/
theorem spend_undo_round_trip (r : CCoins) (i : Nat) (u0 : CTxInUndo)
    (ht : TailTrimmed r.vout) (h : r.IsAvailable i = true) :
    (r.Spend i (some u0)).1 = true ∧
    ∃ undo, (r.Spend i (some u0)).2.2 = some undo ∧
      undoReconstruct (r.Spend i (some u0)).2.1 i undo = r := by
  obtain ⟨hok, hrec⟩ := spend_of_available r i (some u0) h
  have hundo := spend_undo_of_available r i u0 h
  have hlt : i < r.vout.length := by
    have : i < r.vout.length ∧ (voutAt r.vout i).isSome = true := by
      simpa [CCoins.IsAvailable] using h
    exact this.1
  refine ⟨hok, _, hundo, ?_⟩
  rw [hrec]
  unfold undoReconstruct
  simp only [CCoins.IsPruned]
  rw [extend_trimmed_spent r.vout i hlt ht]
  by_cases he : ((r.vout.set i none).rdropWhile (fun o => o.isNone)).isEmpty = true
  · simp only [he, if_true]
    rw [set_voutAt_self r.vout i hlt]
  · simp only [he, Bool.false_eq_true, if_false, CTxInUndo.ofTxOut]
    rw [set_voutAt_self r.vout i hlt]

/-- Witness for C12: the record with outputs `[a, null, b]`, height 100, coinbase
and version 1 is rebuilt after `Spend(2, &undo)`, which trims it to `[a]`. -/
theorem spend_undo_round_trip_witness :
    (CCoins.Spend ⟨true, [some exOutA, none, some exOutB], 100, 1⟩ 2
        (some (CTxInUndo.ofTxOut none))).2.1.vout = [some exOutA] ∧
    (∃ undo, (CCoins.Spend ⟨true, [some exOutA, none, some exOutB], 100, 1⟩ 2
        (some (CTxInUndo.ofTxOut none))).2.2 = some undo ∧
      undoReconstruct (CCoins.Spend ⟨true, [some exOutA, none, some exOutB], 100, 1⟩ 2
        (some (CTxInUndo.ofTxOut none))).2.1 2 undo =
        ⟨true, [some exOutA, none, some exOutB], 100, 1⟩) :=
  ⟨by decide,
    (spend_undo_round_trip ⟨true, [some exOutA, none, some exOutB], 100, 1⟩ 2
      (CTxInUndo.ofTxOut none) (by decide) (by decide)).2⟩

/-! ## C13, C14: `Flush` -/

/-- C13: `Flush` hands the parent's `BatchWrite` the coin map, the best block and
the name cache of the cache; it returns when that call returns, with exactly the
boolean it returned, and then, whatever the boolean, the coin map is empty, the
name cache is empty and the usage total is 0, the other members being
unchanged.  Over the base-class view it returns false, over a backing store the
store's result. -/
theorem flush_postcondition (DynamicUsage : CCoins → Nat) (base : CCoinsView)
    (c : CCoinsViewCache) :
    Flush DynamicUsage base c =
      (base.BatchWrite DynamicUsage c.cacheCoins c.hashBlock c.cacheNames).map
        (fun r => (r.1, r.2.1,
          { cacheCoins := [], hashBlock := c.hashBlock, cacheNames := CNameCache.clear,
            hasModifier := c.hasModifier, cachedCoinsUsage := 0 })) ∧
    (∀ r, Flush DynamicUsage base c = some r →
      r.2.2.cacheCoins = [] ∧ r.2.2.cacheNames = CNameCache.clear ∧
      r.2.2.cachedCoinsUsage = 0) ∧
    (∃ r, Flush DynamicUsage CCoinsView.dflt c = some r ∧ r.1 = false ∧
      r.2.2.cacheCoins = []) ∧
    (∀ b, ∃ r, Flush DynamicUsage (CCoinsView.store b) c = some r ∧ r.1 = b.writeOk ∧
      r.2.2.cacheCoins = [] ∧ r.2.2.cacheNames = CNameCache.clear ∧
      r.2.2.cachedCoinsUsage = 0) := by
  have hmain : Flush DynamicUsage base c =
      (base.BatchWrite DynamicUsage c.cacheCoins c.hashBlock c.cacheNames).map
        (fun r => (r.1, r.2.1,
          { cacheCoins := [], hashBlock := c.hashBlock, cacheNames := CNameCache.clear,
            hasModifier := c.hasModifier, cachedCoinsUsage := 0 })) := by
    unfold Flush
    cases base.BatchWrite DynamicUsage c.cacheCoins c.hashBlock c.cacheNames <;> rfl
  refine ⟨hmain, ?_, ?_, ?_⟩
  · intro r hr
    rw [hmain] at hr
    cases hb : base.BatchWrite DynamicUsage c.cacheCoins c.hashBlock c.cacheNames with
    | none =>
      rw [hb] at hr
      cases hr
    | some q =>
      rw [hb] at hr
      simp only [Option.map_some', Option.some.injEq] at hr
      subst hr
      exact ⟨rfl, rfl, rfl⟩
  · exact ⟨_, rfl, rfl, rfl⟩
  · intro b
    refine ⟨_, rfl, ?_, rfl, rfl, rfl⟩
    show (b.BatchWrite c.cacheCoins c.hashBlock c.cacheNames).1 = b.writeOk
    unfold Backend.BatchWrite
    cases b.writeOk <;> rfl

/-- Witness for C13: over a store whose write fails, `Flush` returns false, the
store is unchanged and the cache is cleared all the same. -/
theorem flush_postcondition_witness :
    Flush exUsage (CCoinsView.store exFailingStore) exStagedCache =
      some (false, CCoinsView.store exFailingStore,
        { cacheCoins := [], hashBlock := 5, cacheNames := CNameCache.clear,
          hasModifier := false, cachedCoinsUsage := 0 }) ∧
    (∃ r, Flush exUsage (CCoinsView.store exFailingStore) exStagedCache = some r ∧
      r.1 = exFailingStore.writeOk ∧ r.2.2.cacheCoins = [] ∧
      r.2.2.cacheNames = CNameCache.clear ∧ r.2.2.cachedCoinsUsage = 0) :=
  ⟨by decide,
    (flush_postcondition exUsage (CCoinsView.store exFailingStore) exStagedCache).2.2.2
      exFailingStore⟩

theorem nameCache_apply_clear (n : CNameCache) : n.apply CNameCache.clear = n := by
  cases n
  rfl

/-- The second `Flush` of a child over a parent cache: when the first has
returned, the second returns true and changes nothing. -/
theorem flush_twice (DynamicUsage : CCoins → Nat) (base : CCoinsView)
    (p c : CCoinsViewCache) (r : Bool × CCoinsView × CCoinsViewCache)
    (h : Flush DynamicUsage (CCoinsView.cache base p) c = some r) :
    r.1 = true ∧ Flush DynamicUsage r.2.1 r.2.2 = some (true, r.2.1, r.2.2) := by
  unfold Flush at h
  simp only [CCoinsView.BatchWrite, CCoinsViewCache.BatchWrite] at h
  by_cases hm : p.hasModifier = true
  · simp [hm] at h
  · have hm2 : p.hasModifier = false := by simpa using hm
    simp only [hm2, Bool.false_eq_true, if_false] at h
    cases hloop : batchWriteLoop DynamicUsage p c.cacheCoins with
    | none =>
      rw [hloop] at h
      cases h
    | some q =>
      obtain ⟨c1, m1⟩ := q
      rw [hloop] at h
      simp only [Option.some.injEq] at h
      subst h
      obtain ⟨_, hmod, _⟩ := batchWriteLoop_mem DynamicUsage c.cacheCoins p c1 m1 hloop
      have hmod2 : c1.hasModifier = false := hmod.trans hm2
      refine ⟨rfl, ?_⟩
      simp [Flush, CCoinsView.BatchWrite, CCoinsViewCache.BatchWrite, hmod2, batchWriteLoop,
        nameCache_apply_clear]

/-- C14: in a two-layer stack (child cache over parent cache) the state of child
and parent (coin maps with flags, best block, name caches, usage totals) after
`Flush(); Flush()` of the child is their state after a single `Flush()`: the
second flush returns true and changes nothing.  The first flush returns when no
modifier is live on the parent and no entry of the child fails the parent's
`FRESH` assertion. -/
theorem flush_idempotent (DynamicUsage : CCoins → Nat) (base : CCoinsView)
    (p c : CCoinsViewCache) :
    ((Flush DynamicUsage (CCoinsView.cache base p) c).bind
        (fun r => Flush DynamicUsage r.2.1 r.2.2) =
      Flush DynamicUsage (CCoinsView.cache base p) c) ∧
    (∀ r, Flush DynamicUsage (CCoinsView.cache base p) c = some r →
      Flush DynamicUsage r.2.1 r.2.2 = some (true, r.2.1, r.2.2)) ∧
    (p.hasModifier = false → mapKeysNodup c.cacheCoins →
      (∀ txid child, (txid, child) ∈ c.cacheCoins → child.flags.dirty = true →
        mapFind p.cacheCoins txid = none → child.coins.IsPruned = false →
        child.flags.fresh = true) →
      ∃ r, Flush DynamicUsage (CCoinsView.cache base p) c = some r) := by
  refine ⟨?_, ?_, ?_⟩
  · cases h : Flush DynamicUsage (CCoinsView.cache base p) c with
    | none => rfl
    | some r =>
      obtain ⟨h1, h2⟩ := flush_twice DynamicUsage base p c r h
      obtain ⟨ok, v, c1⟩ := r
      simp only at h1
      subst h1
      simpa using h2
  · intro r h
    exact (flush_twice DynamicUsage base p c r h).2
  · intro hm hn hcond
    obtain ⟨c1, hloop, _⟩ := batchWriteLoop_table DynamicUsage c.cacheCoins p hn hcond
    have hf : Flush DynamicUsage (CCoinsView.cache base p) c =
        some (true,
          CCoinsView.cache base
            { c1 with hashBlock := c.hashBlock
                      cacheNames := c1.cacheNames.apply c.cacheNames },
          { c with cacheCoins := [], cachedCoinsUsage := 0, cacheNames := CNameCache.clear }) := by
      simp [Flush, CCoinsView.BatchWrite, CCoinsViewCache.BatchWrite, hm, hloop]
    exact ⟨_, hf⟩

/-- Witness for C14: a child holding a staged entry is flushed twice into a new
parent cache over the store. -/
theorem flush_idempotent_witness :
    Flush exUsage (CCoinsView.cache (CCoinsView.store exStoreAB) CCoinsViewCache.new)
        exStagedCache =
      some (true,
        CCoinsView.cache (CCoinsView.store exStoreAB) exStagedCache,
        { cacheCoins := [], hashBlock := 5, cacheNames := CNameCache.clear,
          hasModifier := false, cachedCoinsUsage := 0 }) ∧
    Flush exUsage (CCoinsView.cache (CCoinsView.store exStoreAB) exStagedCache)
        { cacheCoins := [], hashBlock := 5, cacheNames := CNameCache.clear,
          hasModifier := false, cachedCoinsUsage := 0 } =
      some (true,
        CCoinsView.cache (CCoinsView.store exStoreAB) exStagedCache,
        { cacheCoins := [], hashBlock := 5, cacheNames := CNameCache.clear,
          hasModifier := false, cachedCoinsUsage := 0 }) :=
  ⟨by decide,
    (flush_idempotent exUsage (CCoinsView.store exStoreAB) CCoinsViewCache.new
      exStagedCache).2.1
      (true,
        CCoinsView.cache (CCoinsView.store exStoreAB) exStagedCache,
        { cacheCoins := [], hashBlock := 5, cacheNames := CNameCache.clear,
          hasModifier := false, cachedCoinsUsage := 0 })
      (by decide)⟩

/-! ## Lemmas on `CalcMaskSize` -/

/-- The inner loop computes whether none of the remaining bits of the byte is
set, as long as the index arithmetic does not wrap. -/
theorem maskInnerLoop_eq (vout : List (Option CTxOut)) (b : Nat)
    (hb : 2 + b * 8 + 8 ≤ uintMod) :
    ∀ (fuel i : Nat) (fZero : Bool), i + fuel = 8 →
      maskInnerLoop vout b fuel i fZero =
        (fZero && !((List.range' i fuel).any (fun j =>
          decide (2 + b * 8 + j < vout.length) && (voutAt vout (2 + b * 8 + j)).isSome))) := by
  intro fuel
  induction fuel with
  | zero =>
    intro i fZero _
    simp [maskInnerLoop]
  | succ fuel ih =>
    intro i fZero h
    have hi : i < 8 := by omega
    have hmod : (2 + b * 8 + i) % uintMod = 2 + b * 8 + i :=
      Nat.mod_eq_of_lt (by omega)
    have hmod1 : (i + 1) % uintMod = i + 1 :=
      Nat.mod_eq_of_lt (by omega)
    simp only [maskInnerLoop, hmod, hmod1, List.range'_succ, List.any_cons]
    by_cases hlt : 2 + b * 8 + i < vout.length
    · rw [if_pos ⟨hi, hlt⟩, ih (i + 1) _ (by omega)]
      cases (voutAt vout (2 + b * 8 + i)).isSome <;> cases fZero <;> simp [hlt]
    · rw [if_neg (fun hc => hlt hc.2)]
      have hall : (List.range' (i + 1) fuel).any (fun j =>
          decide (2 + b * 8 + j < vout.length) && (voutAt vout (2 + b * 8 + j)).isSome) =
          false := by
        rw [List.any_eq_false]
        intro x hx
        have hx1 : i + 1 ≤ x := (List.mem_range'_1.1 hx).1
        have : ¬ (2 + b * 8 + x < vout.length) := by omega
        simp [this]
      rw [hall]
      simp [hlt]

/-- The flag `fZero` after the inner loop is the negation of "byte `b` is
nonzero". -/
theorem maskInnerLoop_byte (vout : List (Option CTxOut)) (b : Nat)
    (hb : 2 + b * 8 + 8 ≤ uintMod) :
    maskInnerLoop vout b 8 0 true = !maskByteNonzero vout b := by
  rw [maskInnerLoop_eq vout b hb 8 0 true rfl]
  unfold maskByteNonzero
  rw [List.range_eq_range']
  have hfun : (fun j => decide (2 + b * 8 + j < vout.length) &&
      (voutAt vout (2 + b * 8 + j)).isSome) =
      (fun i => decide (2 + 8 * b + i < vout.length) &&
        (voutAt vout (2 + 8 * b + i)).isSome) := by
    funext j
    rw [Nat.mul_comm b 8]
  rw [hfun]
  simp

theorem lastPlusOne_cons (x : Nat) (l : List Nat) (d : Nat) :
    lastPlusOne (x :: l) d = lastPlusOne l (x + 1) := by
  unfold lastPlusOne
  rw [List.getLast?_cons]
  cases l.getLast? <;> rfl

theorem lastPlusOne_nil (d : Nat) : lastPlusOne [] d = d := rfl

/-- The outer loop from byte `b` on, with `k` bytes left: it ends within any
fuel above `k` and leaves the counters advanced by the nonzero bytes among the
bytes left. -/
theorem maskOuterLoop_eq (vout : List (Option CTxOut))
    (hlen : vout.length + 8 ≤ uintMod) :
    ∀ (k b last nz fuel : Nat), b + k = maskByteCount vout → k < fuel →
      nz + k < uintMod →
      maskOuterLoop vout fuel b last nz =
        some (lastPlusOne ((List.range' b k).filter (maskByteNonzero vout)) last,
          nz + ((List.range' b k).filter (maskByteNonzero vout)).length) := by
  intro k
  induction k with
  | zero =>
    intro b last nz fuel hb hf _
    cases fuel with
    | zero => omega
    | succ fuel =>
      have hge : ¬ ((2 + b * 8) % uintMod < vout.length) := by
        have h1 : (2 + b * 8) % uintMod = 2 + b * 8 := by
          apply Nat.mod_eq_of_lt
          unfold maskByteCount at hb
          omega
        rw [h1]
        unfold maskByteCount at hb
        omega
      simp [maskOuterLoop, hge, lastPlusOne_nil]
  | succ k ih =>
    intro b last nz fuel hb hf hnz
    cases fuel with
    | zero => omega
    | succ fuel =>
      have hblt : 2 + b * 8 < vout.length := by
        unfold maskByteCount at hb
        omega
      have h1 : (2 + b * 8) % uintMod = 2 + b * 8 := Nat.mod_eq_of_lt (by omega)
      have h2 : (b + 1) % uintMod = b + 1 := Nat.mod_eq_of_lt (by omega)
      have h3 : (nz + 1) % uintMod = nz + 1 := Nat.mod_eq_of_lt (by omega)
      have hinner := maskInnerLoop_byte vout b (by omega)
      simp only [maskOuterLoop, h1, hblt, if_true, h2, h3, hinner, List.range'_succ,
        List.filter_cons]
      by_cases hnzb : maskByteNonzero vout b = true
      · simp only [hnzb, Bool.not_true, Bool.false_eq_true, if_false, if_true]
        rw [ih (b + 1) (b + 1) (nz + 1) fuel (by omega) (by omega) (by omega),
          lastPlusOne_cons]
        simp only [List.length_cons]
        congr 2
        omega
      · have hnzb2 : maskByteNonzero vout b = false := by simpa using hnzb
        simp only [hnzb2, Bool.not_false, if_true, Bool.false_eq_true, if_false]
        rw [ih (b + 1) last nz fuel (by omega) (by omega) (by omega)]

theorem lastPlusOne_le (l : List Nat) (n : Nat) (h : ∀ x, x ∈ l → x < n) :
    lastPlusOne l 0 ≤ n := by
  unfold lastPlusOne
  cases hl : l.getLast? with
  | none => exact Nat.zero_le n
  | some x => exact h x (List.mem_of_getLast?_eq_some hl)

/-! ## C15: `CalcMaskSize` and its reference definition -/

/-- With `2^32` outputs or more the condition `2+b*8 < vout.size()` of the outer
loop, whose left side is an `unsigned int`, holds in every round: the loop has
not ended within any number of rounds. -/
theorem maskOuterLoop_never_ends (vout : List (Option CTxOut))
    (h : uintMod ≤ vout.length) :
    ∀ (fuel b nLastUsedByte nNonzeroBytes : Nat),
      maskOuterLoop vout fuel b nLastUsedByte nNonzeroBytes = none := by
  intro fuel
  induction fuel with
  | zero =>
    intro b l n
    rfl
  | succ k ih =>
    intro b l n
    have hpos : 0 < uintMod := by
      unfold uintMod
      norm_num
    have hlt : (2 + b * 8) % uintMod < vout.length :=
      Nat.lt_of_lt_of_le (Nat.mod_lt _ hpos) h
    simp only [maskOuterLoop, if_pos hlt, ih, ite_self]

/-- Counterexample for C15: on the record with `2^32` null outputs `CalcMaskSize`
called with both counters 0 never returns, whatever the number of rounds, so
it gives no `nBytes` and no `nNonzeroBytes`. -/
theorem calcMaskSize_never_returns_on_huge_record :
    uintMod ≤ exHugeCoins.vout.length ∧
    ¬ ∃ fuel r, exHugeCoins.CalcMaskSize fuel 0 0 = some r := by
  have hl : uintMod ≤ exHugeCoins.vout.length := by
    simp [exHugeCoins]
  refine ⟨hl, ?_⟩
  rintro ⟨fuel, r, h⟩
  simp [CCoins.CalcMaskSize, maskOuterLoop_never_ends _ hl] at h

/-- C15, amended: for a record whose outputs can be indexed by `unsigned int`
(`len(outputs) + 8 <= 2^32`), `CalcMaskSize` called with both counters 0 ends
(within any fuel above the number of mask bytes) with `nBytes` equal to 1 plus
the index of the last nonzero byte (0 if there is none) and `nNonzeroBytes` equal
to the number of nonzero bytes; if `len(outputs) <= 2` both are 0. -/
theorem calcMaskSize_reference (c : CCoins) (fuel : Nat)
    (hlen : c.vout.length + 8 ≤ uintMod) (hfuel : maskByteCount c.vout < fuel) :
    c.CalcMaskSize fuel 0 0 = some (refMaskBytes c.vout, refNonzeroBytes c.vout) ∧
    (c.vout.length ≤ 2 → refMaskBytes c.vout = 0 ∧ refNonzeroBytes c.vout = 0) := by
  have hcount : maskByteCount c.vout < uintMod := by
    unfold maskByteCount
    omega
  have hloop := maskOuterLoop_eq c.vout hlen (maskByteCount c.vout) 0 0 0 fuel
    (by omega) hfuel (by omega)
  rw [← List.range_eq_range'] at hloop
  have hle : refMaskBytes c.vout ≤ maskByteCount c.vout := by
    unfold refMaskBytes
    apply lastPlusOne_le
    intro x hx
    exact List.mem_range.1 (List.mem_filter.1 hx).1
  constructor
  · unfold CCoins.CalcMaskSize
    rw [hloop]
    simp only [Nat.zero_add]
    have hmod : refMaskBytes c.vout % uintMod = refMaskBytes c.vout :=
      Nat.mod_eq_of_lt (by omega)
    unfold refMaskBytes at hmod
    unfold refMaskBytes refNonzeroBytes
    rw [hmod]
  · intro h2
    have hzero : maskByteCount c.vout = 0 := by
      unfold maskByteCount
      omega
    unfold refMaskBytes refNonzeroBytes
    rw [hzero]
    exact ⟨rfl, rfl⟩

/-- Witness for C15: on a record with 12 outputs whose mask byte 0 is zero and
whose mask byte 1 has one output, `nBytes` is 2 and `nNonzeroBytes` is 1. -/
theorem calcMaskSize_reference_witness :
    exCoinsMask.CalcMaskSize 3 0 0 = some (2, 1) ∧
    exCoinsMask.CalcMaskSize 3 0 0 =
      some (refMaskBytes exCoinsMask.vout, refNonzeroBytes exCoinsMask.vout) :=
  ⟨by decide,
    (calcMaskSize_reference exCoinsMask 3 (by decide) (by decide)).1⟩

/-! ## C16, C17, C18: consensus rules -/

theorem uintSub_of_le (a b : Nat) (ha : a < uintMod) (hb : b ≤ a) : uintSub a b = a - b := by
  unfold uintSub
  have hb2 : b % uintMod = b := Nat.mod_eq_of_lt (by omega)
  rw [hb2]
  have h1 : a + (uintMod - b) = (a - b) + uintMod := by omega
  rw [h1, Nat.add_mod_right]
  exact Nat.mod_eq_of_lt (by omega)

/-- The expiration depth of the main network in closed form. -/
theorem mainNet_depth_eq (h : Nat) (hh : h < uintMod) :
    MainNetConsensus.NameExpirationDepth h = refDepthMain h := by
  unfold MainNetConsensus.NameExpirationDepth refDepthMain
  by_cases h1 : h < 24000
  · simp [h1]
  · by_cases h2 : h < 48000
    · simp only [h1, h2, if_false, if_true]
      exact uintSub_of_le h 12000 hh (by omega)
    · simp [h1, h2]

/-- C16: on each of the three rule sets, for every height `h` with `h + 1`
representable as an unsigned 32-bit value, `h - NameExpirationDepth(h)` is at
most `(h + 1) - NameExpirationDepth(h + 1)`, the differences taken as integers;
on regtest the difference is `h - 30`. -/
theorem consensus_monotone (h : Nat) (hh : h + 1 < uintMod) :
    ((h : Int) - (MainNetConsensus.NameExpirationDepth h : Int) ≤
      ((h + 1 : Nat) : Int) - (MainNetConsensus.NameExpirationDepth (h + 1) : Int)) ∧
    ((h : Int) - (TestNetConsensus.NameExpirationDepth h : Int) ≤
      ((h + 1 : Nat) : Int) - (TestNetConsensus.NameExpirationDepth (h + 1) : Int)) ∧
    ((h : Int) - (RegTestConsensus.NameExpirationDepth h : Int) ≤
      ((h + 1 : Nat) : Int) - (RegTestConsensus.NameExpirationDepth (h + 1) : Int)) ∧
    ((h : Int) - (RegTestConsensus.NameExpirationDepth h : Int) = (h : Int) - 30) := by
  have hmain : (h : Int) - (MainNetConsensus.NameExpirationDepth h : Int) ≤
      ((h + 1 : Nat) : Int) - (MainNetConsensus.NameExpirationDepth (h + 1) : Int) := by
    rw [mainNet_depth_eq h (by omega), mainNet_depth_eq (h + 1) hh]
    unfold refDepthMain
    by_cases h1 : h < 24000
    · by_cases h2 : h + 1 < 24000
      · simp only [h1, h2, if_true]
        omega
      · have h3 : h + 1 < 48000 := by omega
        simp only [h1, h2, h3, if_true, if_false]
        omega
    · by_cases h2 : h < 48000
      · by_cases h3 : h + 1 < 48000
        · have h4 : ¬ (h + 1 < 24000) := by omega
          simp only [h1, h2, h3, h4, if_true, if_false]
          omega
        · have h4 : ¬ (h + 1 < 24000) := by omega
          simp only [h1, h2, h3, h4, if_true, if_false]
          omega
      · have h3 : ¬ (h + 1 < 48000) := by omega
        have h4 : ¬ (h + 1 < 24000) := by omega
        simp only [h1, h2, h3, h4, if_false]
        omega
  refine ⟨hmain, hmain, ?_, ?_⟩
  · simp only [RegTestConsensus.NameExpirationDepth]
    omega
  · simp only [RegTestConsensus.NameExpirationDepth]
    rfl

/-- Witness for C16: the step from height 23999 to 24000 on the main network,
where the depth changes from 12000 to `h - 12000`. -/
theorem consensus_monotone_witness :
    MainNetConsensus.NameExpirationDepth 23999 = 12000 ∧
    MainNetConsensus.NameExpirationDepth 24000 = 12000 ∧
    ((23999 : Nat) : Int) - (MainNetConsensus.NameExpirationDepth 23999 : Int) ≤
      ((23999 + 1 : Nat) : Int) - (MainNetConsensus.NameExpirationDepth (23999 + 1) : Int) :=
  ⟨by decide, by decide, (consensus_monotone 23999 (by decide)).1⟩

/-- C17: for every height `h` (an unsigned 32-bit value) the rules equal their
reference definitions: on main the depth is 12000 for `h < 24000`, `h - 12000`
for `24000 <= h < 48000` and 36000 otherwise, and the minimum amount is 0 for
`h < 212500` and `COIN / 100` otherwise; on test the depth is that of main and
the minimum amount is `COIN / 100`; on regtest the depth is 30 and the minimum
amount is that of test. -/
theorem consensus_rules_reference (COIN : Int) (h : Nat) (hh : h < uintMod) :
    MainNetConsensus.NameExpirationDepth h = refDepthMain h ∧
    (h < 24000 → MainNetConsensus.NameExpirationDepth h = 12000) ∧
    (24000 ≤ h → h < 48000 → MainNetConsensus.NameExpirationDepth h = h - 12000) ∧
    (48000 ≤ h → MainNetConsensus.NameExpirationDepth h = 36000) ∧
    MainNetConsensus.MinNameCoinAmount COIN h = refMinAmountMain COIN h ∧
    (h < 212500 → MainNetConsensus.MinNameCoinAmount COIN h = 0) ∧
    (212500 ≤ h → MainNetConsensus.MinNameCoinAmount COIN h = Int.tdiv COIN 100) ∧
    TestNetConsensus.NameExpirationDepth h = refDepthMain h ∧
    TestNetConsensus.MinNameCoinAmount COIN h = Int.tdiv COIN 100 ∧
    RegTestConsensus.NameExpirationDepth h = 30 ∧
    RegTestConsensus.MinNameCoinAmount COIN h = Int.tdiv COIN 100 := by
  have hd := mainNet_depth_eq h hh
  refine ⟨hd, ?_, ?_, ?_, rfl, ?_, ?_, hd, rfl, rfl, rfl⟩
  · intro h1
    rw [hd]
    simp [refDepthMain, h1]
  · intro h1 h2
    rw [hd]
    have h3 : ¬ h < 24000 := by omega
    simp [refDepthMain, h2, h3]
  · intro h1
    rw [hd]
    have h3 : ¬ h < 24000 := by omega
    have h4 : ¬ h < 48000 := by omega
    simp [refDepthMain, h3, h4]
  · intro h1
    simp [MainNetConsensus.MinNameCoinAmount, h1]
  · intro h1
    have h3 : ¬ h < 212500 := by omega
    simp [MainNetConsensus.MinNameCoinAmount, h3]

/-- Witness for C17: height 30000 with `COIN = 100000000`. -/
theorem consensus_rules_reference_witness :
    MainNetConsensus.NameExpirationDepth 30000 = 18000 ∧
    MainNetConsensus.MinNameCoinAmount 100000000 212500 = 1000000 ∧
    MainNetConsensus.NameExpirationDepth 30000 = refDepthMain 30000 :=
  ⟨by decide, by decide, (consensus_rules_reference 100000000 30000 (by decide)).1⟩

/-- Counterexample for C18: with `nLegacyBlocksBefore = 19200` and the height
`2 ^ 31` (an unsigned 32-bit value) `AllowLegacyBlocks` returns true although
`nLegacyBlocksBefore` is not negative and the height is not below it: the cast
to `int` turns the height into `-2 ^ 31`. -/
theorem allowLegacyBlocks_true_at_large_height :
    AllowLegacyBlocks 19200 2147483648 = true ∧
    ¬ ((19200 : Int) < 0 ∨ ((2147483648 : Nat) : Int) < 19200) ∧
    (2147483648 : Nat) < 2 ^ 32 := by
  refine ⟨by decide, by decide, by decide⟩

/-- C18, amended: for every `nLegacyBlocksBefore` and every height `h` below
`2 ^ 31`, `AllowLegacyBlocks(h)` returns true iff `nLegacyBlocksBefore` is
negative or `h < nLegacyBlocksBefore`; for a height from `2 ^ 31` up to below
`2 ^ 32` and an `nLegacyBlocksBefore` in the range of `int` it returns true, the
height being read as the negative number `h - 2 ^ 32`. -/
theorem allowLegacyBlocks_iff (nLegacyBlocksBefore : Int) (h : Nat) (hh : h < 2 ^ 32) :
    (h < 2 ^ 31 →
      (AllowLegacyBlocks nLegacyBlocksBefore h = true ↔
        (nLegacyBlocksBefore < 0 ∨ (h : Int) < nLegacyBlocksBefore))) ∧
    (2 ^ 31 ≤ h → -(2 ^ 31 : Int) ≤ nLegacyBlocksBefore →
      AllowLegacyBlocks nLegacyBlocksBefore h = true) ∧
    (AllowLegacyBlocks nLegacyBlocksBefore h = true ↔
      (nLegacyBlocksBefore < 0 ∨ toInt32 h < nLegacyBlocksBefore)) := by
  have hmod : h % uintMod = h := Nat.mod_eq_of_lt hh
  have hgen : AllowLegacyBlocks nLegacyBlocksBefore h = true ↔
      (nLegacyBlocksBefore < 0 ∨ toInt32 h < nLegacyBlocksBefore) := by
    unfold AllowLegacyBlocks
    by_cases hneg : nLegacyBlocksBefore < 0
    · simp [hneg]
    · simp [hneg]
  refine ⟨?_, ?_, hgen⟩
  · intro hlt
    have hcast : toInt32 h = (h : Int) := by
      unfold toInt32
      rw [hmod, if_pos hlt]
    rw [hgen, hcast]
  · intro hge hrange
    rw [hgen]
    have hcast : toInt32 h = (h : Int) - (uintMod : Int) := by
      unfold toInt32
      have hnot : ¬ h < 2 ^ 31 := by omega
      rw [hmod, if_neg hnot]
    rw [hcast]
    by_cases hneg : nLegacyBlocksBefore < 0
    · exact Or.inl hneg
    · right
      have h1 : (h : Int) < (uintMod : Int) := by
        have : (uintMod : Int) = ((2 ^ 32 : Nat) : Int) := rfl
        rw [this]
        exact_mod_cast hh
      omega

/-- Witness for C18, amended: height 19199 is below `nLegacyBlocksBefore = 19200`
and height 19200 is not. -/
theorem allowLegacyBlocks_iff_witness :
    AllowLegacyBlocks 19200 19199 = true ∧ AllowLegacyBlocks 19200 19200 = false ∧
    AllowLegacyBlocks (-1) 19200 = true ∧
    (AllowLegacyBlocks 19200 19199 = true ↔
      ((19200 : Int) < 0 ∨ ((19199 : Nat) : Int) < 19200)) :=
  ⟨by decide, by decide, by decide,
    (allowLegacyBlocks_iff 19200 19199 (by decide)).1 (by decide)⟩

/-! ## Lemmas on the name cache -/

theorem assocFind_assocSet {K V : Type} [DecidableEq K] (m : List (K × V)) (k : K) (v : V)
    (j : K) : assocFind (assocSet m k v) j = if k = j then some v else assocFind m j := by
  induction m with
  | nil => simp [assocSet, assocFind]
  | cons p rest ih =>
    obtain ⟨k1, v1⟩ := p
    by_cases h1 : k1 = k
    · subst h1
      by_cases h2 : k1 = j <;> simp [assocSet, assocFind, h2]
    · by_cases h2 : k1 = j
      · subst h2
        have h3 : ¬ k = k1 := fun h => h1 h.symm
        simp [assocSet, assocFind, h1, h3]
      · simp [assocSet, assocFind, h1, h2, ih]

theorem assocFind_mem {K V : Type} [DecidableEq K] (m : List (K × V)) (k : K) (v : V)
    (h : assocFind m k = some v) : (k, v) ∈ m := by
  induction m with
  | nil => simp [assocFind] at h
  | cons p rest ih =>
    obtain ⟨k1, v1⟩ := p
    by_cases h1 : k1 = k
    · subst h1
      simp [assocFind] at h
      simp [h]
    · simp [assocFind, h1] at h
      exact List.mem_cons_of_mem _ (ih h)

/-- A name is in the set `updateNamesForHeight` leaves iff the cache has it added
for the height, or it was in the set read from the base and the cache does not
have it removed for the height. -/
theorem mem_updateNamesForHeight (n : CNameCache) (h : Nat) (names : List valtype)
    (m : valtype) :
    m ∈ n.updateNamesForHeight h names ↔
      ((m ∈ names ∧ assocFind n.expireIndex (h, m) ≠ some false) ∨
        assocFind n.expireIndex (h, m) = some true) := by
  unfold CNameCache.updateNamesForHeight
  rw [List.mem_append, List.mem_filter, List.mem_map]
  constructor
  · rintro (⟨h1, h2⟩ | ⟨p, hp, hp2⟩)
    · exact Or.inl ⟨h1, by simpa using h2⟩
    · right
      obtain ⟨hp3, hp4⟩ := List.mem_filter.1 hp
      simp only [Bool.and_eq_true, decide_eq_true_eq] at hp4
      obtain ⟨⟨ph, pm⟩, pv⟩ := p
      simp only at hp2 hp4
      obtain ⟨hp5, hp6⟩ := hp4
      subst hp2
      subst hp5
      exact hp6
  · rintro (⟨h1, h2⟩ | h1)
    · exact Or.inl ⟨h1, by simpa using h2⟩
    · right
      refine ⟨((h, m), true), ?_, rfl⟩
      rw [List.mem_filter]
      exact ⟨assocFind_mem _ _ _ h1, by simp [h1]⟩

/-- After the end of `SetName` the cache answers the data just set. -/
theorem getName_setNameFinish (base : CCoinsView) (c : CCoinsViewCache) (name : valtype)
    (data : CNameData) : GetName base (setNameFinish c name data) name = some data := by
  simp [GetName, setNameFinish, CNameCache.isDeleted, CNameCache.get, CNameCache.set,
    CNameCache.addExpireIndex, assocFind_assocSet]

/-! ## C19: precedence in `GetName` -/

/-- C19 (N1): `GetName(n)` returns none when the name cache marks `n` deleted,
whatever the parent holds; it returns the staged data when the name cache holds
a set for `n`; otherwise it returns what the parent's `GetName(n)` returns.  For
a name for which `GetName` succeeds, `DeleteName(n)` returns unless the history
is enabled and not empty, and after it `GetName(n)` returns none; `SetName(n,
data, false)` returns and after it `GetName(n)` returns `data`. -/
theorem getName_precedence (fNameHistory : Bool) (base : CCoinsView) (c : CCoinsViewCache)
    (n : valtype) :
    (c.cacheNames.isDeleted n = true → GetName base c n = none) ∧
    (∀ d, c.cacheNames.get n = some d → GetName base c n = some d) ∧
    (c.cacheNames.isDeleted n = false → c.cacheNames.get n = none →
      GetName base c n = base.GetName n) ∧
    (∀ old, GetName base c n = some old →
      (∀ c1, DeleteName fNameHistory base c n = some c1 → GetName base c1 n = none) ∧
      ((fNameHistory = false ∨ GetNameHistory base c n = none ∨
          GetNameHistory base c n = some []) →
        ∃ c1, DeleteName fNameHistory base c n = some c1 ∧ GetName base c1 n = none)) ∧
    (∀ data, ∃ c1, SetName fNameHistory base c n data false = some c1 ∧
      GetName base c1 n = some data) := by
  refine ⟨?_, ?_, ?_, ?_, ?_⟩
  · intro hd
    simp [GetName, hd]
  · intro d hg
    have hnd : c.cacheNames.isDeleted n = false := by
      unfold CNameCache.get at hg
      unfold CNameCache.isDeleted
      cases hf : assocFind c.cacheNames.changes n with
      | none => rfl
      | some ch =>
        cases ch with
        | set d1 => rfl
        | deleted => simp [hf] at hg
    simp [GetName, hnd, hg]
  · intro hnd hg
    simp [GetName, hnd, hg]
  · intro old hold
    have hafter : ∀ c1, DeleteName fNameHistory base c n = some c1 →
        GetName base c1 n = none := by
      intro c1 hdel
      simp only [DeleteName, hold] at hdel
      split at hdel
      · cases hdel
      · simp only [Option.some.injEq] at hdel
        subst hdel
        simp [GetName, CNameCache.isDeleted, CNameCache.remove, CNameCache.removeExpireIndex,
          assocFind_assocSet]
    refine ⟨hafter, ?_⟩
    intro hcond
    have hret : ∃ c1, DeleteName fNameHistory base c n = some c1 := by
      have hhist : GetNameHistory base
          { c with cacheNames := c.cacheNames.removeExpireIndex n old.nHeight } n =
          GetNameHistory base c n := rfl
      simp only [DeleteName, hold, hhist]
      rcases hcond with h1 | h1 | h1
      · simp [h1]
      · simp [h1]
      · simp [h1]
    obtain ⟨c1, hc1⟩ := hret
    exact ⟨c1, hc1, hafter c1 hc1⟩
  · intro data
    unfold SetName
    cases hold : GetName base c n with
    | none => exact ⟨_, rfl, getName_setNameFinish base c n data⟩
    | some old =>
      cases fNameHistory with
      | false => exact ⟨_, rfl, getName_setNameFinish base _ n data⟩
      | true => exact ⟨_, rfl, getName_setNameFinish base _ n data⟩

/-- Witness for C19: over a store holding the name `[1]`, after `DeleteName([1])`
the cache answers none although the store still holds the name. -/
theorem getName_precedence_witness :
    GetName (CCoinsView.store exNameStore) CCoinsViewCache.new [1] =
      some { value := [9], nHeight := 100 } ∧
    ((DeleteName true (CCoinsView.store exNameStore) CCoinsViewCache.new [1]).map
      (fun c1 => (GetName (CCoinsView.store exNameStore) c1 [1],
        (CCoinsView.store exNameStore).GetName [1])) =
      some (none, some { value := [9], nHeight := 100 })) ∧
    (∃ c1, SetName true (CCoinsView.store exNameStore) CCoinsViewCache.new [1]
        { value := [7], nHeight := 200 } false = some c1 ∧
      GetName (CCoinsView.store exNameStore) c1 [1] = some { value := [7], nHeight := 200 }) :=
  ⟨by decide, by decide,
    (getName_precedence true (CCoinsView.store exNameStore) CCoinsViewCache.new [1]).2.2.2.2
      { value := [7], nHeight := 200 }⟩

/-! ## C20: forward update by `SetName` -/

/-- `SetName` going forward on an existing name with the history enabled, in
closed form. -/
theorem setName_forward_eq (base : CCoinsView) (c : CCoinsViewCache) (n : valtype)
    (old data : CNameData) (hold : GetName base c n = some old) :
    SetName true base c n data false =
      some { c with
        cacheNames :=
          { changes := assocSet c.cacheNames.changes n (NameChange.set data)
            history := assocSet c.cacheNames.history n
              (old :: (match GetNameHistory base c n with
                | some h => h
                | none => []))
            expireIndex :=
              assocSet (assocSet c.cacheNames.expireIndex (old.nHeight, n) false)
                (data.nHeight, n) true } } := by
  have hhist : GetNameHistory base
      { c with cacheNames := c.cacheNames.removeExpireIndex n old.nHeight } n =
      GetNameHistory base c n := rfl
  simp only [SetName, hold, hhist, if_true, Bool.false_eq_true, if_false, historyPush]
  rfl

/-- C20: with the history enabled, in a cache in which the name `n` exists with
data `old` and history stack `H` (empty if no history is recorded), for every
`data` whose height differs from that of `old`, `SetName(n, data, false)` returns
and afterwards `GetName(n)` returns `data`, `GetNameHistory(n)` returns `H` with
`old` pushed on top, and for every height for which the parent answers
`GetNamesForHeight`: the bucket of the height of `old` does not contain `n`, the
bucket of the height of `data` contains `n`, and the membership of every other
name in every bucket, and of `n` in every other bucket, is unchanged. -/
theorem setName_forward_update (base : CCoinsView) (c : CCoinsViewCache) (n : valtype)
    (old data : CNameData) (hold : GetName base c n = some old)
    (hheight : data.nHeight ≠ old.nHeight) :
    ∃ c1, SetName true base c n data false = some c1 ∧
      GetName base c1 n = some data ∧
      GetNameHistory base c1 n =
        some (old :: (match GetNameHistory base c n with
          | some h => h
          | none => [])) ∧
      ∀ h names, GetNamesForHeight base c h = some names →
        ∃ names1, GetNamesForHeight base c1 h = some names1 ∧
          (h = old.nHeight → n ∉ names1) ∧
          (h = data.nHeight → n ∈ names1) ∧
          (∀ m, m ≠ n → (m ∈ names1 ↔ m ∈ names)) ∧
          (h ≠ old.nHeight → h ≠ data.nHeight → (n ∈ names1 ↔ n ∈ names)) := by
  refine ⟨_, setName_forward_eq base c n old data hold, ?_, ?_, ?_⟩
  · simp [GetName, CNameCache.isDeleted, CNameCache.get, assocFind_assocSet]
  · simp [GetNameHistory, CNameCache.getHistory, assocFind_assocSet]
  · intro h names hnames
    unfold GetNamesForHeight at hnames ⊢
    cases hb : base.GetNamesForHeight h with
    | none =>
      rw [hb] at hnames
      cases hnames
    | some S =>
      rw [hb] at hnames
      simp only [Option.some.injEq] at hnames
      subst hnames
      refine ⟨_, rfl, ?_, ?_, ?_, ?_⟩
      · intro hh
        subst hh
        rw [mem_updateNamesForHeight]
        have hne : ¬ (data.nHeight, n) = (old.nHeight, n) := by
          intro he
          exact hheight (Prod.mk.inj he).1
        simp [assocFind_assocSet, hne]
      · intro hh
        subst hh
        rw [mem_updateNamesForHeight]
        simp [assocFind_assocSet]
      · intro m hm
        rw [mem_updateNamesForHeight, mem_updateNamesForHeight]
        have h1 : ¬ (data.nHeight, n) = (h, m) := by
          intro he
          exact hm (Prod.mk.inj he).2.symm
        have h2 : ¬ (old.nHeight, n) = (h, m) := by
          intro he
          exact hm (Prod.mk.inj he).2.symm
        simp [assocFind_assocSet, h1, h2]
      · intro hh1 hh2
        rw [mem_updateNamesForHeight, mem_updateNamesForHeight]
        have h1 : ¬ (data.nHeight, n) = (h, n) := by
          intro he
          exact hh2 (Prod.mk.inj he).1.symm
        have h2 : ¬ (old.nHeight, n) = (h, n) := by
          intro he
          exact hh1 (Prod.mk.inj he).1.symm
        simp [assocFind_assocSet, h1, h2]

/-- Witness for C20: the name `[1]` exists at height 100 in the store;
`SetName([1], data@200, false)` makes the history `[old]`, takes `[1]` out of
bucket 100, where `[2]` stays, and puts it into bucket 200. -/
theorem setName_forward_update_witness :
    ((SetName true (CCoinsView.store exNameStore) CCoinsViewCache.new [1]
        { value := [7], nHeight := 200 } false).map
      (fun c1 =>
        (GetNameHistory (CCoinsView.store exNameStore) c1 [1],
         GetNamesForHeight (CCoinsView.store exNameStore) c1 100,
         GetNamesForHeight (CCoinsView.store exNameStore) c1 200)) =
      some (some [{ value := [9], nHeight := 100 }], some [[2]], some [[1]])) ∧
    (∃ c1, SetName true (CCoinsView.store exNameStore) CCoinsViewCache.new [1]
        { value := [7], nHeight := 200 } false = some c1 ∧
      GetName (CCoinsView.store exNameStore) c1 [1] = some { value := [7], nHeight := 200 } ∧
      GetNameHistory (CCoinsView.store exNameStore) c1 [1] =
        some [{ value := [9], nHeight := 100 }]) :=
  ⟨by decide,
    (setName_forward_update (CCoinsView.store exNameStore) CCoinsViewCache.new [1]
      { value := [9], nHeight := 100 } { value := [7], nHeight := 200 } (by decide)
      (by decide)).imp (fun _ hc => ⟨hc.1, hc.2.1, hc.2.2.1⟩)⟩

/-! ## C23: the truncated mask loses no output -/

/-- `CalcMaskSize` on zeroed counters ends with the reference values, for a
record whose outputs `unsigned int` can index. -/
theorem calcMaskSize_eq_ref (c : CCoins) (fuel : Nat)
    (hlen : c.vout.length + 8 ≤ uintMod) (hfuel : maskByteCount c.vout < fuel) :
    c.CalcMaskSize fuel 0 0 = some (refMaskBytes c.vout, refNonzeroBytes c.vout) := by
  have hloop := maskOuterLoop_eq c.vout hlen (maskByteCount c.vout) 0 0 0 fuel
    (by omega) hfuel (by unfold maskByteCount; omega)
  rw [← List.range_eq_range'] at hloop
  have hle : refMaskBytes c.vout ≤ maskByteCount c.vout := by
    unfold refMaskBytes
    apply lastPlusOne_le
    intro x hx
    exact List.mem_range.1 (List.mem_filter.1 hx).1
  have hcount : maskByteCount c.vout < uintMod := by
    unfold maskByteCount
    omega
  unfold CCoins.CalcMaskSize
  rw [hloop]
  simp only [Nat.zero_add]
  have hmod : refMaskBytes c.vout % uintMod = refMaskBytes c.vout :=
    Nat.mod_eq_of_lt (by omega)
  unfold refMaskBytes at hmod
  unfold refMaskBytes refNonzeroBytes
  rw [hmod]

/-- In a strictly increasing list every element is below one plus the last. -/
theorem lt_lastPlusOne_of_mem :
    ∀ (l : List Nat) (d x : Nat), l.Pairwise (fun a b => a < b) → x ∈ l →
      x < lastPlusOne l d := by
  intro l
  induction l with
  | nil =>
    intro d x _ hx
    simp at hx
  | cons a t ih =>
    intro d x hp hx
    rw [lastPlusOne_cons]
    rw [List.pairwise_cons] at hp
    cases t with
    | nil =>
      simp only [List.mem_singleton] at hx
      subst hx
      simp [lastPlusOne_nil]
    | cons b t2 =>
      rcases List.mem_cons.1 hx with h1 | h1
      · subst h1
        have hb : x < b := hp.1 b (List.mem_cons_self _ _)
        have := ih (x + 1) b hp.2 (List.mem_cons_self _ _)
        omega
      · exact ih (a + 1) x hp.2 h1

/-- A strictly increasing list of natural numbers starting at `a` has at most
`last + 1 - a` elements. -/
theorem length_add_head_le_lastPlusOne :
    ∀ (t : List Nat) (a : Nat), (a :: t).Pairwise (fun x y => x < y) →
      (a :: t).length + a ≤ lastPlusOne (a :: t) 0 := by
  intro t
  induction t with
  | nil =>
    intro a _
    simp [lastPlusOne_cons, lastPlusOne_nil]
    omega
  | cons b t2 ih =>
    intro a hp
    rw [List.pairwise_cons] at hp
    have hab : a < b := hp.1 b (List.mem_cons_self _ _)
    have h1 := ih b hp.2
    rw [lastPlusOne_cons] at h1 ⊢
    rw [lastPlusOne_cons]
    simp only [List.length_cons] at h1 ⊢
    omega

theorem length_le_lastPlusOne (l : List Nat) (hp : l.Pairwise (fun x y => x < y)) :
    l.length ≤ lastPlusOne l 0 := by
  cases l with
  | nil => simp [lastPlusOne_nil]
  | cons a t =>
    have := length_add_head_le_lastPlusOne t a hp
    omega

/-- The nonzero mask bytes, in increasing order. -/
theorem nonzeroBytes_pairwise (vout : List (Option CTxOut)) :
    ((List.range (maskByteCount vout)).filter (maskByteNonzero vout)).Pairwise
      (fun a b => a < b) :=
  List.Pairwise.filter _ (List.pairwise_lt_range _)

/-- The byte of an available output from index 2 on is a nonzero mask byte. -/
theorem byte_of_available (vout : List (Option CTxOut)) (i : Nat) (hi : 2 ≤ i)
    (hlt : i < vout.length) (hav : (voutAt vout i).isSome = true) :
    (i - 2) / 8 ∈ (List.range (maskByteCount vout)).filter (maskByteNonzero vout) := by
  rw [List.mem_filter, List.mem_range]
  constructor
  · unfold maskByteCount
    omega
  · unfold maskByteNonzero
    rw [List.any_eq_true]
    refine ⟨(i - 2) % 8, List.mem_range.2 (Nat.mod_lt _ (by omega)), ?_⟩
    have hidx : 2 + 8 * ((i - 2) / 8) + (i - 2) % 8 = i := by omega
    rw [hidx]
    simp [hlt, hav]

/-- Counterexample for C23: on the record with `2^32` outputs, all of them
available (index 2 among them), `CalcMaskSize` on zeroed counters never returns,
so there is no `nBytes` that `(2 - 2) / 8` is below. -/
theorem mask_undefined_on_huge_record :
    exHugeFullCoins.IsAvailable 2 = true ∧
    ¬ ∃ fuel nBytes nNonzeroBytes,
      exHugeFullCoins.CalcMaskSize fuel 0 0 = some (nBytes, nNonzeroBytes) ∧
      (2 - 2) / 8 < nBytes := by
  have hl : uintMod ≤ exHugeFullCoins.vout.length := by
    simp [exHugeFullCoins]
  have h2 : 2 < uintMod := by
    unfold uintMod
    norm_num
  refine ⟨?_, ?_⟩
  · rw [isAvailable_eq]
    simp [voutAt, exHugeFullCoins, List.getD_eq_getElem?_getD, List.getElem?_replicate, h2]
  · rintro ⟨fuel, nBytes, nNonzeroBytes, h, _⟩
    simp [CCoins.CalcMaskSize, maskOuterLoop_never_ends _ hl] at h

/-- C23, amended: for a record whose outputs `unsigned int` can index
(`len(outputs) + 8 <= 2^32`), `CalcMaskSize` on
zeroed counters ends with counters such that every available index `i >= 2`
satisfies `(i - 2) / 8 < nBytes`, and `nNonzeroBytes <= nBytes <=
ceil((len(outputs) - 2) / 8)`; for a record that satisfies T and has more than
two outputs, `nBytes` is `ceil((len(outputs) - 2) / 8)` exactly and
`nNonzeroBytes >= 1`. -/
theorem mask_keeps_outputs (c : CCoins) (fuel : Nat)
    (hlen : c.vout.length + 8 ≤ uintMod) (hfuel : maskByteCount c.vout < fuel) :
    ∃ nBytes nNonzeroBytes,
      c.CalcMaskSize fuel 0 0 = some (nBytes, nNonzeroBytes) ∧
      (∀ i, 2 ≤ i → c.IsAvailable i = true → (i - 2) / 8 < nBytes) ∧
      nNonzeroBytes ≤ nBytes ∧
      nBytes ≤ (c.vout.length - 2 + 7) / 8 ∧
      (TailTrimmed c.vout → 2 < c.vout.length →
        nBytes = (c.vout.length - 2 + 7) / 8 ∧ 1 ≤ nNonzeroBytes) := by
  have hp := nonzeroBytes_pairwise c.vout
  have hle : refMaskBytes c.vout ≤ maskByteCount c.vout := by
    unfold refMaskBytes
    apply lastPlusOne_le
    intro x hx
    exact List.mem_range.1 (List.mem_filter.1 hx).1
  have havail : ∀ i, 2 ≤ i → c.IsAvailable i = true →
      (i - 2) / 8 ∈ (List.range (maskByteCount c.vout)).filter (maskByteNonzero c.vout) := by
    intro i hi hav
    have h1 : i < c.vout.length ∧ (voutAt c.vout i).isSome = true := by
      simpa [CCoins.IsAvailable] using hav
    exact byte_of_available c.vout i hi h1.1 h1.2
  refine ⟨refMaskBytes c.vout, refNonzeroBytes c.vout,
    calcMaskSize_eq_ref c fuel hlen hfuel, ?_, ?_, hle, ?_⟩
  · intro i hi hav
    exact lt_lastPlusOne_of_mem _ 0 _ hp (havail i hi hav)
  · exact length_le_lastPlusOne _ hp
  · intro ht h2
    have hlast : c.IsAvailable (c.vout.length - 1) = true := by
      rcases ht with h0 | ⟨o, ho⟩
      · rw [h0] at h2
        simp at h2
      · rw [List.getLast?_eq_getElem?] at ho
        unfold CCoins.IsAvailable voutAt
        simp [List.getD_eq_getElem?_getD, ho]
        omega
    have hmem := havail (c.vout.length - 1) (by omega) hlast
    have hlt := lt_lastPlusOne_of_mem _ 0 _ hp hmem
    constructor
    · have hle2 : lastPlusOne
          ((List.range (maskByteCount c.vout)).filter (maskByteNonzero c.vout)) 0 ≤
          maskByteCount c.vout := hle
      have hcount : (c.vout.length - 1 - 2) / 8 + 1 = maskByteCount c.vout := by
        unfold maskByteCount
        omega
      show lastPlusOne
        ((List.range (maskByteCount c.vout)).filter (maskByteNonzero c.vout)) 0 =
          maskByteCount c.vout
      omega
    · show 1 ≤ ((List.range (maskByteCount c.vout)).filter (maskByteNonzero c.vout)).length
      exact List.length_pos_of_mem hmem

/-- Witness for C23: on the record with 12 outputs whose mask byte 0 is zero and
whose last output is in mask byte 1, `nBytes` is 2, which is
`ceil((12 - 2) / 8)`, and `nNonzeroBytes` is 1. -/
theorem mask_keeps_outputs_witness :
    exCoinsMask.CalcMaskSize 3 0 0 = some (2, 1) ∧
    (∃ nBytes nNonzeroBytes,
      exCoinsMask.CalcMaskSize 3 0 0 = some (nBytes, nNonzeroBytes) ∧
      (∀ i, 2 ≤ i → exCoinsMask.IsAvailable i = true → (i - 2) / 8 < nBytes) ∧
      nNonzeroBytes ≤ nBytes) :=
  ⟨by decide,
    (mask_keeps_outputs exCoinsMask 3 (by decide) (by decide)).imp
      (fun _ h1 => h1.imp (fun _ h2 => ⟨h2.1, h2.2.1, h2.2.2.1⟩))⟩

/-! ## Lemmas on the `FRESH` assertion in a layered stack -/

theorem childBacked_parent_advance (DynamicUsage : CCoins → Nat) (base : CCoinsView)
    (p c : CCoinsViewCache) (t : uint256) (h : childBacked p c) :
    childBacked (FetchCoins DynamicUsage base p t).2.2 c := by
  obtain ⟨h1, h2, h3⟩ := h
  refine ⟨h1, h2, ?_⟩
  intro j e he hfr
  obtain ⟨u, hu⟩ := h3 j e he hfr
  exact ⟨u, (parent_fetch DynamicUsage base p t).2.2.1 j u hu⟩

theorem childBacked_erase (p c c1 : CCoinsViewCache) (t : uint256) (h : childBacked p c)
    (hm : c1.hasModifier = false) (hmap : c1.cacheCoins = mapErase c.cacheCoins t) :
    childBacked p c1 := by
  obtain ⟨_, h2, h3⟩ := h
  refine ⟨hm, ?_, ?_⟩
  · rw [hmap]
    exact mapKeysNodup_mapErase _ _ h2
  · intro j e he
    rw [hmap, mapFind_mapErase] at he
    by_cases htj : t = j
    · simp [htj] at he
    · simp only [htj, if_false] at he
      exact h3 j e he

theorem childBacked_set (p c c1 : CCoinsViewCache) (t : uint256) (e : CCoinsCacheEntry)
    (h : childBacked p c) (hm : c1.hasModifier = false)
    (hmap : c1.cacheCoins = mapSet c.cacheCoins t e)
    (hunfresh : e.flags.fresh = false → ∃ u, mapFind p.cacheCoins t = some u) :
    childBacked p c1 := by
  obtain ⟨_, h2, h3⟩ := h
  refine ⟨hm, ?_, ?_⟩
  · rw [hmap]
    exact mapKeysNodup_mapSet _ _ _ h2
  · intro j e1 he hfr
    rw [hmap, mapFind_mapSet] at he
    by_cases htj : t = j
    · simp only [htj, if_true, Option.some.injEq] at he
      subst he
      subst htj
      exact hunfresh hfr
    · simp only [htj, if_false] at he
      exact h3 j e1 he hfr

/-- A read of the child keeps every entry of the child without `FRESH` backed by
an entry of the parent. -/
theorem childBacked_fetch (DynamicUsage : CCoins → Nat) (base : CCoinsView)
    (p c : CCoinsViewCache) (t : uint256) (h : childBacked p c) :
    ∃ b1 p1 c1, (FetchCoins DynamicUsage (CCoinsView.cache base p) c t).2 =
        (CCoinsView.cache b1 p1, c1) ∧ p1.hasModifier = p.hasModifier ∧
      childBacked p1 c1 := by
  cases hc : mapFind c.cacheCoins t with
  | some e0 =>
    rw [fetchCoins_hit DynamicUsage _ c t e0 hc]
    exact ⟨base, p, c, rfl, rfl, h⟩
  | none =>
    have hadv := childBacked_parent_advance DynamicUsage base p c t h
    have hmod := (parent_fetch DynamicUsage base p t).1
    cases hb : ((CCoinsView.cache base p).GetCoins DynamicUsage t).1 with
    | none =>
      rw [fetchCoins_miss DynamicUsage _ c t hc hb]
      exact ⟨_, _, c, rfl, hmod, hadv⟩
    | some tmp =>
      rw [fetchCoins_load DynamicUsage _ c t tmp hc hb]
      have hans : (FetchCoins DynamicUsage base p t).1.map (fun e => e.coins) = some tmp := hb
      obtain ⟨u, hu, _⟩ := (parent_fetch DynamicUsage base p t).2.2.2 tmp hans
      refine ⟨(FetchCoins DynamicUsage base p t).2.1, (FetchCoins DynamicUsage base p t).2.2,
        _, rfl, hmod, ?_⟩
      exact childBacked_set _ c _ t
        { coins := tmp, flags := if tmp.IsPruned then Flags.FRESH else Flags.empty }
        hadv h.1 rfl (fun _ => ⟨u, hu⟩)

/-- The use of a modifier on the child keeps every entry of the child without
`FRESH` backed by an entry of the parent. -/
theorem childBacked_modify (DynamicUsage : CCoins → Nat) (base : CCoinsView)
    (p c : CCoinsViewCache) (t : uint256) (f : CCoins → CCoins) (h : childBacked p c) :
    ∃ b1 p1 c1, modifyWith DynamicUsage (CCoinsView.cache base p) c t f =
        some (CCoinsView.cache b1 p1, c1) ∧ p1.hasModifier = p.hasModifier ∧
      childBacked p1 c1 := by
  obtain ⟨u, hw⟩ := modifyWith_eq DynamicUsage (CCoinsView.cache base p) c t f h.1
  rw [hw]
  have hadv := childBacked_parent_advance DynamicUsage base p c t h
  have hmod := (parent_fetch DynamicUsage base p t).1
  cases hc : mapFind c.cacheCoins t with
  | some e0 =>
    have hb : modifyBase DynamicUsage (CCoinsView.cache base p) c t = CCoinsView.cache base p := by
      simp [modifyBase, hc]
    have he : modifyEntry DynamicUsage (CCoinsView.cache base p) c t =
        { coins := e0.coins, flags := { dirty := true, fresh := e0.flags.fresh } } := by
      simp [modifyEntry, hc]
    rw [hb, he]
    refine ⟨base, p, _, rfl, rfl, ?_⟩
    by_cases hcond : e0.flags.fresh = true ∧ (f e0.coins).Cleanup.IsPruned = true
    · exact childBacked_erase p c _ t h rfl (by simp [hcond])
    · exact childBacked_set p c _ t
        { coins := (f e0.coins).Cleanup, flags := { dirty := true, fresh := e0.flags.fresh } }
        h rfl (by simp [hcond]) (fun hfr => h.2.2 t e0 hc hfr)
  | none =>
    have hb : modifyBase DynamicUsage (CCoinsView.cache base p) c t =
        CCoinsView.cache (FetchCoins DynamicUsage base p t).2.1
          (FetchCoins DynamicUsage base p t).2.2 := by
      simp [modifyBase, hc, viewGetCoins_cache]
    have he : modifyEntry DynamicUsage (CCoinsView.cache base p) c t =
        newModifyEntry ((FetchCoins DynamicUsage base p t).1.map (fun e => e.coins)) := by
      simp [modifyEntry, hc, viewGetCoins_cache]
    rw [hb, he]
    refine ⟨_, _, _, rfl, hmod, ?_⟩
    by_cases hcond :
        (newModifyEntry ((FetchCoins DynamicUsage base p t).1.map
          (fun e => e.coins))).flags.fresh = true ∧
        (f (newModifyEntry ((FetchCoins DynamicUsage base p t).1.map
          (fun e => e.coins))).coins).Cleanup.IsPruned = true
    · exact childBacked_erase _ c _ t hadv rfl (by simp [hcond])
    · refine childBacked_set _ c _ t
        { coins := (f (newModifyEntry ((FetchCoins DynamicUsage base p t).1.map
            (fun e => e.coins))).coins).Cleanup,
          flags := (newModifyEntry ((FetchCoins DynamicUsage base p t).1.map
            (fun e => e.coins))).flags }
        hadv rfl (by simp [hcond]) ?_
      intro hfr
      cases hans : (FetchCoins DynamicUsage base p t).1.map (fun e => e.coins) with
      | none => simp [hans, newModifyEntry] at hfr
      | some r =>
        obtain ⟨u1, hu1, _⟩ := (parent_fetch DynamicUsage base p t).2.2.2 r hans
        exact ⟨u1, hu1⟩

/-- A run of reads and uses of a modifier on the child returns, leaves the
parent's `hasModifier` as it was and keeps every entry of the child without
`FRESH` backed by an entry of the parent. -/
theorem childBacked_run (DynamicUsage : CCoins → Nat) :
    ∀ (ops : List CacheOp) (base : CCoinsView) (p c : CCoinsViewCache),
      childBacked p c → (∀ op, op ∈ ops → op.isLocal = true) →
      ∃ b1 p1 c1, runOps DynamicUsage ops (CCoinsView.cache base p, c) =
          some (CCoinsView.cache b1 p1, c1) ∧ p1.hasModifier = p.hasModifier ∧
        childBacked p1 c1 := by
  intro ops
  induction ops with
  | nil =>
    intro base p c h _
    exact ⟨base, p, c, rfl, rfl, h⟩
  | cons op rest ih =>
    intro base p c h hl
    have hrest : ∀ o, o ∈ rest → o.isLocal = true := fun o ho =>
      hl o (List.mem_cons_of_mem _ ho)
    have hop := hl op (List.mem_cons_self _ _)
    have hstep : ∃ b1 p1 c1, op.run DynamicUsage (CCoinsView.cache base p, c) =
        some (CCoinsView.cache b1 p1, c1) ∧ p1.hasModifier = p.hasModifier ∧
        childBacked p1 c1 := by
      cases op with
      | getCoins t =>
        obtain ⟨b1, p1, c1, h1, h2, h3⟩ := childBacked_fetch DynamicUsage base p c t h
        exact ⟨b1, p1, c1, by simp only [CacheOp.run, getCoins_state, h1], h2, h3⟩
      | accessCoins t =>
        obtain ⟨b1, p1, c1, h1, h2, h3⟩ := childBacked_fetch DynamicUsage base p c t h
        exact ⟨b1, p1, c1, by simp only [CacheOp.run, accessCoins_state, h1], h2, h3⟩
      | haveCoins t =>
        obtain ⟨b1, p1, c1, h1, h2, h3⟩ := childBacked_fetch DynamicUsage base p c t h
        exact ⟨b1, p1, c1, by simp only [CacheOp.run, haveCoins_state, h1], h2, h3⟩
      | modify t f =>
        obtain ⟨b1, p1, c1, h1, h2, h3⟩ := childBacked_modify DynamicUsage base p c t f h
        exact ⟨b1, p1, c1, by simp only [CacheOp.run, h1], h2, h3⟩
      | batchWrite m hb n => simp [CacheOp.isLocal] at hop
      | flush => simp [CacheOp.isLocal] at hop
    obtain ⟨b1, p1, c1, h1, h2, h3⟩ := hstep
    obtain ⟨b2, p2, c2, h4, h5, h6⟩ := ih b1 p1 c1 h3 hrest
    exact ⟨b2, p2, c2, by simp only [runOps, h1, h4], h5.trans h2, h6⟩

/-! ## C22: the `FRESH` assertion of `BatchWrite` in a layered stack -/

/-- C22: for any parent cache `P` and a child cache `C` newly created over `P` on
which only reads and uses of a modifier are run, the run returns with no
modifier live on `C`, and then every entry of `C` that is `DIRTY`, not pruned
and absent from `P`'s coin map has `FRESH`; so the loop of `P.BatchWrite` on
`C`'s map passes its assertion, and `C.Flush()` returns true when no modifier is
live on `P`. -/
theorem fresh_assertion_unreachable (DynamicUsage : CCoins → Nat) (base : CCoinsView)
    (p : CCoinsViewCache) (ops : List CacheOp)
    (hops : ∀ op, op ∈ ops → op.isLocal = true) :
    ∃ b1 p1 c1,
      runOps DynamicUsage ops (CCoinsView.cache base p, CCoinsViewCache.new) =
        some (CCoinsView.cache b1 p1, c1) ∧
      c1.hasModifier = false ∧
      (∀ txid e, (txid, e) ∈ c1.cacheCoins → e.flags.dirty = true →
        e.coins.IsPruned = false → mapFind p1.cacheCoins txid = none →
        e.flags.fresh = true) ∧
      (∃ r, batchWriteLoop DynamicUsage p1 c1.cacheCoins = some r) ∧
      (p.hasModifier = false →
        ∃ r, Flush DynamicUsage (CCoinsView.cache b1 p1) c1 = some r ∧ r.1 = true) := by
  have hinit : childBacked p CCoinsViewCache.new := by
    refine ⟨rfl, ?_, ?_⟩
    · unfold mapKeysNodup
      simp [CCoinsViewCache.new]
    · intro t e he
      simp [CCoinsViewCache.new, mapFind] at he
  obtain ⟨b1, p1, c1, hrun, hmod, hback⟩ :=
    childBacked_run DynamicUsage ops base p CCoinsViewCache.new hinit hops
  have hfresh : ∀ txid e, (txid, e) ∈ c1.cacheCoins → e.flags.dirty = true →
      e.coins.IsPruned = false → mapFind p1.cacheCoins txid = none →
      e.flags.fresh = true := by
    intro txid e hmem _ _ hf
    by_contra hfr
    obtain ⟨u, hu⟩ := hback.2.2 txid e (mapFind_of_mem_nodup _ _ _ hback.2.1 hmem)
      (by simpa using hfr)
    rw [hf] at hu
    cases hu
  obtain ⟨c2, hloop, _⟩ := batchWriteLoop_table DynamicUsage c1.cacheCoins p1 hback.2.1
    (fun txid e hmem hd hf hp => hfresh txid e hmem hd hp hf)
  refine ⟨b1, p1, c1, hrun, hback.1, hfresh, ⟨_, hloop⟩, ?_⟩
  intro hp
  have hp1 : p1.hasModifier = false := hmod.trans hp
  have hf : Flush DynamicUsage (CCoinsView.cache b1 p1) c1 =
      some (true,
        CCoinsView.cache b1
          { c2 with hashBlock := c1.hashBlock
                    cacheNames := c2.cacheNames.apply c1.cacheNames },
        { c1 with cacheCoins := [], cachedCoinsUsage := 0, cacheNames := CNameCache.clear }) := by
    simp [Flush, CCoinsView.BatchWrite, CCoinsViewCache.BatchWrite, hp1, hloop]
  exact ⟨_, hf, rfl⟩

/-- Witness for C22: over a parent holding a `FRESH` entry the store knows
nothing of, the child takes transaction `7` from the parent (not `FRESH`) and
creates transaction `8` (`FRESH`); its flush passes the assertion. -/
theorem fresh_assertion_unreachable_witness :
    ((runOps exUsage
        [CacheOp.modify 7 (setVout [some exOutA]),
         CacheOp.modify 8 (setVout [some exOutB]), CacheOp.flush]
        (CCoinsView.cache (CCoinsView.store exStoreA) exPlantedParent,
          CCoinsViewCache.new)).map
      (fun s =>
        match s.1 with
        | CCoinsView.cache _ p1 =>
          (mapFind p1.cacheCoins 7).map (fun e => e.flags) ::
            [(mapFind p1.cacheCoins 8).map (fun e => e.flags)]
        | _ => []) =
      some [some { dirty := true, fresh := true }, some { dirty := true, fresh := true }]) ∧
    (∃ b1 p1 c1,
      runOps exUsage
        [CacheOp.modify 7 (setVout [some exOutA]), CacheOp.modify 8 (setVout [some exOutB])]
        (CCoinsView.cache (CCoinsView.store exStoreA) exPlantedParent,
          CCoinsViewCache.new) = some (CCoinsView.cache b1 p1, c1) ∧
      c1.hasModifier = false ∧
      (∃ r, batchWriteLoop exUsage p1 c1.cacheCoins = some r)) :=
  ⟨by decide,
    (fresh_assertion_unreachable exUsage (CCoinsView.store exStoreA) exPlantedParent
      [CacheOp.modify 7 (setVout [some exOutA]), CacheOp.modify 8 (setVout [some exOutB])]
      (by
        intro op hop
        simp only [List.mem_cons, List.mem_singleton] at hop
        rcases hop with h | h | h
        · subst h
          rfl
        · subst h
          rfl
        · simp at h)).imp
      (fun _ h1 => h1.imp (fun _ h2 => h2.imp (fun _ h3 => ⟨h3.1, h3.2.1, h3.2.2.2.1⟩)))⟩

/-! ## Lemmas on the usage total -/

theorem sizeAdd_mod (s v : Nat) : sizeAdd (s % sizeMod) v = (s + v) % sizeMod := by
  unfold sizeAdd
  exact Nat.mod_add_mod s sizeMod v

theorem sizeSub_mod (s u : Nat) (h : u ≤ s) : sizeSub (s % sizeMod) u = (s - u) % sizeMod := by
  unfold sizeSub sizeMod
  omega

theorem sizeSub_le (a u : Nat) (h : u ≤ a) (ha : a < sizeMod) : sizeSub a u + u = a := by
  unfold sizeSub
  unfold sizeMod at *
  omega

theorem usageSum_cons (DynamicUsage : CCoins → Nat) (p : uint256 × CCoinsCacheEntry)
    (m : CCoinsMap) :
    usageSum DynamicUsage (p :: m) = DynamicUsage p.2.coins + usageSum DynamicUsage m := by
  simp [usageSum]

theorem mapErase_absent {V : Type} (m : List (Nat × V)) (k : Nat) (h : mapFind m k = none) :
    mapErase m k = m := by
  induction m with
  | nil => rfl
  | cons p rest ih =>
    obtain ⟨k1, v1⟩ := p
    by_cases hk : k1 = k
    · simp [mapFind, hk] at h
    · simp only [mapFind, hk, if_false] at h
      simp only [mapErase, hk, if_false, ih h]

theorem usageSum_mapSet_absent (DynamicUsage : CCoins → Nat) (m : CCoinsMap) (t : uint256)
    (e : CCoinsCacheEntry) (h : mapFind m t = none) :
    usageSum DynamicUsage (mapSet m t e) = usageSum DynamicUsage m + DynamicUsage e.coins := by
  induction m with
  | nil => simp [mapSet, usageSum]
  | cons p rest ih =>
    obtain ⟨k1, v1⟩ := p
    by_cases hk : k1 = t
    · simp [mapFind, hk] at h
    · simp only [mapFind, hk, if_false] at h
      simp only [mapSet, hk, if_false, usageSum_cons, ih h]
      omega

theorem usageSum_mapSet_present (DynamicUsage : CCoins → Nat) (m : CCoinsMap) (t : uint256)
    (e e0 : CCoinsCacheEntry) (h : mapFind m t = some e0) :
    usageSum DynamicUsage (mapSet m t e) + DynamicUsage e0.coins =
      usageSum DynamicUsage m + DynamicUsage e.coins := by
  induction m with
  | nil => simp [mapFind] at h
  | cons p rest ih =>
    obtain ⟨k1, v1⟩ := p
    by_cases hk : k1 = t
    · simp only [mapFind, hk, if_true, Option.some.injEq] at h
      subst h
      simp only [mapSet, hk, if_true, usageSum_cons]
      omega
    · simp only [mapFind, hk, if_false] at h
      simp only [mapSet, hk, if_false, usageSum_cons]
      have := ih h
      omega

theorem usageSum_mapErase_present (DynamicUsage : CCoins → Nat) (m : CCoinsMap) (t : uint256)
    (e0 : CCoinsCacheEntry) (hn : mapKeysNodup m) (h : mapFind m t = some e0) :
    usageSum DynamicUsage (mapErase m t) + DynamicUsage e0.coins = usageSum DynamicUsage m := by
  induction m with
  | nil => simp [mapFind] at h
  | cons p rest ih =>
    obtain ⟨k1, v1⟩ := p
    unfold mapKeysNodup at hn
    simp only [List.map_cons, List.nodup_cons] at hn
    by_cases hk : k1 = t
    · simp only [mapFind, hk, if_true, Option.some.injEq] at h
      subst h
      have hnone : mapFind rest t = none :=
        mapFind_none_of_not_mem_keys rest t (hk ▸ hn.1)
      simp only [mapErase, hk, if_true, usageSum_cons, mapErase_absent rest t hnone]
      omega
    · simp only [mapFind, hk, if_false] at h
      simp only [mapErase, hk, if_false, usageSum_cons]
      have := ih hn.2 h
      omega

theorem usageAt_le (DynamicUsage : CCoins → Nat) (m : CCoinsMap) (t : uint256)
    (hn : mapKeysNodup m) :
    usageSum DynamicUsage (mapErase m t) + usageAt DynamicUsage m t = usageSum DynamicUsage m := by
  unfold usageAt
  cases h : mapFind m t with
  | some e0 => exact usageSum_mapErase_present DynamicUsage m t e0 hn h
  | none => simp [mapErase_absent m t h]

theorem usageSum_mapSet (DynamicUsage : CCoins → Nat) (m : CCoinsMap) (t : uint256)
    (e : CCoinsCacheEntry) :
    usageSum DynamicUsage (mapSet m t e) + usageAt DynamicUsage m t =
      usageSum DynamicUsage m + DynamicUsage e.coins := by
  unfold usageAt
  cases h : mapFind m t with
  | some e0 => exact usageSum_mapSet_present DynamicUsage m t e e0 h
  | none => simp [usageSum_mapSet_absent DynamicUsage m t e h]

theorem usage_le_sum_of_mem (DynamicUsage : CCoins → Nat) (m : CCoinsMap) (t : uint256)
    (e : CCoinsCacheEntry) (h : (t, e) ∈ m) :
    DynamicUsage e.coins ≤ usageSum DynamicUsage m := by
  induction m with
  | nil => simp at h
  | cons p rest ih =>
    rw [usageSum_cons]
    rcases List.mem_cons.1 h with h1 | h1
    · subst h1
      exact Nat.le_add_right _ _
    · exact Nat.le_trans (ih h1) (Nat.le_add_left _ _)

/-- The removal of a key with the subtraction of its usage keeps the accounting
right. -/
theorem usageTracked_erase (DynamicUsage : CCoins → Nat) (c c1 : CCoinsViewCache)
    (t : uint256) (h : usageTracked DynamicUsage c) (hm : c1.hasModifier = false)
    (hmap : c1.cacheCoins = mapErase c.cacheCoins t)
    (hu : c1.cachedCoinsUsage =
      sizeSub c.cachedCoinsUsage (usageAt DynamicUsage c.cacheCoins t)) :
    usageTracked DynamicUsage c1 := by
  obtain ⟨_, h2, h3⟩ := h
  refine ⟨hm, ?_, ?_⟩
  · rw [hmap]
    exact mapKeysNodup_mapErase _ _ h2
  · have hle := usageAt_le DynamicUsage c.cacheCoins t h2
    rw [hu, h3, hmap, sizeSub_mod _ _ (by omega)]
    congr 1
    omega

/-- The assignment of a key with the subtraction of its old usage and the
addition of the new one keeps the accounting right. -/
theorem usageTracked_set (DynamicUsage : CCoins → Nat) (c c1 : CCoinsViewCache)
    (t : uint256) (e : CCoinsCacheEntry) (h : usageTracked DynamicUsage c)
    (hm : c1.hasModifier = false) (hmap : c1.cacheCoins = mapSet c.cacheCoins t e)
    (hu : c1.cachedCoinsUsage =
      sizeAdd (sizeSub c.cachedCoinsUsage (usageAt DynamicUsage c.cacheCoins t))
        (DynamicUsage e.coins)) :
    usageTracked DynamicUsage c1 := by
  obtain ⟨_, h2, h3⟩ := h
  refine ⟨hm, ?_, ?_⟩
  · rw [hmap]
    exact mapKeysNodup_mapSet _ _ _ h2
  · have hle := usageAt_le DynamicUsage c.cacheCoins t h2
    have hset := usageSum_mapSet DynamicUsage c.cacheCoins t e
    rw [hu, h3, hmap, sizeSub_mod _ _ (by omega), sizeAdd_mod]
    congr 1
    omega

/-- The insertion of a key not yet present with the addition of its usage keeps
the accounting right. -/
theorem usageTracked_insert (DynamicUsage : CCoins → Nat) (c c1 : CCoinsViewCache)
    (t : uint256) (e : CCoinsCacheEntry) (h : usageTracked DynamicUsage c)
    (hnone : mapFind c.cacheCoins t = none)
    (hm : c1.hasModifier = false) (hmap : c1.cacheCoins = mapSet c.cacheCoins t e)
    (hu : c1.cachedCoinsUsage = sizeAdd c.cachedCoinsUsage (DynamicUsage e.coins)) :
    usageTracked DynamicUsage c1 := by
  obtain ⟨_, h2, h3⟩ := h
  refine ⟨hm, ?_, ?_⟩
  · rw [hmap]
    exact mapKeysNodup_mapSet _ _ _ h2
  · rw [hu, h3, hmap, sizeAdd_mod, usageSum_mapSet_absent DynamicUsage _ t e hnone]

/-- A read keeps the accounting right. -/
theorem usageTracked_fetch (DynamicUsage : CCoins → Nat) (base : CCoinsView)
    (c : CCoinsViewCache) (t : uint256) (h : usageTracked DynamicUsage c) :
    usageTracked DynamicUsage (FetchCoins DynamicUsage base c t).2.2 := by
  cases hc : mapFind c.cacheCoins t with
  | some e0 =>
    rw [fetchCoins_hit DynamicUsage base c t e0 hc]
    exact h
  | none =>
    cases hb : (base.GetCoins DynamicUsage t).1 with
    | none =>
      rw [fetchCoins_miss DynamicUsage base c t hc hb]
      exact h
    | some tmp =>
      rw [fetchCoins_load DynamicUsage base c t tmp hc hb]
      exact usageTracked_insert DynamicUsage c _ t
        { coins := tmp, flags := if tmp.IsPruned then Flags.FRESH else Flags.empty }
        h hc h.1 rfl rfl

/-- The use of a modifier, with the usage total it leaves: the usage of the
record cached before is subtracted and, unless the entry is erased, that of the
trimmed record is added. -/
theorem modifyWith_usage (DynamicUsage : CCoins → Nat) (base : CCoinsView)
    (c : CCoinsViewCache) (txid : uint256) (f : CCoins → CCoins)
    (hm : c.hasModifier = false) :
    ∃ b1 c1, modifyWith DynamicUsage base c txid f = some (b1, c1) ∧
      c1.hasModifier = false ∧
      ((c1.cacheCoins = mapErase c.cacheCoins txid ∧
        c1.cachedCoinsUsage =
          sizeSub c.cachedCoinsUsage (usageAt DynamicUsage c.cacheCoins txid)) ∨
       (∃ e, c1.cacheCoins = mapSet c.cacheCoins txid e ∧
        c1.cachedCoinsUsage =
          sizeAdd (sizeSub c.cachedCoinsUsage (usageAt DynamicUsage c.cacheCoins txid))
            (DynamicUsage e.coins))) := by
  have hmod : ∃ e1, ModifyCoins DynamicUsage base c txid =
      some ({ it := txid, cachedCoinUsage := usageAt DynamicUsage c.cacheCoins txid },
        modifyBase DynamicUsage base c txid,
        { c with cacheCoins := mapSet c.cacheCoins txid e1, hasModifier := true }) := by
    cases hc : mapFind c.cacheCoins txid with
    | some e0 =>
      refine ⟨{ coins := e0.coins, flags := { dirty := true, fresh := e0.flags.fresh } }, ?_⟩
      rw [modifyCoins_cached DynamicUsage base c txid e0 hm hc]
      simp [modifyBase, usageAt, hc]
    | none =>
      refine ⟨newModifyEntry (base.GetCoins DynamicUsage txid).1, ?_⟩
      rw [modifyCoins_new DynamicUsage base c txid hm hc]
      simp [modifyBase, usageAt, hc]
  obtain ⟨e1, h0⟩ := hmod
  by_cases hp : e1.flags.fresh = true ∧ (f e1.coins).Cleanup.IsPruned = true
  · refine ⟨modifyBase DynamicUsage base c txid,
      { c with hasModifier := false
               cachedCoinsUsage :=
                 sizeSub c.cachedCoinsUsage (usageAt DynamicUsage c.cacheCoins txid)
               cacheCoins := mapErase c.cacheCoins txid }, ?_, rfl, Or.inl ⟨rfl, rfl⟩⟩
    simp only [modifyWith, h0, CCoinsModifier.mutate, CCoinsModifier.drop, mapFind_mapSet,
      if_true]
    simp [hp.1, hp.2, mapFind_mapSet, mapSet_mapSet, mapErase_mapSet]
  · refine ⟨modifyBase DynamicUsage base c txid,
      { c with hasModifier := false
               cachedCoinsUsage :=
                 sizeAdd (sizeSub c.cachedCoinsUsage (usageAt DynamicUsage c.cacheCoins txid))
                   (DynamicUsage (f e1.coins).Cleanup)
               cacheCoins := mapSet c.cacheCoins txid
                 { coins := (f e1.coins).Cleanup, flags := e1.flags } }, ?_, rfl,
      Or.inr ⟨{ coins := (f e1.coins).Cleanup, flags := e1.flags }, rfl, rfl⟩⟩
    simp only [modifyWith, h0, CCoinsModifier.mutate, CCoinsModifier.drop, mapFind_mapSet,
      if_true]
    have hp2 : ¬ (e1.flags.fresh = true ∧ (f e1.coins).Cleanup.IsPruned = true) := hp
    simp only [Bool.and_eq_true] at *
    simp [hp2, mapFind_mapSet, mapSet_mapSet]

/-- The use of a modifier keeps the accounting right. -/
theorem usageTracked_modify (DynamicUsage : CCoins → Nat) (base : CCoinsView)
    (c : CCoinsViewCache) (t : uint256) (f : CCoins → CCoins) (s1 : CCoinsView × CCoinsViewCache)
    (h : usageTracked DynamicUsage c)
    (hrun : modifyWith DynamicUsage base c t f = some s1) :
    usageTracked DynamicUsage s1.2 := by
  obtain ⟨b1, c1, hw, hm1, hcase⟩ := modifyWith_usage DynamicUsage base c t f h.1
  rw [hw] at hrun
  cases hrun
  rcases hcase with ⟨hmap, hu⟩ | ⟨e, hmap, hu⟩
  · exact usageTracked_erase DynamicUsage c c1 t h hm1 hmap hu
  · exact usageTracked_set DynamicUsage c c1 t e h hm1 hmap hu

/-- The loop of `BatchWrite` keeps the accounting of the written cache right,
whatever the child's map holds. -/
theorem usageTracked_batchWriteLoop (DynamicUsage : CCoins → Nat) :
    ∀ (mapCoins : CCoinsMap) (c : CCoinsViewCache) (r : CCoinsViewCache × CCoinsMap),
      usageTracked DynamicUsage c → batchWriteLoop DynamicUsage c mapCoins = some r →
      usageTracked DynamicUsage r.1 := by
  intro mapCoins
  induction mapCoins with
  | nil =>
    intro c r h hr
    simp only [batchWriteLoop, Option.some.injEq] at hr
    subst hr
    exact h
  | cons p rest ih =>
    intro c r h hr
    obtain ⟨txid, child⟩ := p
    unfold batchWriteLoop at hr
    by_cases hd : child.flags.dirty = true
    · simp only [hd, if_true] at hr
      cases hus : mapFind c.cacheCoins txid with
      | none =>
        simp only [hus] at hr
        by_cases hp : child.coins.IsPruned = true
        · simp only [hp, Bool.not_true, Bool.false_eq_true, if_false] at hr
          exact ih c r h hr
        · have hp2 : child.coins.IsPruned = false := by simpa using hp
          simp only [hp2, Bool.not_false, if_true] at hr
          by_cases hf : child.flags.fresh = true
          · simp only [hf, if_true] at hr
            refine ih _ r ?_ hr
            exact usageTracked_insert DynamicUsage c _ txid
              { coins := child.coins, flags := Flags.DIRTY.union Flags.FRESH }
              h hus h.1 rfl rfl
          · simp [hf] at hr
      | some us =>
        simp only [hus] at hr
        have hat : usageAt DynamicUsage c.cacheCoins txid = DynamicUsage us.coins := by
          simp [usageAt, hus]
        by_cases hcond : (us.flags.fresh && child.coins.IsPruned) = true
        · simp only [hcond, if_true] at hr
          refine ih _ r ?_ hr
          exact usageTracked_erase DynamicUsage c _ txid h h.1 rfl (by rw [hat])
        · simp only [hcond, if_false] at hr
          refine ih _ r ?_ hr
          exact usageTracked_set DynamicUsage c _ txid
            { coins := child.coins, flags := us.flags.union Flags.DIRTY }
            h h.1 rfl (by rw [hat])
    · simp only [hd, if_false] at hr
      exact ih c r h hr

/-- Every operation keeps the accounting right. -/
theorem usageTracked_step (DynamicUsage : CCoins → Nat) (op : CacheOp)
    (s s1 : CCoinsView × CCoinsViewCache) (h : usageTracked DynamicUsage s.2)
    (hrun : op.run DynamicUsage s = some s1) : usageTracked DynamicUsage s1.2 := by
  cases op with
  | getCoins t =>
    simp only [CacheOp.run, getCoins_state, Option.some.injEq] at hrun
    subst hrun
    exact usageTracked_fetch DynamicUsage s.1 s.2 t h
  | accessCoins t =>
    simp only [CacheOp.run, accessCoins_state, Option.some.injEq] at hrun
    subst hrun
    exact usageTracked_fetch DynamicUsage s.1 s.2 t h
  | haveCoins t =>
    simp only [CacheOp.run, haveCoins_state, Option.some.injEq] at hrun
    subst hrun
    exact usageTracked_fetch DynamicUsage s.1 s.2 t h
  | modify t f =>
    exact usageTracked_modify DynamicUsage s.1 s.2 t f s1 h hrun
  | batchWrite m hb n =>
    simp only [CacheOp.run, CCoinsViewCache.BatchWrite, h.1, Bool.false_eq_true,
      if_false] at hrun
    cases hl : batchWriteLoop DynamicUsage s.2 m with
    | none => simp [hl] at hrun
    | some r =>
      have hr := usageTracked_batchWriteLoop DynamicUsage m s.2 r h hl
      simp only [hl, Option.some.injEq] at hrun
      subst hrun
      exact hr
  | flush =>
    simp only [CacheOp.run] at hrun
    cases hf : Flush DynamicUsage s.1 s.2 with
    | none => simp [hf] at hrun
    | some r =>
      simp only [hf, Option.some.injEq] at hrun
      subst hrun
      unfold Flush at hf
      cases hbw : s.1.BatchWrite DynamicUsage s.2.cacheCoins s.2.hashBlock s.2.cacheNames with
      | none => simp [hbw] at hf
      | some w =>
        simp only [hbw, Option.some.injEq] at hf
        subst hf
        refine ⟨h.1, ?_, ?_⟩
        · unfold mapKeysNodup
          simp
        · simp [usageSum]

/-- Every run of operations keeps the accounting right. -/
theorem usageTracked_run (DynamicUsage : CCoins → Nat) :
    ∀ (ops : List CacheOp) (s s1 : CCoinsView × CCoinsViewCache),
      usageTracked DynamicUsage s.2 → runOps DynamicUsage ops s = some s1 →
      usageTracked DynamicUsage s1.2 := by
  intro ops
  induction ops with
  | nil =>
    intro s s1 h hrun
    simp only [runOps, Option.some.injEq] at hrun
    subst hrun
    exact h
  | cons op rest ih =>
    intro s s1 h hrun
    simp only [runOps] at hrun
    cases hop : op.run DynamicUsage s with
    | none => simp [hop] at hrun
    | some s2 =>
      simp only [hop] at hrun
      exact ih s2 s1 (usageTracked_step DynamicUsage op s s2 h hop) hrun

/-! ## C21: the usage accounting invariant -/

/-- C21: in every state reached from a newly constructed cache by reads, uses of
a modifier, `BatchWrite` and `Flush`, no modifier is live and `cachedCoinsUsage`
is the sum of the usage of the records in the coin map as a `size_t` (modulo
`2^64`); when that sum is below `2^64` the two are equal and subtracting the
usage of any entry of the map does not go below zero. -/
theorem usage_accounting (DynamicUsage : CCoins → Nat) (base : CCoinsView)
    (ops : List CacheOp) (s1 : CCoinsView × CCoinsViewCache)
    (hrun : runOps DynamicUsage ops (base, CCoinsViewCache.new) = some s1) :
    s1.2.hasModifier = false ∧
    s1.2.cachedCoinsUsage = usageSum DynamicUsage s1.2.cacheCoins % sizeMod ∧
    (usageSum DynamicUsage s1.2.cacheCoins < sizeMod →
      s1.2.cachedCoinsUsage = usageSum DynamicUsage s1.2.cacheCoins ∧
      ∀ txid e, (txid, e) ∈ s1.2.cacheCoins →
        DynamicUsage e.coins ≤ s1.2.cachedCoinsUsage ∧
        sizeSub s1.2.cachedCoinsUsage (DynamicUsage e.coins) + DynamicUsage e.coins =
          s1.2.cachedCoinsUsage) := by
  have hinit : usageTracked DynamicUsage CCoinsViewCache.new := by
    refine ⟨rfl, ?_, ?_⟩
    · unfold mapKeysNodup
      simp [CCoinsViewCache.new]
    · simp [CCoinsViewCache.new, usageSum]
  obtain ⟨h1, _, h3⟩ :=
    usageTracked_run DynamicUsage ops (base, CCoinsViewCache.new) s1 hinit hrun
  refine ⟨h1, h3, ?_⟩
  intro hlt
  have heq : s1.2.cachedCoinsUsage = usageSum DynamicUsage s1.2.cacheCoins := by
    rw [h3, Nat.mod_eq_of_lt hlt]
  refine ⟨heq, ?_⟩
  intro txid e hmem
  have hle : DynamicUsage e.coins ≤ s1.2.cachedCoinsUsage := by
    rw [heq]
    exact usage_le_sum_of_mem DynamicUsage _ txid e hmem
  exact ⟨hle, sizeSub_le _ _ hle (by rw [heq]; exact hlt)⟩

/-- Witness for C21: transaction `7` is read from the store (usage 2), `8` is
created with one output (usage 1) and the second output of `7` is spent (usage
2 replaced by 1); the total is then 2. -/
theorem usage_accounting_witness :
    runOps exUsage
        [CacheOp.getCoins 7, CacheOp.modify 8 (setVout [some exOutA, none]),
         CacheOp.modify 7 (spendAt 1)]
        (CCoinsView.store exStoreAB, CCoinsViewCache.new) =
      some (CCoinsView.store exStoreAB,
        { CCoinsViewCache.new with
          cacheCoins :=
            [(7, { coins := exCoinsA, flags := { dirty := true, fresh := false } }),
             (8, { coins := { fCoinBase := false, vout := [some exOutA], nHeight := 0,
                              nVersion := 0 },
                   flags := { dirty := true, fresh := true } })]
          cachedCoinsUsage := 2 }) ∧
    usageSum exUsage
        [(7, { coins := exCoinsA, flags := { dirty := true, fresh := false } }),
         (8, { coins := { fCoinBase := false, vout := [some exOutA], nHeight := 0,
                          nVersion := 0 },
               flags := { dirty := true, fresh := true } })] = 2 ∧
    (2 : Nat) = 2 % sizeMod :=
  ⟨by decide, by decide,
   (usage_accounting exUsage (CCoinsView.store exStoreAB)
    [CacheOp.getCoins 7, CacheOp.modify 8 (setVout [some exOutA, none]),
     CacheOp.modify 7 (spendAt 1)]
    (CCoinsView.store exStoreAB,
      { CCoinsViewCache.new with
        cacheCoins :=
          [(7, { coins := exCoinsA, flags := { dirty := true, fresh := false } }),
           (8, { coins := { fCoinBase := false, vout := [some exOutA], nHeight := 0,
                            nVersion := 0 },
                 flags := { dirty := true, fresh := true } })]
        cachedCoinsUsage := 2 })
    (by decide)).2.1⟩

end Coins
